import Mathlib

/-!
Verification of the log-analyzer pipeline (`log_analyzer.py`): a shallow
embedding of `calculate_statistics`, the top-N selection in `main`,
`find_last_log_file`, and `process_line`, with theorems checking the
natural-language specification against the code.

Latencies are modelled as rationals; Python's `round(x, 3)` is modelled as
round-half-to-even at the third decimal.
-/

namespace LogAnalyzer

/-- Round-half-to-even to the nearest integer, as Python's `round`. -/
def roundHalfEven (q : ℚ) : ℤ :=
  if Int.fract q < 1/2 then ⌊q⌋
  else if 1/2 < Int.fract q then ⌊q⌋ + 1
  else if 2 ∣ ⌊q⌋ then ⌊q⌋ else ⌊q⌋ + 1

/-- Python's `round(q, 3)`: round to 3 decimal digits, ties to even. -/
def round3 (q : ℚ) : ℚ := (roundHalfEven (q * 1000) : ℚ) / 1000

/-- One parsed line as handed to `calculate_statistics` by `parse_log`:
`none` for a line `process_line` did not match, `some (url, request_time)`
otherwise. -/
abbrev ParsedLine := Option (String × ℚ)

/-- `statistics.setdefault(url, []).append(request_time)` on an
insertion-ordered dictionary (Python dicts iterate in insertion order). -/
def updateStat : List (String × List ℚ) → String → ℚ → List (String × List ℚ)
  | [], url, rt => [(url, [rt])]
  | (u, ds) :: rest, url, rt =>
      if u = url then (u, ds ++ [rt]) :: rest
      else (u, ds) :: updateStat rest url rt

/-- The loop state of `calculate_statistics`: `total`, `processed`,
`processed_request_time` and the `statistics` dictionary. -/
structure FoldState where
  total : ℕ
  processed : ℕ
  processed_request_time : ℚ
  statistics : List (String × List ℚ)
  deriving DecidableEq

/-- One iteration of the `for parsed_line in log_parser(file_path)` loop. -/
def stepLine (st : FoldState) (pl : ParsedLine) : FoldState :=
  match pl with
  | none => { st with total := st.total + 1 }
  | some (url, rt) =>
      { st with
        total := st.total + 1
        processed := st.processed + 1
        statistics := updateStat st.statistics url rt
        processed_request_time := st.processed_request_time + rt }

/-- The whole reading loop, starting from zeroed counters. -/
def foldLines (lines : List ParsedLine) : FoldState :=
  lines.foldl stepLine ⟨0, 0, 0, []⟩

/-- Stable ascending insertion (Python `sorted` on values). -/
def insertAsc (x : ℚ) : List ℚ → List ℚ
  | [] => [x]
  | y :: ys => if x ≤ y then x :: y :: ys else y :: insertAsc x ys

/-- Python `sorted` on a list of numbers. -/
def sortAsc : List ℚ → List ℚ
  | [] => []
  | x :: xs => insertAsc x (sortAsc xs)

/-- `statistics.median`: middle element of the sorted data for odd length,
average of the two middle elements for even length (0 for empty data, which
in the source raises before `median` is ever reached on empty data). -/
def median (data : List ℚ) : ℚ :=
  let s := sortAsc data
  let n := s.length
  if n % 2 = 1 then s.getD (n / 2) 0
  else (s.getD (n / 2 - 1) 0 + s.getD (n / 2) 0) / 2

/-- Python `max` on a list (0 as junk value for the empty list, which the
source never reaches). -/
def listMax : List ℚ → ℚ
  | [] => 0
  | x :: xs => xs.foldl max x

/-- One value of the `enriched_statistics` dictionary. -/
structure Entry where
  url : String
  count : ℕ
  count_perc : ℚ
  time_sum : ℚ
  time_perc : ℚ
  time_avg : ℚ
  time_max : ℚ
  time_med : ℚ
  deriving DecidableEq, Repr

/-- A Python exception escaping `calculate_statistics`:
`ErrorsLimitExceedError`, or `ZeroDivisionError` from one of the
share/average divisions. -/
inductive CalcError where
  | errorsLimit : CalcError
  | zeroDivision : CalcError
  deriving DecidableEq, Repr

/-- The body of the enrichment loop for one `url`, with each Python division
that can raise `ZeroDivisionError` checked in evaluation order
(`count / all_count`, then `time_sum / all_time_sum`, then
`time_sum / count`). -/
def enrichOne (url : String) (data : List ℚ) (allCount : ℕ) (allTime : ℚ) :
    Except CalcError Entry :=
  if allCount = 0 then .error .zeroDivision
  else if allTime = 0 then .error .zeroDivision
  else if data.length = 0 then .error .zeroDivision
  else
    let count : ℚ := data.length
    let count_perc := count / allCount
    let time_sum := data.sum
    let time_perc := time_sum / allTime
    let time_avg := time_sum / count
    .ok { url := url
          count := data.length
          count_perc := round3 (count_perc * 100)
          time_sum := round3 time_sum
          time_perc := round3 (time_perc * 100)
          time_avg := round3 time_avg
          time_max := round3 (listMax data)
          time_med := round3 (median data) }

/-- The enrichment loop over the `statistics` dictionary in insertion
order. -/
def enrichList (stats : List (String × List ℚ)) (allCount : ℕ) (allTime : ℚ) :
    Except CalcError (List (String × Entry)) :=
  match stats with
  | [] => .ok []
  | (url, data) :: rest =>
      match enrichOne url data allCount allTime with
      | .error e => .error e
      | .ok e =>
          match enrichList rest allCount allTime with
          | .error e2 => .error e2
          | .ok es => .ok ((url, e) :: es)

/-- `calculate_statistics`, with the input file and `log_parser` replaced by
the stream of its per-line results.  The errors gate reproduces the source
literally: with a non-`None` `errors_limit` and a nonempty stream it raises
as soon as the failure ratio is truthy, i.e. nonzero. -/
def calculate_statistics (lines : List ParsedLine) (errors_limit : Option ℚ) :
    Except CalcError (List (String × Entry)) :=
  let st := foldLines lines
  if errors_limit.isSome ∧ st.total > 0 then
    let cur : ℚ := ((st.total : ℚ) - st.processed) / st.total
    if cur ≠ 0 then .error .errorsLimit
    else enrichList st.statistics st.processed st.processed_request_time
  else enrichList st.statistics st.processed st.processed_request_time

/-- Stable insertion of an entry into a list sorted by `time_sum`
descending: the new element goes after every existing element whose
`time_sum` is not smaller, matching Python's stable
`sorted(..., reverse=True)`. -/
def insertDesc (x : Entry) : List Entry → List Entry
  | [] => [x]
  | y :: ys => if y.time_sum ≤ x.time_sum then x :: y :: ys else y :: insertDesc x ys

/-- Stable sort of the entries by `time_sum` descending. -/
def sortDesc : List Entry → List Entry
  | [] => []
  | x :: xs => insertDesc x (sortDesc xs)

/-- The report-building tail of `main`:
`sorted(statistics.values(), key=lambda x: x["time_sum"], reverse=True)`
truncated to `REPORT_SIZE`, applied to the outcome of
`calculate_statistics`. -/
def mainPipeline (lines : List ParsedLine) (errors_limit : Option ℚ)
    (report_size : ℕ) : Except CalcError (List Entry) :=
  (calculate_statistics lines errors_limit).map
    (fun stats => (sortDesc (stats.map Prod.snd)).take report_size)

/-! ## `find_last_log_file` -/

/-- Decimal value of a digit string. -/
def digitsVal (cs : List Char) : ℕ :=
  cs.foldl (fun acc c => acc * 10 + (c.toNat - 48)) 0

/-- Days in a month of the proleptic Gregorian calendar used by
`datetime`. -/
def daysInMonth (y m : ℕ) : ℕ :=
  if m = 2 then
    if y % 4 = 0 ∧ (y % 100 ≠ 0 ∨ y % 400 = 0) then 29 else 28
  else if m = 4 ∨ m = 6 ∨ m = 9 ∨ m = 11 then 30
  else 31

/-- Whether `datetime.datetime.strptime(d, "%Y%m%d")` accepts the 8-digit
string with numeric value `code` (year `≥ 1`, valid month and day). -/
def validDate (code : ℕ) : Bool :=
  let y := code / 10000
  let m := code / 100 % 100
  let d := code % 100
  decide (1 ≤ y ∧ 1 ≤ m ∧ m ≤ 12 ∧ 1 ≤ d ∧ d ≤ daysInMonth y m)

/-- `re.match(FILE_NAME_REGEXP, name)` (anchored on both sides) followed by
the `strptime` date check: `some yyyymmdd` exactly when the name is
`nginx-access-ui.log-<8 digits>` with an optional `.gz` suffix and the 8
digits form a valid calendar date.  Comparing the numeric `yyyymmdd` codes
agrees with comparing the `datetime.date` values. -/
def parseLogName (name : String) : Option ℕ :=
  let cs := name.toList
  if cs.take 20 = "nginx-access-ui.log-".toList then
    let rest := cs.drop 20
    let ds := rest.take 8
    let suf := rest.drop 8
    if ds.length = 8 ∧ ds.all Char.isDigit ∧ (suf = [] ∨ suf = ['.', 'g', 'z']) then
      let code := digitsVal ds
      if validDate code then some code else none
    else none
  else none

/-- `os.path.join(dir_path, file_name)` for a relative `file_name`. -/
def joinPath (dir file : String) : String :=
  if dir = "" ∨ dir.toList.getLast? = some '/' then dir ++ file
  else dir ++ "/" ++ file

/-- One step of the scanning loop of `find_last_log_file`: the previous
candidate is kept unless the entry parses to a strictly greater date
(`log_date > last_log_info.date`). -/
def scanStep (dir : String) (acc : Option (String × ℕ)) (name : String) :
    Option (String × ℕ) :=
  match parseLogName name with
  | none => acc
  | some d =>
      match acc with
      | none => some (joinPath dir name, d)
      | some (p, d0) => if d0 < d then some (joinPath dir name, d) else some (p, d0)

/-- `find_last_log_file`, with the directory replaced by its existence flag
and its `os.listdir` listing. -/
def find_last_log_file (dirExists : Bool) (dir : String) (names : List String) :
    Option (String × ℕ) :=
  if dirExists then names.foldl (scanStep dir) none else none

/-! ## `process_line` and `NGINX_LOG_FORMAT_REGEXP`

The pattern is transcribed atom for atom into a small regex language with
Python's backtracking (priority) semantics: alternatives are tried left to
right, a greedy star consumes first, a lazy star stops first, and the first
complete success wins. -/

/-- Priority-ordered regular expressions over characters: `one` matches a
single character of a class, `alt` prefers its left arm, `starL` and
`starG` are the lazy and greedy Kleene star of a character class, and
`mark` records the current input position under a label. -/
inductive RE where
  | eps : RE
  | one : (Char → Bool) → RE
  | seq : RE → RE → RE
  | alt : RE → RE → RE
  | starL : (Char → Bool) → RE
  | starG : (Char → Bool) → RE
  | mark : ℕ → RE

/-- A matching continuation: remaining input, current position, and the
marks recorded so far. -/
abbrev K := List Char → ℕ → List (ℕ × ℕ) → Option (List (ℕ × ℕ))

/-- Lazy star: run the continuation first, consume a character on
failure. -/
def loopL (p : Char → Bool) (k : K) : List Char → ℕ → List (ℕ × ℕ) →
    Option (List (ℕ × ℕ))
  | [], i, ms => k [] i ms
  | c :: s, i, ms =>
      k (c :: s) i ms <|> (if p c then loopL p k s (i + 1) ms else none)

/-- Greedy star: consume a character first, run the continuation on
failure. -/
def loopG (p : Char → Bool) (k : K) : List Char → ℕ → List (ℕ × ℕ) →
    Option (List (ℕ × ℕ))
  | [], i, ms => k [] i ms
  | c :: s, i, ms =>
      (if p c then loopG p k s (i + 1) ms else none) <|> k (c :: s) i ms

/-- The backtracking matcher in continuation style.  The first success in
priority order wins, exactly as in Python's `re`. -/
def runRE : RE → K → K
  | .eps, k => k
  | .one p, k => fun s i ms =>
      match s with
      | [] => none
      | c :: s2 => if p c then k s2 (i + 1) ms else none
  | .seq a b, k => runRE a (runRE b k)
  | .alt a b, k => fun s i ms => runRE a k s i ms <|> runRE b k s i ms
  | .starL p, k => loopL p k
  | .starG p, k => loopG p k
  | .mark n, k => fun s i ms => k s i (ms ++ [(n, i)])

/-- `.` in a Python pattern: any character except a newline. -/
def anyC (c : Char) : Bool := !(c == '\n')

/-- `\s` (ASCII range). -/
def wsC (c : Char) : Bool :=
  c == ' ' || c == '\t' || c == '\n' || c == '\x0b' || c == '\x0c' || c == '\r'

/-- `\d` (ASCII range). -/
def digC (c : Char) : Bool := c.isDigit

/-- Concatenation of a list of regexes. -/
def cat (l : List RE) : RE := l.foldr RE.seq RE.eps

/-- A literal string. -/
def lit (t : String) : RE := cat (t.toList.map (fun c => RE.one (· == c)))

/-- `\s+`. -/
def wsPlus : RE := .seq (.one wsC) (.starG wsC)

/-- `\d{1,3}` (greedy, so three digits are preferred over two over one). -/
def dig13 : RE :=
  .seq (.one digC) (.alt (.seq (.one digC) (.alt (.one digC) .eps)) .eps)

/-- `NGINX_LOG_FORMAT_REGEXP`, transcribed group for group; marks 0 and 1
bracket the `path` group, marks 2 and 3 the `request_time` group. -/
def nginxRE : RE := cat [
  dig13, lit ".", dig13, lit ".", dig13, lit ".", dig13,
  wsPlus, .starL anyC,
  wsPlus, .starL anyC,
  wsPlus, lit "[", .starL anyC, lit "]",
  wsPlus, lit "\"", .starL anyC,
  wsPlus, .mark 0, .starL anyC, .mark 1,
  .alt (cat [wsPlus, lit "HTTP/", .starG anyC]) .eps,
  lit "\"", wsPlus, .starL anyC,
  wsPlus, .starL anyC,
  wsPlus, lit "\"", .starL anyC, lit "\"",
  wsPlus, lit "\"", .starL anyC, lit "\"",
  wsPlus, lit "\"", .starL anyC, lit "\"",
  wsPlus, lit "\"", .starL anyC, lit "\"",
  wsPlus, lit "\"", .starG anyC, lit "\"",
  wsPlus,
  .mark 2, .one digC, .starG digC,
  .alt (.one (· == '.')) .eps, .starG digC, .mark 3 ]

/-- Position recorded under label `n` (0 when absent, which cannot happen
on a successful match of `nginxRE`). -/
def markPos (ms : List (ℕ × ℕ)) (n : ℕ) : ℕ :=
  match ms.find? (fun q => q.1 == n) with
  | some q => q.2
  | none => 0

/-- The characters of positions `[a, b)`. -/
def sliceChars (cs : List Char) (a b : ℕ) : List Char := (cs.drop a).take (b - a)

/-- Python `float` applied to a string matched by `\d+\.?\d*`. -/
def parseNum (cs : List Char) : ℚ :=
  let ip := cs.takeWhile Char.isDigit
  match cs.dropWhile Char.isDigit with
  | [] => (digitsVal ip : ℚ)
  | x :: fr =>
      if x = '.' then
        let fd := fr.takeWhile Char.isDigit
        (digitsVal ip : ℚ) + (digitsVal fd : ℚ) / (10 : ℚ) ^ fd.length
      else (digitsVal ip : ℚ)

/-- `process_line`: `NGINX_LOG_FORMAT_REGEXP.match(line)` and, on success,
the pair of the `path` capture and the `request_time` capture read as a
number. -/
def process_line (line : String) : Option (String × ℚ) :=
  match runRE nginxRE (fun _ _ ms => some ms) line.toList 0 [] with
  | none => none
  | some ms =>
      let cs := line.toList
      some (⟨sliceChars cs (markPos ms 0) (markPos ms 1)⟩,
            parseNum (sliceChars cs (markPos ms 2) (markPos ms 3)))

/-! ## The documented line format

`validLineSpec` follows the spec's words, not the source, and exists only
to be compared with `process_line`: "client-IP, remote-user, forwarded-IP,
`[timestamp]`, `"METHOD PATH[ HTTP/version]"`, status, body-bytes,
`"referer"`, `"user-agent"`, `"x-forwarded-for"`, `"request-id"`,
`"rb-user"`, trailing numeric duration — whitespace-separated fields as
shown, quoted groups literal". -/

/-- Consume one expected character. -/
def chomp (c : Char) : List Char → Option (List Char)
  | x :: rest => if x = c then some rest else none
  | [] => none

/-- Consume 1 to 3 digits (one octet of the client IP). -/
def octet (cs : List Char) : Option (List Char) :=
  let ds := cs.takeWhile Char.isDigit
  if 1 ≤ ds.length ∧ ds.length ≤ 3 then some (cs.drop ds.length) else none

/-- Consume one nonempty unquoted field: no whitespace, no quote. -/
def fieldTok (cs : List Char) : Option (List Char) :=
  let f := cs.takeWhile (fun c => !(wsC c) && !(c == '"'))
  if f.length = 0 then none else some (cs.drop f.length)

/-- Consume `[timestamp]`: a nonempty bracketed group without `]` or
newline. -/
def timePart (cs : List Char) : Option (List Char) :=
  match cs with
  | [] => none
  | x :: rest =>
      if x = '[' then
        let f := rest.takeWhile (fun c => !(c == ']') && !(c == '\n'))
        if f.length = 0 then none
        else
          match rest.drop f.length with
          | [] => none
          | y :: rest2 => if y = ']' then some rest2 else none
      else none

/-- Consume a quoted group: `"` , any characters except `"` and newline,
`"`. -/
def quoted (cs : List Char) : Option (List Char) :=
  match cs with
  | [] => none
  | x :: rest =>
      if x = '"' then
        let f := rest.takeWhile (fun c => !(c == '"') && !(c == '\n'))
        match rest.drop f.length with
        | [] => none
        | y :: rest2 => if y = '"' then some rest2 else none
      else none

/-- Consume the end of the request group after the path token: either the
closing quote at once, or ` HTTP/version` and then the closing quote. -/
def requestEnd (cs : List Char) : Option (List Char) :=
  match cs with
  | [] => none
  | x :: rest =>
      if x = '"' then some rest
      else if rest.take 5 = ['H', 'T', 'T', 'P', '/'] ∧ x = ' ' then
        let r4 := rest.drop 5
        let v := r4.takeWhile (fun c => !(c == '"') && !(c == '\n'))
        if v.length = 0 then none
        else
          match r4.drop v.length with
          | [] => none
          | y :: rest2 => if y = '"' then some rest2 else none
      else none

/-- Consume `"METHOD PATH[ HTTP/version]"`: quoted request line with a
method token, a path token and an optional HTTP version. -/
def requestPart (cs : List Char) : Option (List Char) :=
  ((((chomp '"' cs).bind fieldTok).bind (chomp ' ')).bind fieldTok).bind requestEnd

/-- Consume the trailing duration — a non-negative decimal number, integer
or fractional — and then the end of the line (an optional final
newline). -/
def durationPart (cs : List Char) : Option (List Char) :=
  let ds := cs.takeWhile Char.isDigit
  if ds.length = 0 then none
  else
    let rest := cs.drop ds.length
    if rest = [] ∨ rest = ['\n'] then some []
    else
      match rest with
      | [] => none
      | x :: r =>
          if x = '.' then
            let fs := r.takeWhile Char.isDigit
            if fs.length = 0 then none
            else if r.drop fs.length = [] ∨ r.drop fs.length = ['\n'] then
              some []
            else none
          else none

/-- Consume the client IP: four octets separated by dots. -/
def ipPart (cs : List Char) : Option (List Char) :=
  ((((((octet cs).bind (chomp '.')).bind octet).bind (chomp '.')).bind
      octet).bind (chomp '.')).bind octet

/-- Modelled from the spec: the documented combined-log line format
(§6 "Input line format"), as a whole-line check. -/
def validLineSpec (line : String) : Bool :=
  ((ipPart line.toList).bind (chomp ' ')
    |>.bind fieldTok |>.bind (chomp ' ')
    |>.bind fieldTok |>.bind (chomp ' ')
    |>.bind timePart |>.bind (chomp ' ')
    |>.bind requestPart |>.bind (chomp ' ')
    |>.bind fieldTok |>.bind (chomp ' ')
    |>.bind fieldTok |>.bind (chomp ' ')
    |>.bind quoted |>.bind (chomp ' ')
    |>.bind quoted |>.bind (chomp ' ')
    |>.bind quoted |>.bind (chomp ' ')
    |>.bind quoted |>.bind (chomp ' ')
    |>.bind quoted |>.bind (chomp ' ')
    |>.bind durationPart).isSome

/-- The first character of `s` (if any) does not satisfy `p`. -/
def headNot (p : Char → Bool) : List Char → Prop
  | [] => True
  | c :: _ => p c = false

/-- Number of `"` characters in a string. -/
def quotes (s : List Char) : ℕ := s.countP (fun c => c == '"')

/-- The continuation `k` fails on every input holding fewer than `m`
quote characters. -/
def KFails (m : ℕ) (k : K) : Prop :=
  ∀ s i ms, quotes s < m → k s i ms = none

/-- The spec's end-to-end example stream: endpoints `/a` (durations 0.1,
0.3) and `/b` (duration 0.2), all three lines parsed. -/
def exampleLines : List ParsedLine :=
  [some ("/a", 1/10), some ("/a", 3/10), some ("/b", 2/10)]

/-- The `/a` entry the example must produce. -/
def exampleEntryA : Entry :=
  { url := "/a", count := 2, count_perc := 66667/1000, time_sum := 2/5,
    time_perc := 66667/1000, time_avg := 1/5, time_max := 3/10,
    time_med := 1/5 }

/-- The `/b` entry the example must produce. -/
def exampleEntryB : Entry :=
  { url := "/b", count := 1, count_perc := 33333/1000, time_sum := 1/5,
    time_perc := 33333/1000, time_avg := 1/5, time_max := 1/5,
    time_med := 1/5 }

/-- Two endpoints whose latency sums differ (0.0001 vs 0.0002) but round to
the same 3-decimal `time_sum` 0.0. -/
def tieLines : List ParsedLine := [some ("u", 1/10000), some ("v", 1/5000)]

/-- The `u` entry produced from `tieLines`. -/
def tieEntryU : Entry :=
  { url := "u", count := 1, count_perc := 50, time_sum := 0,
    time_perc := 33333/1000, time_avg := 0, time_max := 0, time_med := 0 }

/-- The `v` entry produced from `tieLines`. -/
def tieEntryV : Entry :=
  { url := "v", count := 1, count_perc := 50, time_sum := 0,
    time_perc := 66667/1000, time_avg := 0, time_max := 0, time_med := 0 }

/-! ## Bookkeeping lemmas about the aggregation fold -/

theorem abs_roundHalfEven_sub (q : ℚ) : |(roundHalfEven q : ℚ) - q| ≤ 1/2 := by
  unfold roundHalfEven
  have hfr : (0:ℚ) ≤ Int.fract q := Int.fract_nonneg q
  have hfl : Int.fract q < 1 := Int.fract_lt_one q
  have hq : (⌊q⌋ : ℚ) = q - Int.fract q := (Int.self_sub_fract q).symm
  split_ifs with h1 h2 h3 <;>
    · rw [abs_le]
      push_cast [hq]
      constructor <;> linarith

theorem abs_round3_sub (q : ℚ) : |round3 q - q| ≤ 1/2000 := by
  have h := abs_roundHalfEven_sub (q * 1000)
  unfold round3
  have : (roundHalfEven (q * 1000) : ℚ) / 1000 - q
      = ((roundHalfEven (q * 1000) : ℚ) - q * 1000) / 1000 := by ring
  rw [this, abs_div]
  have h1000 : |(1000 : ℚ)| = 1000 := by norm_num
  rw [h1000, div_le_iff₀ (by norm_num : (0:ℚ) < 1000)]
  norm_num
  linarith


/-- The accumulator list held for `u` in the `statistics` dictionary
(`[]` when `u` is absent). -/
def samples : List (String × List ℚ) → String → List ℚ
  | [], _ => []
  | (v, ds) :: rest, u => if v = u then ds else samples rest u

/-- Total number of samples across all endpoints. -/
def statCount (stats : List (String × List ℚ)) : ℕ :=
  (stats.map (fun p => p.2.length)).sum

/-- Total latency across all endpoints. -/
def statSum (stats : List (String × List ℚ)) : ℚ :=
  (stats.map (fun p => p.2.sum)).sum

/-- The keys of the `statistics` dictionary, in insertion order. -/
def keys (stats : List (String × List ℚ)) : List String := stats.map Prod.fst

/-- Sum of the durations of the parsed lines of a stream. -/
def parsedSum (ls : List ParsedLine) : ℚ :=
  (ls.filterMap (fun pl => pl.map Prod.snd)).sum

/-! Suffixes of the atom list of `nginxRE`, named by the group each one
starts with. -/

/-- Atoms from the trailing `request_time` group on. -/
def durAtoms : List RE :=
  [.mark 2, .one digC, .starG digC, .alt (.one (· == '.')) .eps,
   .starG digC, .mark 3]

/-- Atoms from the greedy quoted `http_X_RB_USER` group on. -/
def rbAtoms : List RE :=
  wsPlus :: lit "\"" :: .starG anyC :: lit "\"" :: wsPlus :: durAtoms

/-- Atoms from the quoted `http_X_REQUEST_ID` group on. -/
def ridAtoms : List RE :=
  wsPlus :: lit "\"" :: .starL anyC :: lit "\"" :: rbAtoms

/-- Atoms from the quoted `http_x_forwarded_for` group on. -/
def xffAtoms : List RE :=
  wsPlus :: lit "\"" :: .starL anyC :: lit "\"" :: ridAtoms

/-- Atoms from the quoted `user_agent` group on. -/
def uaAtoms : List RE :=
  wsPlus :: lit "\"" :: .starL anyC :: lit "\"" :: xffAtoms

/-- Atoms from the quoted `http_referer` group on. -/
def refAtoms : List RE :=
  wsPlus :: lit "\"" :: .starL anyC :: lit "\"" :: uaAtoms

/-- Atoms from the `body_bytes_sent` field on. -/
def bytesAtoms : List RE := wsPlus :: .starL anyC :: refAtoms

/-- Atoms from the `status` field on. -/
def statusAtoms : List RE := wsPlus :: .starL anyC :: bytesAtoms

/-- Atoms from the optional `request_version` group on. -/
def verAtoms : List RE :=
  .alt (cat [wsPlus, lit "HTTP/", .starG anyC]) .eps :: lit "\"" :: statusAtoms

/-- Atoms from the marked `path` group on. -/
def pathAtoms : List RE :=
  wsPlus :: .mark 0 :: .starL anyC :: .mark 1 :: verAtoms

/-- Atoms from the `request_method` group on. -/
def methodAtoms : List RE := wsPlus :: lit "\"" :: .starL anyC :: pathAtoms

/-- Atoms from the bracketed `time_local` group on. -/
def timeAtoms : List RE :=
  wsPlus :: lit "[" :: .starL anyC :: lit "]" :: methodAtoms

/-- Atoms from the `http_x_real_ip` field on. -/
def xipAtoms : List RE := wsPlus :: .starL anyC :: timeAtoms

/-- Atoms from the `remote_user` field on. -/
def ruAtoms : List RE := wsPlus :: .starL anyC :: xipAtoms

/-! Segments of a documented-format line, nested from the tail inward:
`inLine` assembles a whole line from its nineteen tokens. -/

/-- Line tail from the space before the duration. -/
def inDur (dur tailNL : List Char) : List Char := ' ' :: (dur ++ tailNL)

/-- Line tail from the space before the quoted rb-user. -/
def inRb (rbu dur tailNL : List Char) : List Char :=
  ' ' :: ('"' :: (rbu ++ ('"' :: inDur dur tailNL)))

/-- Line tail from the space before the quoted request id. -/
def inRid (rid rbu dur tailNL : List Char) : List Char :=
  ' ' :: ('"' :: (rid ++ ('"' :: inRb rbu dur tailNL)))

/-- Line tail from the space before the quoted x-forwarded-for. -/
def inXff (xff rid rbu dur tailNL : List Char) : List Char :=
  ' ' :: ('"' :: (xff ++ ('"' :: inRid rid rbu dur tailNL)))

/-- Line tail from the space before the quoted user agent. -/
def inUa (ua xff rid rbu dur tailNL : List Char) : List Char :=
  ' ' :: ('"' :: (ua ++ ('"' :: inXff xff rid rbu dur tailNL)))

/-- Line tail from the space before the quoted referer. -/
def inRef (ref ua xff rid rbu dur tailNL : List Char) : List Char :=
  ' ' :: ('"' :: (ref ++ ('"' :: inUa ua xff rid rbu dur tailNL)))

/-- Line tail from the space before the body-bytes field. -/
def inBytes (bytes ref ua xff rid rbu dur tailNL : List Char) : List Char :=
  ' ' :: (bytes ++ inRef ref ua xff rid rbu dur tailNL)

/-- Line tail from the space before the status field. -/
def inStatus (status bytes ref ua xff rid rbu dur tailNL : List Char) :
    List Char :=
  ' ' :: (status ++ inBytes bytes ref ua xff rid rbu dur tailNL)

/-- Line tail from the space before the path token, through the optional
version and the closing quote of the request group. -/
def inPath (path ver status bytes ref ua xff rid rbu dur tailNL : List Char) :
    List Char :=
  ' ' :: (path ++ (ver ++ ('"' ::
    inStatus status bytes ref ua xff rid rbu dur tailNL)))

/-- Line tail from the space before the quoted request group. -/
def inMethod (method path ver status bytes ref ua xff rid rbu dur tailNL :
    List Char) : List Char :=
  ' ' :: ('"' :: (method ++
    inPath path ver status bytes ref ua xff rid rbu dur tailNL))

/-- Line tail from the space before the bracketed timestamp. -/
def inTime (ts method path ver status bytes ref ua xff rid rbu dur tailNL :
    List Char) : List Char :=
  ' ' :: ('[' :: (ts ++ (']' ::
    inMethod method path ver status bytes ref ua xff rid rbu dur tailNL)))

/-- Line tail from the space before the x-real-ip field. -/
def inXip (xip ts method path ver status bytes ref ua xff rid rbu dur tailNL :
    List Char) : List Char :=
  ' ' :: (xip ++
    inTime ts method path ver status bytes ref ua xff rid rbu dur tailNL)

/-- Line tail from the space before the remote-user field. -/
def inRu (ru xip ts method path ver status bytes ref ua xff rid rbu dur
    tailNL : List Char) : List Char :=
  ' ' :: (ru ++
    inXip xip ts method path ver status bytes ref ua xff rid rbu dur tailNL)

/-- A whole documented-format line, assembled from its tokens. -/
def inLine (o1 o2 o3 o4 ru xip ts method path ver status bytes ref ua xff rid
    rbu dur tailNL : List Char) : List Char :=
  o1 ++ ('.' :: (o2 ++ ('.' :: (o3 ++ ('.' :: (o4 ++
    inRu ru xip ts method path ver status bytes ref ua xff rid rbu dur
      tailNL))))))

theorem samples_updateStat_self (stats : List (String × List ℚ)) (u : String)
    (rt : ℚ) : samples (updateStat stats u rt) u = samples stats u ++ [rt] := by
  induction stats with
  | nil => simp [updateStat, samples]
  | cons hd tl ih =>
      obtain ⟨v, ds⟩ := hd
      by_cases h : v = u
      · subst h
        simp [updateStat, samples]
      · simp [updateStat, samples, h, ih]

theorem samples_updateStat_other (stats : List (String × List ℚ)) (u : String)
    (rt : ℚ) (v : String) (h : v ≠ u) :
    samples (updateStat stats u rt) v = samples stats v := by
  induction stats with
  | nil => simp [updateStat, samples, Ne.symm h]
  | cons hd tl ih =>
      obtain ⟨w, ds⟩ := hd
      by_cases hw : w = u
      · subst hw
        simp [updateStat, samples, Ne.symm h]
      · by_cases hv : w = v
        · subst hv
          simp [updateStat, samples, hw]
        · simp [updateStat, samples, hw, hv, ih]

theorem statCount_updateStat (stats : List (String × List ℚ)) (u : String)
    (rt : ℚ) : statCount (updateStat stats u rt) = statCount stats + 1 := by
  induction stats with
  | nil => simp [updateStat, statCount]
  | cons hd tl ih =>
      obtain ⟨w, ds⟩ := hd
      by_cases hw : w = u
      · simp [updateStat, statCount, hw]
        omega
      · simp [updateStat, statCount, hw] at ih ⊢
        omega

theorem statSum_updateStat (stats : List (String × List ℚ)) (u : String)
    (rt : ℚ) : statSum (updateStat stats u rt) = statSum stats + rt := by
  induction stats with
  | nil => simp [updateStat, statSum]
  | cons hd tl ih =>
      obtain ⟨w, ds⟩ := hd
      by_cases hw : w = u
      · simp [updateStat, statSum, hw]
        ring
      · simp [updateStat, statSum, hw] at ih ⊢
        rw [ih]
        ring

theorem foldl_stepLine_spec (ls : List ParsedLine) (st : FoldState) :
    (ls.foldl stepLine st).total = st.total + ls.length ∧
    (ls.foldl stepLine st).processed
      = st.processed + ls.countP (fun pl => pl.isSome) ∧
    (ls.foldl stepLine st).processed_request_time
      = st.processed_request_time + parsedSum ls ∧
    statCount (ls.foldl stepLine st).statistics
      = statCount st.statistics + ls.countP (fun pl => pl.isSome) ∧
    statSum (ls.foldl stepLine st).statistics
      = statSum st.statistics + parsedSum ls := by
  induction ls generalizing st with
  | nil => simp [parsedSum]
  | cons pl tl ih =>
      match pl with
      | none =>
          have h := ih (stepLine st none)
          simp only [List.foldl_cons]
          simp [stepLine, parsedSum, List.countP_cons] at h ⊢
          exact ⟨by omega, h.2.1, h.2.2.1, by omega, h.2.2.2.2⟩
      | some (u, rt) =>
          have h := ih (stepLine st (some (u, rt)))
          simp only [List.foldl_cons]
          simp [stepLine, parsedSum, List.countP_cons, statCount_updateStat,
            statSum_updateStat] at h ⊢
          refine ⟨by omega, by omega, ?_, by omega, ?_⟩
          · rw [h.2.2.1]; ring
          · rw [h.2.2.2.2]; ring

theorem foldLines_total (ls : List ParsedLine) :
    (foldLines ls).total = ls.length := by
  have h := foldl_stepLine_spec ls ⟨0, 0, 0, []⟩
  simpa [foldLines] using h.1

theorem foldLines_processed (ls : List ParsedLine) :
    (foldLines ls).processed = ls.countP (fun pl => pl.isSome) := by
  have h := foldl_stepLine_spec ls ⟨0, 0, 0, []⟩
  simpa [foldLines] using h.2.1

theorem foldLines_prt (ls : List ParsedLine) :
    (foldLines ls).processed_request_time = parsedSum ls := by
  have h := foldl_stepLine_spec ls ⟨0, 0, 0, []⟩
  simpa [foldLines] using h.2.2.1

theorem foldLines_statCount (ls : List ParsedLine) :
    statCount (foldLines ls).statistics = (foldLines ls).processed := by
  have h := foldl_stepLine_spec ls ⟨0, 0, 0, []⟩
  rw [foldLines_processed]
  simpa [foldLines, statCount] using h.2.2.2.1

theorem foldLines_statSum (ls : List ParsedLine) :
    statSum (foldLines ls).statistics
      = (foldLines ls).processed_request_time := by
  have h := foldl_stepLine_spec ls ⟨0, 0, 0, []⟩
  rw [foldLines_prt]
  simpa [foldLines, statSum] using h.2.2.2.2

theorem updateStat_vals_ne_nil (stats : List (String × List ℚ)) (u : String)
    (rt : ℚ) (h : ∀ p ∈ stats, p.2 ≠ ([] : List ℚ)) :
    ∀ p ∈ updateStat stats u rt, p.2 ≠ ([] : List ℚ) := by
  induction stats with
  | nil => simp [updateStat]
  | cons hd tl ih =>
      obtain ⟨w, ds⟩ := hd
      by_cases hw : w = u
      · subst hw
        intro p hp
        simp [updateStat] at hp
        rcases hp with h1 | h2
        · subst h1; simp
        · exact h p (by simp [h2])
      · intro p hp
        simp [updateStat, hw] at hp
        rcases hp with h1 | h2
        · subst h1; exact h (w, ds) (by simp)
        · exact ih (fun q hq => h q (by simp [hq])) p h2

theorem foldLines_vals_ne_nil (ls : List ParsedLine) :
    ∀ p ∈ (foldLines ls).statistics, p.2 ≠ ([] : List ℚ) := by
  have main : ∀ (ls : List ParsedLine) (st : FoldState),
      (∀ p ∈ st.statistics, p.2 ≠ ([] : List ℚ)) →
      ∀ p ∈ (ls.foldl stepLine st).statistics, p.2 ≠ ([] : List ℚ) := by
    intro ls
    induction ls with
    | nil => intro st h; simpa using h
    | cons pl tl ih =>
        intro st h
        match pl with
        | none => exact ih _ (by simpa [stepLine] using h)
        | some (u, rt) =>
            exact ih _ (by simpa [stepLine] using updateStat_vals_ne_nil _ u rt h)
  exact main ls ⟨0, 0, 0, []⟩ (by simp)

theorem updateStat_keys (stats : List (String × List ℚ)) (u : String)
    (rt : ℚ) :
    keys (updateStat stats u rt)
      = if u ∈ keys stats then keys stats else keys stats ++ [u] := by
  induction stats with
  | nil => simp [updateStat, keys]
  | cons hd tl ih =>
      obtain ⟨w, ds⟩ := hd
      by_cases hw : w = u
      · subst hw
        simp [updateStat, keys]
      · have hu : u ≠ w := Ne.symm hw
        simp [updateStat, keys, hw, hu] at ih ⊢
        by_cases hmem : u ∈ tl.map Prod.fst <;> simp [hmem] at ih ⊢ <;> simp [ih, hu]

theorem foldLines_keys_nodup (ls : List ParsedLine) :
    (keys (foldLines ls).statistics).Nodup := by
  have main : ∀ (ls : List ParsedLine) (st : FoldState),
      (keys st.statistics).Nodup →
      (keys (ls.foldl stepLine st).statistics).Nodup := by
    intro ls
    induction ls with
    | nil => intro st h; simpa using h
    | cons pl tl ih =>
        intro st h
        match pl with
        | none => exact ih _ (by simpa [stepLine] using h)
        | some (u, rt) =>
            refine ih _ ?_
            simp only [stepLine]
            rw [updateStat_keys]
            by_cases hmem : u ∈ keys st.statistics
            · simpa [hmem] using h
            · simp only [hmem, if_false]
              rw [List.nodup_append]
              exact ⟨h, List.nodup_singleton u, by simp [List.disjoint_singleton, hmem]⟩
  exact main ls ⟨0, 0, 0, []⟩ (by simp [keys])

theorem samples_eq_of_mem (stats : List (String × List ℚ)) (u : String)
    (data : List ℚ) (hnd : (keys stats).Nodup) (hmem : (u, data) ∈ stats) :
    samples stats u = data := by
  induction stats with
  | nil => simp at hmem
  | cons hd tl ih =>
      obtain ⟨w, ds⟩ := hd
      have hnd2 : w ∉ keys tl ∧ (keys tl).Nodup := by
        simpa [keys, List.nodup_cons] using hnd
      rcases List.mem_cons.mp hmem with h1 | h2
      · cases h1
        simp [samples]
      · have hw : w ≠ u := by
          intro hwu
          subst hwu
          exact hnd2.1 (by simp only [keys, List.mem_map]; exact ⟨(w, data), h2, rfl⟩)
        simp [samples, hw]
        exact ih hnd2.2 h2

theorem enrichOne_ne_errorsLimit (u : String) (data : List ℚ) (c : ℕ) (t : ℚ) :
    enrichOne u data c t ≠ .error .errorsLimit := by
  unfold enrichOne
  split_ifs <;> simp

theorem enrichList_ne_errorsLimit (stats : List (String × List ℚ)) (c : ℕ)
    (t : ℚ) : enrichList stats c t ≠ .error .errorsLimit := by
  induction stats with
  | nil => simp [enrichList]
  | cons hd tl ih =>
      obtain ⟨u, data⟩ := hd
      simp only [enrichList]
      cases henr : enrichOne u data c t with
      | error e =>
          cases e with
          | errorsLimit => exact absurd henr (enrichOne_ne_errorsLimit u data c t)
          | zeroDivision => simp
      | ok e =>
          cases h2 : enrichList tl c t with
          | error e2 =>
              cases e2 with
              | errorsLimit => exact absurd h2 ih
              | zeroDivision => simp
          | ok es => simp

theorem stats_nil_of_processed_zero (lines : List ParsedLine)
    (h : (foldLines lines).processed = 0) :
    (foldLines lines).statistics = [] := by
  cases hs : (foldLines lines).statistics with
  | nil => rfl
  | cons hd tl =>
      exfalso
      have h1 := foldLines_statCount lines
      rw [hs, h] at h1
      have h2 : hd.2 ≠ ([] : List ℚ) :=
        foldLines_vals_ne_nil lines hd (by rw [hs]; exact List.mem_cons_self _ _)
      have h3 : 1 ≤ hd.2.length := by
        cases hd2 : hd.2 with
        | nil => exact absurd hd2 h2
        | cons a b => simp
      have h4 : 1 ≤ statCount (hd :: tl) := by
        simp only [statCount, List.map_cons, List.sum_cons]
        exact le_trans h3 (Nat.le_add_right _ _)
      omega

/-- C1: with a configured (non-null) errors limit and a nonempty stream,
`calculate_statistics` raises `ErrorsLimitExceedError` exactly when at
least one line fails to parse, whatever the limit's magnitude; with a null
limit, or on an empty stream, that error is never raised. -/
theorem errors_gate_iff_parse_failure (lines : List ParsedLine) (x : ℚ)
    (l : Option ℚ) :
    (lines ≠ [] →
      (calculate_statistics lines (some x) = .error .errorsLimit ↔
        none ∈ lines)) ∧
    calculate_statistics lines none ≠ .error .errorsLimit ∧
    calculate_statistics [] l ≠ .error .errorsLimit := by
  refine ⟨?_, ?_, ?_⟩
  · intro hne
    have htot := foldLines_total lines
    have hpos : 0 < (foldLines lines).total := by
      rw [htot]; exact List.length_pos.mpr hne
    constructor
    · intro hres
      by_contra hnomem
      have hall : ∀ pl ∈ lines, (Option.isSome pl : Bool) = true := by
        intro pl hpl
        cases pl with
        | none => exact absurd hpl hnomem
        | some v => rfl
      have hproc : (foldLines lines).processed = (foldLines lines).total := by
        rw [foldLines_processed, htot]
        exact List.countP_eq_length.mpr hall
      simp only [calculate_statistics] at hres
      rw [if_pos ⟨rfl, hpos⟩, if_neg (by rw [hproc]; simp)] at hres
      exact enrichList_ne_errorsLimit _ _ _ hres
    · intro hmem
      have hlt : (foldLines lines).processed < (foldLines lines).total := by
        rw [foldLines_processed, htot]
        refine lt_of_le_of_ne (List.countP_le_length _) ?_
        intro heq
        have := List.countP_eq_length.mp heq none hmem
        simp at this
      have hcurne :
          (((foldLines lines).total : ℚ) - ((foldLines lines).processed : ℚ))
              / ((foldLines lines).total : ℚ) ≠ 0 := by
        have h1 : (0 : ℚ) <
            ((foldLines lines).total : ℚ) - ((foldLines lines).processed : ℚ) :=
          sub_pos.mpr (by exact_mod_cast hlt)
        have h2 : (0 : ℚ) < ((foldLines lines).total : ℚ) := by
          exact_mod_cast hpos
        exact ne_of_gt (div_pos h1 h2)
      simp only [calculate_statistics]
      rw [if_pos ⟨rfl, hpos⟩, if_pos hcurne]
  · simp only [calculate_statistics]
    rw [if_neg (by simp)]
    exact enrichList_ne_errorsLimit _ _ _
  · simp only [calculate_statistics]
    rw [if_neg (by simp [foldLines])]
    exact enrichList_ne_errorsLimit _ _ _

theorem errors_gate_iff_parse_failure_witness :
    calculate_statistics [some ("/a", 1), none] (some (64/100))
      = .error .errorsLimit :=
  ((errors_gate_iff_parse_failure [some ("/a", 1), none] (64/100) none).1
      (by simp)).mpr (by simp)

/-- C8: after the aggregation fold, `total` is the number of lines,
`processed` the number of parsed lines, `processed ≤ total` holds at every
prefix of the stream, a parsed line bumps both counters, appends its
duration to exactly its endpoint and adds it to the running latency total,
and an unparsable line increments only `total`. -/
theorem fold_step_invariants (lines : List ParsedLine) :
    (foldLines lines).total = lines.length ∧
    (foldLines lines).processed
      = (lines.filter (fun pl => pl.isSome)).length ∧
    (∀ n : ℕ,
      (foldLines (lines.take n)).processed ≤ (foldLines (lines.take n)).total) ∧
    (∀ st : FoldState, stepLine st none = { st with total := st.total + 1 }) ∧
    (∀ (st : FoldState) (u : String) (t : ℚ),
      (stepLine st (some (u, t))).total = st.total + 1 ∧
      (stepLine st (some (u, t))).processed = st.processed + 1 ∧
      (stepLine st (some (u, t))).processed_request_time
        = st.processed_request_time + t ∧
      samples (stepLine st (some (u, t))).statistics u
        = samples st.statistics u ++ [t] ∧
      ∀ v, v ≠ u →
        samples (stepLine st (some (u, t))).statistics v
          = samples st.statistics v) := by
  refine ⟨foldLines_total lines, ?_, ?_, ?_, ?_⟩
  · rw [foldLines_processed, List.countP_eq_length_filter]
  · intro n
    rw [foldLines_total, foldLines_processed]
    exact le_trans (List.countP_le_length _) (le_refl _)
  · intro st; rfl
  · intro st u t
    exact ⟨rfl, rfl, rfl, samples_updateStat_self _ u t,
      fun v hv => samples_updateStat_other _ u t v hv⟩

theorem fold_step_invariants_witness :
    samples (stepLine ⟨0, 0, 0, []⟩ (some ("/a", 1))).statistics "/b"
      = samples (FoldState.mk 0 0 0 []).statistics "/b" :=
  ((fold_step_invariants []).2.2.2.2 ⟨0, 0, 0, []⟩ "/a" 1).2.2.2.2 "/b"
    (by decide)

theorem enrichList_zeroDiv_imp (stats : List (String × List ℚ)) (c : ℕ)
    (t : ℚ) (hc : c ≠ 0) (hvals : ∀ p ∈ stats, p.2 ≠ ([] : List ℚ))
    (h : enrichList stats c t = .error .zeroDivision) : t = 0 := by
  induction stats with
  | nil => simp [enrichList] at h
  | cons hd tl ih =>
      obtain ⟨u, data⟩ := hd
      have hdata : data ≠ ([] : List ℚ) := hvals (u, data) (by simp)
      have hlen : data.length ≠ 0 := by
        cases hdd : data with
        | nil => exact absurd hdd hdata
        | cons a b => simp
      simp only [enrichList] at h
      cases henr : enrichOne u data c t with
      | error e =>
          rw [henr] at h
          by_cases ht : t = 0
          · exact ht
          · exfalso
            simp [enrichOne, hc, ht, hlen] at henr
      | ok e =>
          rw [henr] at h
          cases h2 : enrichList tl c t with
          | error e2 =>
              rw [h2] at h
              cases e2 with
              | errorsLimit => exact absurd h2 (enrichList_ne_errorsLimit tl c t)
              | zeroDivision =>
                  exact ih (fun p hp => hvals p (by simp [hp])) h2
          | ok es => rw [h2] at h; simp at h

/-- C10: when the errors gate cannot fire (null limit or empty stream) and
no line parses, `calculate_statistics` returns the empty mapping (no
division is reached); and a `ZeroDivisionError` is possible only when at
least one line parsed and the parsed durations sum to exactly zero. -/
theorem no_parse_empty_result (lines : List ParsedLine) (limit : Option ℚ) :
    ((∀ pl ∈ lines, pl = none) → (limit = none ∨ lines = []) →
      calculate_statistics lines limit = .ok []) ∧
    (calculate_statistics lines limit = .error .zeroDivision →
      1 ≤ (foldLines lines).processed ∧
      (foldLines lines).processed_request_time = 0) := by
  constructor
  · intro hall hgate
    have hproc : (foldLines lines).processed = 0 := by
      rw [foldLines_processed]
      refine List.countP_eq_zero.mpr ?_
      intro pl hpl
      rw [hall pl hpl]
      simp
    have hstats := stats_nil_of_processed_zero lines hproc
    rcases hgate with hl | hl
    · subst hl
      simp only [calculate_statistics]
      rw [if_neg (by simp)]
      rw [hstats]
      simp [enrichList]
    · subst hl
      simp only [calculate_statistics]
      rw [if_neg (by simp [foldLines])]
      simp [foldLines, enrichList]
  · intro hres
    have hproc : (foldLines lines).processed ≠ 0 := by
      intro hz
      have hstats := stats_nil_of_processed_zero lines hz
      simp only [calculate_statistics] at hres
      split_ifs at hres with h1 h2
      · simp at hres
      · rw [hstats] at hres; simp [enrichList] at hres
      · rw [hstats] at hres; simp [enrichList] at hres
    refine ⟨Nat.one_le_iff_ne_zero.mpr hproc, ?_⟩
    simp only [calculate_statistics] at hres
    split_ifs at hres with h1 h2
    · simp at hres
    · exact enrichList_zeroDiv_imp _ _ _ hproc (foldLines_vals_ne_nil lines) hres
    · exact enrichList_zeroDiv_imp _ _ _ hproc (foldLines_vals_ne_nil lines) hres

theorem no_parse_empty_result_witness :
    calculate_statistics [none, none] none = .ok [] :=
  (no_parse_empty_result [none, none] none).1 (by simp) (Or.inl rfl)

theorem le_foldl_max (xs : List ℚ) : ∀ x : ℚ, x ≤ xs.foldl max x := by
  induction xs with
  | nil => intro x; simp
  | cons y ys ih =>
      intro x
      simp only [List.foldl_cons]
      exact le_trans (le_max_left x y) (ih (max x y))

theorem foldl_max_mem (xs : List ℚ) : ∀ x : ℚ, xs.foldl max x ∈ x :: xs := by
  induction xs with
  | nil => intro x; simp
  | cons y ys ih =>
      intro x
      have h := ih (max x y)
      simp only [List.foldl_cons]
      rcases List.mem_cons.mp h with h1 | h2
      · rcases max_choice x y with hm | hm <;> rw [hm] at h1 ⊢ <;> simp [h1]
      · simp [h2]

theorem foldl_max_le (xs : List ℚ) :
    ∀ x a : ℚ, a ∈ x :: xs → a ≤ xs.foldl max x := by
  induction xs with
  | nil =>
      intro x a ha
      simp at ha
      simp [ha]
  | cons y ys ih =>
      intro x a ha
      simp only [List.foldl_cons]
      rcases List.mem_cons.mp ha with h1 | h2
      · subst h1
        exact le_trans (le_max_left a y) (le_foldl_max ys (max a y))
      · rcases List.mem_cons.mp h2 with h3 | h4
        · subst h3
          exact le_trans (le_max_right x a) (le_foldl_max ys (max x a))
        · exact ih (max x y) a (List.mem_cons_of_mem _ h4)

theorem listMax_mem (data : List ℚ) (h : data ≠ []) : listMax data ∈ data := by
  cases data with
  | nil => exact absurd rfl h
  | cons x xs => exact foldl_max_mem xs x

theorem listMax_ge (data : List ℚ) (a : ℚ) (ha : a ∈ data) :
    a ≤ listMax data := by
  cases data with
  | nil => simp at ha
  | cons x xs => exact foldl_max_le xs x a ha

theorem insertAsc_perm (x : ℚ) (l : List ℚ) : (insertAsc x l).Perm (x :: l) := by
  induction l with
  | nil => simp [insertAsc]
  | cons y ys ih =>
      simp only [insertAsc]
      split_ifs with h
      · exact List.Perm.refl _
      · exact (ih.cons y).trans (List.Perm.swap x y ys)

theorem sortAsc_perm (l : List ℚ) : (sortAsc l).Perm l := by
  induction l with
  | nil => simp [sortAsc]
  | cons x xs ih => exact (insertAsc_perm x (sortAsc xs)).trans (ih.cons x)

theorem insertAsc_sorted (x : ℚ) (l : List ℚ) (h : l.Pairwise (· ≤ ·)) :
    (insertAsc x l).Pairwise (· ≤ ·) := by
  induction l with
  | nil => simp [insertAsc]
  | cons y ys ih =>
      rcases List.pairwise_cons.mp h with ⟨hy, hys⟩
      simp only [insertAsc]
      split_ifs with hxy
      · refine List.pairwise_cons.mpr ⟨?_, h⟩
        intro b hb
        rcases List.mem_cons.mp hb with h1 | h2
        · simp [h1, hxy]
        · exact le_trans hxy (hy b h2)
      · refine List.pairwise_cons.mpr ⟨?_, ih hys⟩
        intro b hb
        have hmem := (insertAsc_perm x ys).mem_iff.mp hb
        rcases List.mem_cons.mp hmem with h1 | h2
        · exact h1 ▸ le_of_not_le hxy
        · exact hy b h2

theorem sortAsc_sorted (l : List ℚ) : (sortAsc l).Pairwise (· ≤ ·) := by
  induction l with
  | nil => simp [sortAsc]
  | cons x xs ih => exact insertAsc_sorted x (sortAsc xs) ih

theorem enrichOne_ok_iff (u : String) (data : List ℚ) (c : ℕ) (t : ℚ)
    (e : Entry) (h : enrichOne u data c t = .ok e) :
    c ≠ 0 ∧ t ≠ 0 ∧ data ≠ [] ∧
    e = { url := u, count := data.length,
          count_perc := round3 ((data.length : ℚ) / (c : ℚ) * 100),
          time_sum := round3 data.sum,
          time_perc := round3 (data.sum / t * 100),
          time_avg := round3 (data.sum / (data.length : ℚ)),
          time_max := round3 (listMax data),
          time_med := round3 (median data) } := by
  by_cases h1 : c = 0
  · simp [enrichOne, h1] at h
  by_cases h2 : t = 0
  · simp [enrichOne, h1, h2] at h
  by_cases h3 : data.length = 0
  · simp [enrichOne, h1, h2, h3] at h
  simp only [enrichOne, if_neg h1, if_neg h2, if_neg h3, Except.ok.injEq] at h
  exact ⟨h1, h2, fun hnil => h3 (by rw [hnil]; rfl), h.symm⟩

theorem calc_ok_enrich (lines : List ParsedLine) (limit : Option ℚ)
    (entries : List (String × Entry))
    (h : calculate_statistics lines limit = .ok entries) :
    enrichList (foldLines lines).statistics (foldLines lines).processed
      (foldLines lines).processed_request_time = .ok entries := by
  simp only [calculate_statistics] at h
  split_ifs at h with h1 h2
  all_goals exact h

theorem enrichList_ok_mem (stats : List (String × List ℚ)) (c : ℕ) (t : ℚ)
    (entries : List (String × Entry))
    (h : enrichList stats c t = .ok entries) :
    ∀ url e, (url, e) ∈ entries →
      ∃ data, (url, data) ∈ stats ∧ enrichOne url data c t = .ok e := by
  induction stats generalizing entries with
  | nil =>
      simp [enrichList] at h
      subst h
      intro url e h2
      simp at h2
  | cons hd tl ih =>
      obtain ⟨u, d⟩ := hd
      simp only [enrichList] at h
      cases h1 : enrichOne u d c t with
      | error e1 => rw [h1] at h; simp at h
      | ok e1 =>
          rw [h1] at h
          cases h2 : enrichList tl c t with
          | error e2 => rw [h2] at h; simp at h
          | ok es =>
              rw [h2] at h
              have hent : entries = (u, e1) :: es := (Except.ok.inj h).symm
              subst hent
              intro url e hmem
              rcases List.mem_cons.mp hmem with hh | ht
              · cases hh
                exact ⟨d, by simp, h1⟩
              · obtain ⟨data, hd2, henr⟩ := ih es h2 url e ht
                exact ⟨data, by simp [hd2], henr⟩

/-- C3: every report entry carries the documented statistics of its
endpoint's samples: the sample count, the 3-decimal rounding of
`100·count/parsed_lines`, of the latency sum, of
`100·(unrounded sum)/total_latency`, of the mean, of the maximum sample,
and of the standard median of the samples. -/
theorem entry_formulas (lines : List ParsedLine) (limit : Option ℚ)
    (entries : List (String × Entry)) (url : String) (e : Entry)
    (hok : calculate_statistics lines limit = .ok entries)
    (hmem : (url, e) ∈ entries) :
    e.count = (samples (foldLines lines).statistics url).length ∧
    e.count_perc = round3 (100 * ((samples (foldLines lines).statistics url).length : ℚ)
      / ((foldLines lines).processed : ℚ)) ∧
    e.time_sum = round3 (samples (foldLines lines).statistics url).sum ∧
    e.time_perc = round3 (100 * (samples (foldLines lines).statistics url).sum
      / (foldLines lines).processed_request_time) ∧
    e.time_avg = round3 ((samples (foldLines lines).statistics url).sum
      / ((samples (foldLines lines).statistics url).length : ℚ)) ∧
    (∃ m, m ∈ samples (foldLines lines).statistics url ∧
      (∀ y ∈ samples (foldLines lines).statistics url, y ≤ m) ∧
      e.time_max = round3 m) ∧
    (∃ s : List ℚ, s.Perm (samples (foldLines lines).statistics url) ∧
      s.Pairwise (· ≤ ·) ∧
      e.time_med = round3 (if s.length % 2 = 0
        then (s.getD (s.length / 2 - 1) 0 + s.getD (s.length / 2) 0) / 2
        else s.getD (s.length / 2) 0)) := by
  have henr := calc_ok_enrich lines limit entries hok
  obtain ⟨data, hmemstats, hone⟩ :=
    enrichList_ok_mem _ _ _ _ henr url e hmem
  have hsamp : samples (foldLines lines).statistics url = data :=
    samples_eq_of_mem _ _ _ (foldLines_keys_nodup lines) hmemstats
  obtain ⟨hc, ht, hdata, he⟩ := enrichOne_ok_iff _ _ _ _ _ hone
  subst he
  rw [hsamp]
  refine ⟨rfl, ?_, rfl, ?_, rfl, ?_, ?_⟩
  · exact congrArg round3 (by ring)
  · exact congrArg round3 (by ring)
  · exact ⟨listMax data, listMax_mem data hdata,
      fun y hy => listMax_ge data y hy, rfl⟩
  · refine ⟨sortAsc data, sortAsc_perm data, sortAsc_sorted data, ?_⟩
    show round3 (median data) = _
    unfold median
    by_cases hpar : (sortAsc data).length % 2 = 1
    · have h0 : ¬((sortAsc data).length % 2 = 0) := by omega
      simp [hpar, h0]
    · have h0 : (sortAsc data).length % 2 = 0 := by omega
      simp [hpar, h0]

theorem exampleLines_calc :
    calculate_statistics exampleLines none
      = .ok [("/a", exampleEntryA), ("/b", exampleEntryB)] := by
  norm_num [calculate_statistics, foldLines, stepLine, updateStat, enrichList,
    enrichOne, median, sortAsc, insertAsc, listMax, round3, roundHalfEven,
    Int.fract, exampleLines, exampleEntryA, exampleEntryB]

theorem entry_formulas_witness :
    exampleEntryA.count
        = (samples (foldLines exampleLines).statistics "/a").length ∧
    exampleEntryA.count_perc
        = round3 (100 * ((samples (foldLines exampleLines).statistics "/a").length : ℚ)
            / ((foldLines exampleLines).processed : ℚ)) ∧
    exampleEntryA.time_sum
        = round3 (samples (foldLines exampleLines).statistics "/a").sum ∧
    exampleEntryA.time_perc
        = round3 (100 * (samples (foldLines exampleLines).statistics "/a").sum
            / (foldLines exampleLines).processed_request_time) ∧
    exampleEntryA.time_avg
        = round3 ((samples (foldLines exampleLines).statistics "/a").sum
            / ((samples (foldLines exampleLines).statistics "/a").length : ℚ)) ∧
    (∃ m, m ∈ samples (foldLines exampleLines).statistics "/a" ∧
      (∀ y ∈ samples (foldLines exampleLines).statistics "/a", y ≤ m) ∧
      exampleEntryA.time_max = round3 m) ∧
    (∃ s : List ℚ, s.Perm (samples (foldLines exampleLines).statistics "/a") ∧
      s.Pairwise (· ≤ ·) ∧
      exampleEntryA.time_med = round3 (if s.length % 2 = 0
        then (s.getD (s.length / 2 - 1) 0 + s.getD (s.length / 2) 0) / 2
        else s.getD (s.length / 2) 0)) :=
  entry_formulas exampleLines none [("/a", exampleEntryA), ("/b", exampleEntryB)]
    "/a" exampleEntryA exampleLines_calc (by simp)

/-- C4: on the spec's 3-line example with `REPORT_SIZE = 10` and a null
errors limit, the pipeline yields exactly the two documented entries with
`/a` first (66.667 = 66667/1000, 0.4 = 2/5, 0.2 = 1/5, 0.3 = 3/10,
33.333 = 33333/1000). -/
theorem pipeline_example :
    mainPipeline exampleLines none 10 = .ok [exampleEntryA, exampleEntryB] ∧
    exampleEntryA.url = "/a" ∧ exampleEntryA.count = 2 ∧
    exampleEntryA.count_perc = 66667/1000 ∧ exampleEntryA.time_sum = 2/5 ∧
    exampleEntryA.time_avg = 1/5 ∧ exampleEntryA.time_max = 3/10 ∧
    exampleEntryA.time_med = 1/5 ∧
    exampleEntryB.url = "/b" ∧ exampleEntryB.count = 1 ∧
    exampleEntryB.count_perc = 33333/1000 ∧ exampleEntryB.time_sum = 1/5 := by
  refine ⟨?_, rfl, rfl, rfl, rfl, rfl, rfl, rfl, rfl, rfl, rfl, rfl⟩
  rw [mainPipeline, exampleLines_calc]
  norm_num [sortDesc, insertDesc, Except.map, exampleEntryA, exampleEntryB]

theorem enrichList_ok_maps (stats : List (String × List ℚ)) (c : ℕ) (t : ℚ)
    (entries : List (String × Entry))
    (h : enrichList stats c t = .ok entries) :
    entries.map (fun p => p.2.count_perc)
      = stats.map (fun p => round3 ((p.2.length : ℚ) / (c : ℚ) * 100)) ∧
    entries.map (fun p => p.2.time_perc)
      = stats.map (fun p => round3 (p.2.sum / t * 100)) ∧
    entries.length = stats.length := by
  induction stats generalizing entries with
  | nil =>
      simp [enrichList] at h
      subst h
      simp
  | cons hd tl ih =>
      obtain ⟨u, d⟩ := hd
      simp only [enrichList] at h
      cases h1 : enrichOne u d c t with
      | error e1 => rw [h1] at h; simp at h
      | ok e1 =>
          rw [h1] at h
          cases h2 : enrichList tl c t with
          | error e2 => rw [h2] at h; simp at h
          | ok es =>
              rw [h2] at h
              have hent : entries = (u, e1) :: es := (Except.ok.inj h).symm
              subst hent
              obtain ⟨hm1, hm2, hlen⟩ := ih es h2
              obtain ⟨hc, ht, hd2, he⟩ := enrichOne_ok_iff u d c t e1 h1
              subst he
              simp [hm1, hm2, hlen]

theorem enrichList_t_zero (stats : List (String × List ℚ)) (c : ℕ)
    (h : stats ≠ []) : enrichList stats c 0 = .error .zeroDivision := by
  cases stats with
  | nil => exact absurd rfl h
  | cons hd tl =>
      obtain ⟨u, d⟩ := hd
      have h1 : enrichOne u d c 0 = .error .zeroDivision := by
        by_cases hc : c = 0 <;> simp [enrichOne, hc]
      simp only [enrichList]
      rw [h1]

theorem sum_map_round3_close (xs : List ℚ) :
    |(xs.map round3).sum - xs.sum| ≤ (xs.length : ℚ) * (1/2000) := by
  induction xs with
  | nil => simp
  | cons x t ih =>
      simp only [List.map_cons, List.sum_cons, List.length_cons]
      have h1 := abs_round3_sub x
      have h2 : |round3 x + ((t.map round3).sum) - (x + t.sum)|
          ≤ |round3 x - x| + |(t.map round3).sum - t.sum| := by
        have := abs_add (round3 x - x) ((t.map round3).sum - t.sum)
        have heq : round3 x + (t.map round3).sum - (x + t.sum)
            = (round3 x - x) + ((t.map round3).sum - t.sum) := by ring
        rw [heq]
        exact this
      have h3 : ((t.length + 1 : ℕ) : ℚ) * (1/2000)
          = (t.length : ℚ) * (1/2000) + 1/2000 := by push_cast; ring
      rw [h3]
      linarith

theorem cast_sum_lengths (stats : List (String × List ℚ)) :
    (stats.map (fun p => ((p.2.length : ℕ) : ℚ))).sum = (statCount stats : ℚ) := by
  induction stats with
  | nil => simp [statCount]
  | cons hd tl ih =>
      simp only [statCount, List.map_cons, List.sum_cons] at ih ⊢
      push_cast
      rw [ih]
      push_cast
      ring

theorem sum_shares_count (stats : List (String × List ℚ)) (c : ℕ) (hc : c ≠ 0)
    (hsum : statCount stats = c) :
    (stats.map (fun p => ((p.2.length : ℚ)) / (c : ℚ) * 100)).sum = 100 := by
  have h1 : stats.map (fun p => ((p.2.length : ℚ)) / (c : ℚ) * 100)
      = stats.map (fun p => ((p.2.length : ℚ)) * (100 / (c : ℚ))) := by
    apply List.map_congr_left
    intro a _
    ring
  rw [h1, List.sum_map_mul_right, cast_sum_lengths, hsum]
  have hcq : ((c : ℕ) : ℚ) ≠ 0 := Nat.cast_ne_zero.mpr hc
  field_simp

theorem sum_shares_time (stats : List (String × List ℚ)) (t : ℚ) (ht : t ≠ 0)
    (hsum : statSum stats = t) :
    (stats.map (fun p => p.2.sum / t * 100)).sum = 100 := by
  have h1 : stats.map (fun p => p.2.sum / t * 100)
      = stats.map (fun p => p.2.sum * (100 / t)) := by
    apply List.map_congr_left
    intro a _
    ring
  have h2 : (stats.map (fun p => p.2.sum)).sum = statSum stats := rfl
  rw [h1, List.sum_map_mul_right, h2, hsum]
  field_simp

/-- C7: for every successful, nonempty report, the rounded count shares sum
to 100 up to 0.01 per entry, and likewise the rounded latency shares. -/
theorem shares_sum_to_100 (lines : List ParsedLine) (limit : Option ℚ)
    (entries : List (String × Entry))
    (hok : calculate_statistics lines limit = .ok entries)
    (hne : entries ≠ []) :
    |(entries.map (fun p => p.2.count_perc)).sum - 100|
      ≤ (entries.length : ℚ) * (1/100) ∧
    |(entries.map (fun p => p.2.time_perc)).sum - 100|
      ≤ (entries.length : ℚ) * (1/100) := by
  have henr := calc_ok_enrich lines limit entries hok
  obtain ⟨hm1, hm2, hlen⟩ := enrichList_ok_maps _ _ _ _ henr
  have hstats_ne : (foldLines lines).statistics ≠ [] := by
    intro h0
    rw [h0] at hlen
    simp at hlen
    exact hne hlen
  have hproc : (foldLines lines).processed ≠ 0 :=
    fun hz => hstats_ne (stats_nil_of_processed_zero lines hz)
  have hprt : (foldLines lines).processed_request_time ≠ 0 := by
    intro hz
    rw [hz] at henr
    rw [enrichList_t_zero _ _ hstats_ne] at henr
    simp at henr
  constructor
  · rw [hm1]
    have hsplit : (foldLines lines).statistics.map
          (fun p => round3 ((p.2.length : ℚ) / ((foldLines lines).processed : ℚ) * 100))
        = ((foldLines lines).statistics.map
            (fun p => (p.2.length : ℚ) / ((foldLines lines).processed : ℚ) * 100)).map round3 := by
      rw [List.map_map]
      rfl
    rw [hsplit]
    have hsum := sum_shares_count (foldLines lines).statistics
      (foldLines lines).processed hproc (foldLines_statCount lines)
    have hclose := sum_map_round3_close ((foldLines lines).statistics.map
      (fun p => (p.2.length : ℚ) / ((foldLines lines).processed : ℚ) * 100))
    rw [hsum] at hclose
    simp only [List.length_map] at hclose
    rw [hlen]
    have : ((foldLines lines).statistics.length : ℚ) * (1/2000)
        ≤ ((foldLines lines).statistics.length : ℚ) * (1/100) := by
      have hn : (0 : ℚ) ≤ ((foldLines lines).statistics.length : ℚ) := by positivity
      nlinarith
    linarith
  · rw [hm2]
    have hsplit : (foldLines lines).statistics.map
          (fun p => round3 (p.2.sum / (foldLines lines).processed_request_time * 100))
        = ((foldLines lines).statistics.map
            (fun p => p.2.sum / (foldLines lines).processed_request_time * 100)).map round3 := by
      rw [List.map_map]
      rfl
    rw [hsplit]
    have hsum := sum_shares_time (foldLines lines).statistics
      (foldLines lines).processed_request_time hprt (foldLines_statSum lines)
    have hclose := sum_map_round3_close ((foldLines lines).statistics.map
      (fun p => p.2.sum / (foldLines lines).processed_request_time * 100))
    rw [hsum] at hclose
    simp only [List.length_map] at hclose
    rw [hlen]
    have : ((foldLines lines).statistics.length : ℚ) * (1/2000)
        ≤ ((foldLines lines).statistics.length : ℚ) * (1/100) := by
      have hn : (0 : ℚ) ≤ ((foldLines lines).statistics.length : ℚ) := by positivity
      nlinarith
    linarith

theorem shares_sum_to_100_witness :
    |(([("/a", exampleEntryA), ("/b", exampleEntryB)].map
        (fun p => p.2.count_perc)).sum - 100)|
      ≤ (([("/a", exampleEntryA), ("/b", exampleEntryB)] :
          List (String × Entry)).length : ℚ) * (1/100) ∧
    |(([("/a", exampleEntryA), ("/b", exampleEntryB)].map
        (fun p => p.2.time_perc)).sum - 100)|
      ≤ (([("/a", exampleEntryA), ("/b", exampleEntryB)] :
          List (String × Entry)).length : ℚ) * (1/100) :=
  shares_sum_to_100 exampleLines none
    [("/a", exampleEntryA), ("/b", exampleEntryB)] exampleLines_calc (by simp)

theorem insertDesc_perm (x : Entry) (l : List Entry) :
    (insertDesc x l).Perm (x :: l) := by
  induction l with
  | nil => simp [insertDesc]
  | cons y ys ih =>
      simp only [insertDesc]
      split_ifs with h
      · exact List.Perm.refl _
      · exact (ih.cons y).trans (List.Perm.swap x y ys)

theorem sortDesc_perm (l : List Entry) : (sortDesc l).Perm l := by
  induction l with
  | nil => simp [sortDesc]
  | cons x xs ih => exact (insertDesc_perm x (sortDesc xs)).trans (ih.cons x)

theorem insertDesc_sorted (x : Entry) (l : List Entry)
    (h : l.Pairwise (fun a b => b.time_sum ≤ a.time_sum)) :
    (insertDesc x l).Pairwise (fun a b => b.time_sum ≤ a.time_sum) := by
  induction l with
  | nil => simp [insertDesc]
  | cons y ys ih =>
      rcases List.pairwise_cons.mp h with ⟨hy, hys⟩
      simp only [insertDesc]
      split_ifs with hxy
      · refine List.pairwise_cons.mpr ⟨?_, h⟩
        intro b hb
        rcases List.mem_cons.mp hb with h1 | h2
        · simp [h1, hxy]
        · exact le_trans (hy b h2) hxy
      · refine List.pairwise_cons.mpr ⟨?_, ih hys⟩
        intro b hb
        have hmem := (insertDesc_perm x ys).mem_iff.mp hb
        rcases List.mem_cons.mp hmem with h1 | h2
        · exact h1 ▸ le_of_not_le hxy
        · exact hy b h2

theorem sortDesc_sorted (l : List Entry) :
    (sortDesc l).Pairwise (fun a b => b.time_sum ≤ a.time_sum) := by
  induction l with
  | nil => simp [sortDesc]
  | cons x xs ih => exact insertDesc_sorted x (sortDesc xs) ih

theorem insertDesc_filter (x : Entry) (l : List Entry) (q : ℚ) :
    (insertDesc x l).filter (fun e => decide (e.time_sum = q))
      = (x :: l).filter (fun e => decide (e.time_sum = q)) := by
  induction l with
  | nil => rfl
  | cons y ys ih =>
      simp only [insertDesc]
      split_ifs with hle
      · rfl
      · by_cases hx : x.time_sum = q <;> by_cases hy : y.time_sum = q
        · exfalso
          exact hle (le_of_eq (hy.trans hx.symm))
        · simp [List.filter_cons, hx, hy, ih]
        · simp [List.filter_cons, hx, hy] at ih ⊢
          exact ih
        · simp [List.filter_cons, hx, hy] at ih ⊢
          exact ih

theorem sortDesc_filter (l : List Entry) (q : ℚ) :
    (sortDesc l).filter (fun e => decide (e.time_sum = q))
      = l.filter (fun e => decide (e.time_sum = q)) := by
  induction l with
  | nil => rfl
  | cons x xs ih =>
      simp only [sortDesc]
      rw [insertDesc_filter]
      by_cases hx : x.time_sum = q <;> simp [List.filter_cons, hx, ih]

/-- C2 (amended): the entries handed to the renderer are the aggregate's
values sorted stably by the ROUNDED 3-decimal `time_sum` descending — so
entries whose rounded sums are equal keep their original iteration order —
and truncated to the configured top-N count.  The source sorts on
`x["time_sum"]`, which is the rounded value, not the unrounded latency
sum the spec names. -/
theorem pipeline_sorted_stable_truncated (lines : List ParsedLine)
    (limit : Option ℚ) (report_size : ℕ) (out : List Entry)
    (hok : mainPipeline lines limit report_size = .ok out) :
    ∃ es : List (String × Entry),
      calculate_statistics lines limit = .ok es ∧
      out = (sortDesc (es.map Prod.snd)).take report_size ∧
      List.Pairwise (fun a b => b.time_sum ≤ a.time_sum) out ∧
      (sortDesc (es.map Prod.snd)).Perm (es.map Prod.snd) ∧
      (∀ q : ℚ,
        (sortDesc (es.map Prod.snd)).filter (fun e => decide (e.time_sum = q))
          = (es.map Prod.snd).filter (fun e => decide (e.time_sum = q))) := by
  unfold mainPipeline at hok
  cases hcalc : calculate_statistics lines limit with
  | error e =>
      rw [hcalc] at hok
      simp [Except.map] at hok
  | ok es =>
      rw [hcalc] at hok
      simp only [Except.map, Except.ok.injEq] at hok
      refine ⟨es, rfl, hok.symm, ?_, sortDesc_perm _,
        fun q => sortDesc_filter _ q⟩
      rw [← hok]
      exact List.Pairwise.sublist (List.take_sublist _ _) (sortDesc_sorted _)

theorem pipeline_sorted_stable_truncated_witness :
    ∃ es : List (String × Entry),
      calculate_statistics exampleLines none = .ok es ∧
      [exampleEntryA, exampleEntryB] = (sortDesc (es.map Prod.snd)).take 10 ∧
      List.Pairwise (fun a b => b.time_sum ≤ a.time_sum)
        [exampleEntryA, exampleEntryB] ∧
      (sortDesc (es.map Prod.snd)).Perm (es.map Prod.snd) ∧
      (∀ q : ℚ,
        (sortDesc (es.map Prod.snd)).filter (fun e => decide (e.time_sum = q))
          = (es.map Prod.snd).filter (fun e => decide (e.time_sum = q))) :=
  pipeline_sorted_stable_truncated exampleLines none 10
    [exampleEntryA, exampleEntryB]
    (by rw [mainPipeline, exampleLines_calc]
        norm_num [sortDesc, insertDesc, Except.map, exampleEntryA, exampleEntryB])

/-- C2 (counterexample): on `tieLines` the renderer receives `u` before
`v`, although `v`'s unrounded latency sum (0.0002) is strictly greater
than `u`'s (0.0001) — their rounded `time_sum` values tie at 0, and the
stable sort keeps the original order, so the output is NOT sorted by
unrounded latency sum descending. -/
theorem pipeline_sort_key_counterexample :
    mainPipeline tieLines none 10 = .ok [tieEntryU, tieEntryV] ∧
    tieEntryU.url = "u" ∧ tieEntryV.url = "v" ∧
    (samples (foldLines tieLines).statistics "u").sum
      < (samples (foldLines tieLines).statistics "v").sum := by
  refine ⟨?_, rfl, rfl, ?_⟩
  · norm_num [mainPipeline, calculate_statistics, foldLines, stepLine,
      updateStat, enrichList, enrichOne, median, sortAsc, insertAsc, listMax,
      round3, roundHalfEven, Int.fract, sortDesc, insertDesc, Except.map,
      tieLines, tieEntryU, tieEntryV]
  · have h : ("u" : String) ≠ "v" := by decide
    norm_num [foldLines, stepLine, updateStat, samples, tieLines, h]

theorem scanStep_none (dir : String) (acc : Option (String × ℕ)) (n : String)
    (h : parseLogName n = none) : scanStep dir acc n = acc := by
  simp [scanStep, h]

theorem scan_fold_none_iff (dir : String) (names : List String) :
    ∀ acc, names.foldl (scanStep dir) acc = none ↔
      acc = none ∧ ∀ n ∈ names, parseLogName n = none := by
  induction names with
  | nil => intro acc; simp
  | cons m tl ih =>
      intro acc
      simp only [List.foldl_cons]
      rw [ih (scanStep dir acc m)]
      constructor
      · rintro ⟨h1, h2⟩
        cases hp : parseLogName m with
        | none =>
            rw [scanStep_none dir acc m hp] at h1
            refine ⟨h1, ?_⟩
            intro n hn
            rcases List.mem_cons.mp hn with h3 | h4
            · rw [h3]; exact hp
            · exact h2 n h4
        | some dm =>
            exfalso
            cases acc with
            | none => simp [scanStep, hp] at h1
            | some pd =>
                obtain ⟨p0, d0⟩ := pd
                simp only [scanStep, hp] at h1
                split_ifs at h1
      · rintro ⟨h1, h2⟩
        subst h1
        rw [scanStep_none dir none m (h2 m (List.mem_cons_self m tl))]
        exact ⟨rfl, fun n hn => h2 n (List.mem_cons_of_mem m hn)⟩

theorem scan_fold_acc_le (dir : String) (names : List String) :
    ∀ p0 d0, ∃ p d,
      names.foldl (scanStep dir) (some (p0, d0)) = some (p, d) ∧ d0 ≤ d := by
  induction names with
  | nil => intro p0 d0; exact ⟨p0, d0, rfl, le_refl d0⟩
  | cons m tl ih =>
      intro p0 d0
      simp only [List.foldl_cons]
      cases hp : parseLogName m with
      | none =>
          rw [scanStep_none dir _ m hp]
          exact ih p0 d0
      | some dm =>
          by_cases hlt : d0 < dm
          · obtain ⟨p, d, hres, hle⟩ := ih (joinPath dir m) dm
            refine ⟨p, d, ?_, le_trans (le_of_lt hlt) hle⟩
            simpa [scanStep, hp, hlt] using hres
          · obtain ⟨p, d, hres, hle⟩ := ih p0 d0
            refine ⟨p, d, ?_, hle⟩
            simpa [scanStep, hp, hlt] using hres

theorem scan_fold_max (dir : String) (names : List String) :
    ∀ acc p d, names.foldl (scanStep dir) acc = some (p, d) →
      (∀ n ∈ names, ∀ dn, parseLogName n = some dn → dn ≤ d) ∧
      ((∃ n ∈ names, parseLogName n = some d ∧ p = joinPath dir n) ∨
        acc = some (p, d)) := by
  induction names with
  | nil =>
      intro acc p d h
      simp at h
      exact ⟨by simp, Or.inr h⟩
  | cons m tl ih =>
      intro acc p d h
      simp only [List.foldl_cons] at h
      obtain ⟨hmax, hsrc⟩ := ih (scanStep dir acc m) p d h
      have hacc2_le : ∀ pa da, scanStep dir acc m = some (pa, da) → da ≤ d := by
        intro pa da ha
        obtain ⟨p2, d2, hres, hle⟩ := scan_fold_acc_le dir tl pa da
        rw [ha] at h
        rw [h] at hres
        obtain ⟨hp2, hd2⟩ := Prod.mk.injEq .. ▸ Option.some.inj hres
        omega
      constructor
      · intro n hn dn hdn
        rcases List.mem_cons.mp hn with h1 | h2
        · subst h1
          cases acc with
          | none =>
              have ha : scanStep dir none n = some (joinPath dir n, dn) := by
                simp [scanStep, hdn]
              exact hacc2_le _ _ ha
          | some pd =>
              obtain ⟨p0, d0⟩ := pd
              by_cases hlt : d0 < dn
              · have ha : scanStep dir (some (p0, d0)) n
                    = some (joinPath dir n, dn) := by
                  simp [scanStep, hdn, hlt]
                exact hacc2_le _ _ ha
              · have ha : scanStep dir (some (p0, d0)) n = some (p0, d0) := by
                  simp [scanStep, hdn, hlt]
                have h2 := hacc2_le _ _ ha
                omega
        · exact hmax n h2 dn hdn
      · rcases hsrc with h1 | h2
        · obtain ⟨n, hn, hparse, hjoin⟩ := h1
          exact Or.inl ⟨n, List.mem_cons_of_mem m hn, hparse, hjoin⟩
        · cases hp : parseLogName m with
          | none =>
              rw [scanStep_none dir acc m hp] at h2
              exact Or.inr h2
          | some dm =>
              cases acc with
              | none =>
                  left
                  refine ⟨m, List.mem_cons_self m tl, ?_, ?_⟩
                  · simp [scanStep, hp] at h2
                    rw [hp, h2.2]
                  · simp [scanStep, hp] at h2
                    exact h2.1.symm
              | some pd =>
                  obtain ⟨p0, d0⟩ := pd
                  by_cases hlt : d0 < dm
                  · left
                    refine ⟨m, List.mem_cons_self m tl, ?_, ?_⟩
                    · simp [scanStep, hp, hlt] at h2
                      rw [hp, h2.2]
                    · simp [scanStep, hp, hlt] at h2
                      exact h2.1.symm
                  · right
                    simp [scanStep, hp, hlt] at h2
                    rw [h2.1, h2.2]

/-- C6: `find_last_log_file` returns nothing when the directory is missing;
it returns nothing exactly when no entry matches
`nginx-access-ui.log-<8 digits>[.gz]` with a valid calendar date; a
returned candidate comes from the listing, carries the greatest parsed
date, and its path joins the directory with the file name; and entries
that do not parse (wrong name or invalid calendar date) never influence
the outcome. -/
theorem find_last_log_contract (dir : String) (names : List String)
    (e : Bool) :
    find_last_log_file false dir names = none ∧
    (find_last_log_file e dir names = none ↔
      e = false ∨ ∀ n ∈ names, parseLogName n = none) ∧
    (∀ p d, find_last_log_file e dir names = some (p, d) →
      ∃ n ∈ names, parseLogName n = some d ∧ p = joinPath dir n ∧
        ∀ n2 ∈ names, ∀ d2, parseLogName n2 = some d2 → d2 ≤ d) ∧
    (∀ pre bad post, parseLogName bad = none →
      find_last_log_file e dir (pre ++ bad :: post)
        = find_last_log_file e dir (pre ++ post)) := by
  refine ⟨by simp [find_last_log_file], ?_, ?_, ?_⟩
  · cases e with
    | false => simp [find_last_log_file]
    | true =>
        simp only [find_last_log_file, if_pos]
        rw [scan_fold_none_iff dir names none]
        simp
  · intro p d h
    cases e with
    | false => simp [find_last_log_file] at h
    | true =>
        simp only [find_last_log_file, if_pos] at h
        obtain ⟨hmax, hsrc⟩ := scan_fold_max dir names none p d h
        rcases hsrc with h1 | h2
        · obtain ⟨n, hn, hparse, hjoin⟩ := h1
          exact ⟨n, hn, hparse, hjoin, hmax⟩
        · simp at h2
  · intro pre bad post hbad
    cases e with
    | false => simp [find_last_log_file]
    | true =>
        simp only [find_last_log_file, if_pos]
        rw [List.foldl_append, List.foldl_cons, scanStep_none dir _ bad hbad,
          List.foldl_append]

theorem find_last_log_contract_witness :
    ∃ n ∈ ["nginx-access-ui.log-20230101", "nginx-access-ui.log-20230215.gz",
        "nginx-access-ui.log-bad"],
      parseLogName n = some 20230215 ∧
      "logs/nginx-access-ui.log-20230215.gz" = joinPath "logs" n ∧
      ∀ n2 ∈ ["nginx-access-ui.log-20230101",
          "nginx-access-ui.log-20230215.gz", "nginx-access-ui.log-bad"],
        ∀ d2, parseLogName n2 = some d2 → d2 ≤ 20230215 :=
  (find_last_log_contract "logs"
      ["nginx-access-ui.log-20230101", "nginx-access-ui.log-20230215.gz",
        "nginx-access-ui.log-bad"] true).2.2.1
    "logs/nginx-access-ui.log-20230215.gz" 20230215 (by decide)

theorem scan_fold_keep (dir : String) (ms : List String) :
    ∀ p dm, (∀ m2 ∈ ms, ∀ d2, parseLogName m2 = some d2 → d2 ≤ dm) →
      ms.foldl (scanStep dir) (some (p, dm)) = some (p, dm) := by
  induction ms with
  | nil => intro p dm _; rfl
  | cons m2 tl ih =>
      intro p dm hall
      simp only [List.foldl_cons]
      cases hp : parseLogName m2 with
      | none =>
          rw [scanStep_none dir _ m2 hp]
          exact ih p dm (fun a ha => hall a (List.mem_cons_of_mem m2 ha))
      | some d2 =>
          have hle : d2 ≤ dm := hall m2 (List.mem_cons_self m2 tl) d2 hp
          have hstep : scanStep dir (some (p, dm)) m2 = some (p, dm) := by
            simp [scanStep, hp]
            omega
          rw [hstep]
          exact ih p dm (fun a ha => hall a (List.mem_cons_of_mem m2 ha))

/-- C9: the date comparison is strict, so a later candidate whose date
does not exceed the current best never replaces it; in particular, among
several candidates sharing the greatest date, the first one in listing
order is kept. -/
theorem tie_keeps_first_seen (dir : String) :
    (∀ (ns : List String) (n : String) (d : ℕ) (info : String × ℕ),
      parseLogName n = some d →
      find_last_log_file true dir ns = some info → d ≤ info.2 →
      find_last_log_file true dir (ns ++ [n]) = some info) ∧
    (∀ (m : String) (ms : List String) (dm : ℕ),
      parseLogName m = some dm →
      (∀ m2 ∈ ms, ∀ d2, parseLogName m2 = some d2 → d2 ≤ dm) →
      find_last_log_file true dir (m :: ms) = some (joinPath dir m, dm)) := by
  constructor
  · intro ns n d info hn hres hle
    obtain ⟨p0, d0⟩ := info
    simp only [find_last_log_file, if_pos] at hres ⊢
    rw [List.foldl_append, hres, List.foldl_cons]
    have hstep : scanStep dir (some (p0, d0)) n = some (p0, d0) := by
      simp [scanStep, hn]
      simp at hle
      omega
    rw [hstep]
    rfl
  · intro m ms dm hm hall
    simp only [find_last_log_file, if_pos, List.foldl_cons]
    have hstep : scanStep dir none m = some (joinPath dir m, dm) := by
      simp [scanStep, hm]
    rw [hstep]
    exact scan_fold_keep dir ms (joinPath dir m) dm hall

theorem tie_keeps_first_seen_witness :
    find_last_log_file true "logs"
        ["nginx-access-ui.log-20230101", "nginx-access-ui.log-20230101.gz"]
      = some (joinPath "logs" "nginx-access-ui.log-20230101", 20230101) :=
  (tie_keeps_first_seen "logs").2 "nginx-access-ui.log-20230101"
    ["nginx-access-ui.log-20230101.gz"] 20230101 (by decide)
    (by
      intro m2 hm2 d2 hd2
      simp at hm2
      subst hm2
      have hp : parseLogName "nginx-access-ui.log-20230101.gz"
          = some 20230101 := by decide
      rw [hp] at hd2
      have := Option.some.inj hd2
      omega)

/-! ## Generic lemmas about the backtracking matcher -/

theorem runRE_cat_nil (k : K) : runRE (cat []) k = k := rfl

theorem runRE_cat_cons (a : RE) (l : List RE) (k : K) :
    runRE (cat (a :: l)) k = runRE a (runRE (cat l) k) := rfl

theorem runRE_cat_append (l1 l2 : List RE) (k : K) :
    runRE (cat (l1 ++ l2)) k = runRE (cat l1) (runRE (cat l2) k) := by
  induction l1 with
  | nil => rfl
  | cons a l1 ih =>
      show runRE (cat (a :: (l1 ++ l2))) k = _
      rw [runRE_cat_cons, ih, runRE_cat_cons]

theorem run_one_step (p : Char → Bool) (k : K) (c : Char) (s : List Char)
    (i : ℕ) (ms : List (ℕ × ℕ)) (h : p c = true) :
    runRE (.one p) k (c :: s) i ms = k s (i + 1) ms := by
  simp [runRE, h]

theorem run_one_fail (p : Char → Bool) (k : K) (c : Char) (s : List Char)
    (i : ℕ) (ms : List (ℕ × ℕ)) (h : p c = false) :
    runRE (.one p) k (c :: s) i ms = none := by
  simp [runRE, h]

theorem run_one_nil (p : Char → Bool) (k : K) (i : ℕ) (ms : List (ℕ × ℕ)) :
    runRE (.one p) k [] i ms = none := rfl

theorem run_mark (n : ℕ) (k : K) (s : List Char) (i : ℕ)
    (ms : List (ℕ × ℕ)) : runRE (.mark n) k s i ms = k s i (ms ++ [(n, i)]) :=
  rfl

theorem run_alt (a b : RE) (k : K) (s : List Char) (i : ℕ)
    (ms : List (ℕ × ℕ)) :
    runRE (.alt a b) k s i ms = (runRE a k s i ms <|> runRE b k s i ms) := rfl

theorem run_lits (l : List Char) (k : K) :
    ∀ (s : List Char) (i : ℕ) (ms : List (ℕ × ℕ)),
      runRE (cat (l.map (fun c => RE.one (· == c)))) k (l ++ s) i ms
        = k s (i + l.length) ms := by
  induction l with
  | nil => intro s i ms; simp [runRE_cat_nil]
  | cons c l ih =>
      intro s i ms
      simp only [List.map_cons, List.cons_append]
      rw [runRE_cat_cons, run_one_step _ _ _ _ _ _ (by simp), ih]
      congr 1
      simp
      omega

theorem run_lit (t : String) (k : K) (s : List Char) (i : ℕ)
    (ms : List (ℕ × ℕ)) :
    runRE (lit t) k (t.toList ++ s) i ms = k s (i + t.toList.length) ms :=
  run_lits t.toList k s i ms

theorem loopL_nil (p : Char → Bool) (k : K) (i : ℕ) (ms : List (ℕ × ℕ)) :
    loopL p k [] i ms = k [] i ms := rfl

theorem loopL_cons (p : Char → Bool) (k : K) (c : Char) (s : List Char)
    (i : ℕ) (ms : List (ℕ × ℕ)) :
    loopL p k (c :: s) i ms
      = (k (c :: s) i ms <|> (if p c then loopL p k s (i + 1) ms else none)) :=
  rfl

theorem loopG_nil (p : Char → Bool) (k : K) (i : ℕ) (ms : List (ℕ × ℕ)) :
    loopG p k [] i ms = k [] i ms := rfl

theorem loopG_cons (p : Char → Bool) (k : K) (c : Char) (s : List Char)
    (i : ℕ) (ms : List (ℕ × ℕ)) :
    loopG p k (c :: s) i ms
      = ((if p c then loopG p k s (i + 1) ms else none) <|> k (c :: s) i ms) :=
  rfl

theorem run_wsPlus (k : K) (s : List Char) (i : ℕ) (ms : List (ℕ × ℕ))
    (h : headNot wsC s) :
    runRE wsPlus k (' ' :: s) i ms = k s (i + 1) ms := by
  show runRE (.seq (.one wsC) (.starG wsC)) k (' ' :: s) i ms = _
  simp only [runRE]
  rw [if_pos (show wsC ' ' = true from rfl)]
  cases s with
  | nil => rfl
  | cons c s2 =>
      have hc : wsC c = false := h
      rw [loopG_cons, hc]
      simp

theorem loopL_skip (p : Char → Bool) (k : K) (f : List Char) :
    ∀ (s : List Char) (i : ℕ) (ms : List (ℕ × ℕ)),
      (∀ c ∈ f, p c = true) →
      (∀ f1 f2, f = f1 ++ f2 → f2 ≠ [] →
        k (f2 ++ s) (i + f1.length) ms = none) →
      k s (i + f.length) ms ≠ none →
      loopL p k (f ++ s) i ms = k s (i + f.length) ms := by
  induction f with
  | nil =>
      intro s i ms _ _ hsucc
      simp only [List.nil_append, List.length_nil, Nat.add_zero] at hsucc ⊢
      cases s with
      | nil => rfl
      | cons c s2 =>
          obtain ⟨y, hy⟩ := Option.ne_none_iff_exists.mp hsucc
          rw [loopL_cons, ← hy]
          rfl
  | cons c f2 ih =>
      intro s i ms hall hfail hsucc
      have h1 : k (c :: (f2 ++ s)) i ms = none := by
        have := hfail [] (c :: f2) rfl (by simp)
        simpa using this
      have hc : p c = true := hall c (List.mem_cons_self c f2)
      have heq : i + 1 + f2.length = i + (c :: f2).length := by
        simp
        omega
      have ih2 := ih s (i + 1) ms (fun a ha => hall a (List.mem_cons_of_mem c ha))
        (fun f1 f3 hsplit hne => by
          have := hfail (c :: f1) f3 (by rw [hsplit]; rfl) hne
          have harith : i + (c :: f1).length = i + 1 + f1.length := by
            simp
            omega
          rw [harith] at this
          exact this)
        (by rw [heq]; exact hsucc)
      show loopL p k (c :: (f2 ++ s)) i ms = _
      rw [loopL_cons, h1, hc]
      simp only [if_true, Option.none_orElse]
      rw [ih2, heq]

theorem loopG_fail_all (p : Char → Bool) (k : K) (f : List Char) :
    ∀ (s : List Char) (i : ℕ) (ms : List (ℕ × ℕ)),
      (∀ c ∈ f, p c = true) →
      headNot p s →
      (∀ f1 f2, f = f1 ++ f2 → k (f2 ++ s) (i + f1.length) ms = none) →
      loopG p k (f ++ s) i ms = none := by
  induction f with
  | nil =>
      intro s i ms _ hs hfail
      have h0 : k s i ms = none := by
        have := hfail [] [] rfl
        simpa using this
      cases s with
      | nil => rw [List.nil_append, loopG_nil]; exact h0
      | cons c s2 =>
          have hc : p c = false := hs
          rw [List.nil_append, loopG_cons, hc]
          simp [h0]
  | cons c f2 ih =>
      intro s i ms hall hs hfail
      have hc : p c = true := hall c (List.mem_cons_self c f2)
      have hdeep : loopG p k (f2 ++ s) (i + 1) ms = none :=
        ih s (i + 1) ms (fun a ha => hall a (List.mem_cons_of_mem c ha)) hs
          (fun f1 f3 hsplit => by
            have := hfail (c :: f1) f3 (by rw [hsplit]; rfl)
            have harith : i + (c :: f1).length = i + 1 + f1.length := by
              simp
              omega
            rw [harith] at this
            exact this)
      have h0 : k (c :: (f2 ++ s)) i ms = none := by
        have := hfail [] (c :: f2) rfl
        simpa using this
      show loopG p k (c :: (f2 ++ s)) i ms = none
      rw [loopG_cons, hc]
      simp [hdeep, h0]

theorem loopG_back (p : Char → Bool) (k : K) (fa : List Char) :
    ∀ (fb s : List Char) (i : ℕ) (ms : List (ℕ × ℕ)),
      (∀ c ∈ fa, p c = true) →
      (∀ c ∈ fb, p c = true) →
      headNot p s →
      (∀ f1 f2, fb = f1 ++ f2 → f1 ≠ [] →
        k (f2 ++ s) (i + fa.length + f1.length) ms = none) →
      k (fb ++ s) (i + fa.length) ms ≠ none →
      loopG p k (fa ++ fb ++ s) i ms = k (fb ++ s) (i + fa.length) ms := by
  induction fa with
  | nil =>
      intro fb s i ms _ hallb hs hfail hsucc
      simp only [List.nil_append, List.length_nil, Nat.add_zero] at hfail hsucc ⊢
      cases fb with
      | nil =>
          simp only [List.nil_append] at hsucc ⊢
          cases s with
          | nil => rfl
          | cons c s2 =>
              have hc : p c = false := hs
              rw [loopG_cons, hc]
              simp
      | cons c fb2 =>
          have hc : p c = true := hallb c (List.mem_cons_self c fb2)
          have hdeep : loopG p k (fb2 ++ s) (i + 1) ms = none := by
            refine loopG_fail_all p k fb2 s (i + 1) ms
              (fun a ha => hallb a (List.mem_cons_of_mem c ha)) hs ?_
            intro f1 f3 hsplit
            have := hfail (c :: f1) f3 (by rw [hsplit]; rfl) (by simp)
            have harith : i + (c :: f1).length = i + 1 + f1.length := by
              simp
              omega
            rw [harith] at this
            exact this
          show loopG p k (c :: (fb2 ++ s)) i ms = _
          rw [loopG_cons, hc]
          simp [hdeep]
  | cons c fa2 ih =>
      intro fb s i ms halla hallb hs hfail hsucc
      have hc : p c = true := halla c (List.mem_cons_self c fa2)
      have harith : i + (c :: fa2).length = i + 1 + fa2.length := by
        simp
        omega
      rw [harith] at hfail hsucc ⊢
      have ih2 := ih fb s (i + 1) ms
        (fun a ha => halla a (List.mem_cons_of_mem c ha)) hallb hs hfail hsucc
      show loopG p k (c :: (fa2 ++ fb ++ s)) i ms = _
      rw [loopG_cons, hc]
      obtain ⟨y, hy⟩ := Option.ne_none_iff_exists.mp hsucc
      rw [ih2, ← hy]
      rfl

theorem quotes_nil : quotes [] = 0 := rfl

theorem quotes_cons (c : Char) (s : List Char) :
    quotes (c :: s) = (if c == '"' then 1 else 0) + quotes s := by
  simp [quotes, List.countP_cons]
  split_ifs <;> omega

theorem kfails_zero_k0 : KFails 0 (fun _ _ ms => some ms) := by
  intro s i ms h
  omega

theorem kfails_one_quote (k : K) (m : ℕ) (h : KFails m k) :
    KFails (m + 1) (runRE (.one (· == '"')) k) := by
  intro s i ms hq
  cases s with
  | nil => rfl
  | cons c s2 =>
      by_cases hc : (c == '"') = true
      · rw [run_one_step (fun x => x == '"') k c s2 i ms hc]
        refine h s2 (i + 1) ms ?_
        rw [quotes_cons, hc] at hq
        simp at hq
        omega
      · exact run_one_fail _ _ _ _ _ _ (by simpa using hc)

theorem kfails_one (p : Char → Bool) (k : K) (m : ℕ) (h : KFails m k) :
    KFails m (runRE (.one p) k) := by
  intro s i ms hq
  cases s with
  | nil => rfl
  | cons c s2 =>
      by_cases hc : p c = true
      · rw [run_one_step _ _ _ _ _ _ hc]
        refine h s2 (i + 1) ms ?_
        rw [quotes_cons] at hq
        split_ifs at hq <;> omega
      · exact run_one_fail _ _ _ _ _ _ (by simpa using hc)

theorem kfails_mark (n : ℕ) (k : K) (m : ℕ) (h : KFails m k) :
    KFails m (runRE (.mark n) k) := by
  intro s i ms hq
  rw [run_mark]
  exact h s i _ hq

theorem kfails_eps (k : K) (m : ℕ) (h : KFails m k) :
    KFails m (runRE .eps k) := h

theorem kfails_alt (a b : RE) (k : K) (m : ℕ) (ha : KFails m (runRE a k))
    (hb : KFails m (runRE b k)) : KFails m (runRE (.alt a b) k) := by
  intro s i ms hq
  rw [run_alt, ha s i ms hq, hb s i ms hq]
  rfl

theorem kfails_starL (p : Char → Bool) (k : K) (m : ℕ) (h : KFails m k) :
    KFails m (runRE (.starL p) k) := by
  intro s
  induction s with
  | nil =>
      intro i ms hq
      show loopL p k [] i ms = none
      rw [loopL_nil]
      exact h [] i ms hq
  | cons c s2 ih =>
      intro i ms hq
      show loopL p k (c :: s2) i ms = none
      rw [loopL_cons, h (c :: s2) i ms hq]
      have hq2 : quotes s2 < m := by
        rw [quotes_cons] at hq
        split_ifs at hq <;> omega
      by_cases hc : p c = true
      · rw [hc]
        simp only [if_true, Option.none_orElse]
        exact ih _ ms hq2
      · rw [show p c = false by simpa using hc]
        rfl

theorem kfails_starG (p : Char → Bool) (k : K) (m : ℕ) (h : KFails m k) :
    KFails m (runRE (.starG p) k) := by
  intro s
  induction s with
  | nil =>
      intro i ms hq
      show loopG p k [] i ms = none
      rw [loopG_nil]
      exact h [] i ms hq
  | cons c s2 ih =>
      intro i ms hq
      show loopG p k (c :: s2) i ms = none
      have hq2 : quotes s2 < m := by
        rw [quotes_cons] at hq
        split_ifs at hq <;> omega
      rw [loopG_cons]
      by_cases hc : p c = true
      · rw [hc]
        simp only [if_true]
        have ih2 : loopG p k s2 (i + 1) ms = none := ih (i + 1) ms hq2
        rw [ih2, h (c :: s2) i ms hq]
        rfl
      · have hpc : p c = false := by simpa using hc
        simp [hpc, h (c :: s2) i ms hq]

theorem kfails_lits (l : List Char) (k : K) (m : ℕ) (h : KFails m k) :
    KFails (m + quotes l) (runRE (cat (l.map (fun c => RE.one (· == c)))) k) := by
  induction l with
  | nil =>
      simpa [quotes_nil] using h
  | cons c rest ih =>
      simp only [List.map_cons]
      rw [runRE_cat_cons]
      by_cases hc : c = '"'
      · subst hc
        have h2 := kfails_one_quote _ _ ih
        have harith : m + quotes ('"' :: rest) = m + quotes rest + 1 := by
          rw [quotes_cons]
          simp
          omega
        rw [harith]
        exact h2
      · have h2 := kfails_one (· == c) _ _ ih
        have harith : m + quotes (c :: rest) = m + quotes rest := by
          rw [quotes_cons]
          have : (c == '"') = false := by
            simp [hc]
          rw [this]
          simp
        rw [harith]
        exact h2

theorem kfails_lit (t : String) (k : K) (m : ℕ) (h : KFails m k) :
    KFails (m + quotes t.toList) (runRE (lit t) k) :=
  kfails_lits t.toList k m h

theorem kfails_wsPlus (k : K) (m : ℕ) (h : KFails m k) :
    KFails m (runRE wsPlus k) := by
  have h1 := kfails_starG wsC k m h
  exact kfails_one wsC _ m h1

/-! ## Inversion of the documented-format checker -/

theorem span_structure (p : Char → Bool) (cs : List Char) :
    cs = cs.takeWhile p ++ cs.dropWhile p ∧
    (∀ c ∈ cs.takeWhile p, p c = true) ∧
    headNot p (cs.dropWhile p) := by
  induction cs with
  | nil => exact ⟨rfl, by simp, trivial⟩
  | cons c cs2 ih =>
      by_cases hc : p c = true
      · simp only [List.takeWhile_cons, List.dropWhile_cons, hc, if_true]
        refine ⟨by rw [List.cons_append, ← ih.1], ?_, ih.2.2⟩
        intro a ha
        rcases List.mem_cons.mp ha with h1 | h2
        · rw [h1]; exact hc
        · exact ih.2.1 a h2
      · have hc2 : p c = false := by simpa using hc
        simp only [List.takeWhile_cons, List.dropWhile_cons, hc2]
        exact ⟨by simp, by simp, hc2⟩

theorem drop_takeWhile_length (p : Char → Bool) (cs : List Char) :
    cs.drop (cs.takeWhile p).length = cs.dropWhile p := by
  induction cs with
  | nil => rfl
  | cons c cs2 ih =>
      by_cases hc : p c = true
      · simp only [List.takeWhile_cons, List.dropWhile_cons, hc, if_true,
          List.length_cons, List.drop_succ_cons]
        exact ih
      · have hc2 : p c = false := by simpa using hc
        simp [List.takeWhile_cons, List.dropWhile_cons, hc2]

theorem chomp_inv (c : Char) (cs r : List Char) (h : chomp c cs = some r) :
    cs = c :: r := by
  cases cs with
  | nil => simp [chomp] at h
  | cons x rest =>
      simp only [chomp] at h
      split_ifs at h with hx
      rw [hx, Option.some.inj h]

theorem octet_inv (cs r : List Char) (h : octet cs = some r) :
    ∃ ds, cs = ds ++ r ∧ (∀ c ∈ ds, Char.isDigit c = true) ∧
      1 ≤ ds.length ∧ ds.length ≤ 3 ∧ headNot Char.isDigit r := by
  simp only [octet] at h
  split_ifs at h with hlen
  obtain ⟨hsplit, hall, hhead⟩ := span_structure Char.isDigit cs
  refine ⟨cs.takeWhile Char.isDigit, ?_, hall, hlen.1, hlen.2, ?_⟩
  · rw [← Option.some.inj h, drop_takeWhile_length]
    exact hsplit
  · rw [← Option.some.inj h, drop_takeWhile_length]
    exact hhead

theorem fieldTok_inv (cs r : List Char) (h : fieldTok cs = some r) :
    ∃ f, cs = f ++ r ∧ f ≠ [] ∧
      (∀ c ∈ f, (!(wsC c) && !(c == '"')) = true) ∧
      headNot (fun c => !(wsC c) && !(c == '"')) r := by
  simp only [fieldTok] at h
  split_ifs at h with hlen
  obtain ⟨hsplit, hall, hhead⟩ :=
    span_structure (fun c => !(wsC c) && !(c == '"')) cs
  refine ⟨cs.takeWhile (fun c => !(wsC c) && !(c == '"')), ?_, ?_, hall, ?_⟩
  · rw [← Option.some.inj h, drop_takeWhile_length]
    exact hsplit
  · intro hnil
    rw [hnil] at hlen
    simp at hlen
  · rw [← Option.some.inj h, drop_takeWhile_length]
    exact hhead

theorem timePart_inv (cs r : List Char) (h : timePart cs = some r) :
    ∃ ts, cs = '[' :: ts ++ ']' :: r ∧ ts ≠ [] ∧
      ∀ c ∈ ts, (!(c == ']') && !(c == '\n')) = true := by
  cases cs with
  | nil => simp [timePart] at h
  | cons x rest =>
      simp only [timePart] at h
      split_ifs at h with hx hlen
      subst hx
      rw [drop_takeWhile_length] at h
      obtain ⟨hsplit, hall, _⟩ :=
        span_structure (fun c => !(c == ']') && !(c == '\n')) rest
      cases hdw : rest.dropWhile (fun c => !(c == ']') && !(c == '\n')) with
      | nil => rw [hdw] at h; simp at h
      | cons y rest2 =>
          rw [hdw] at h
          simp only at h
          split_ifs at h with hy
          subst hy
          have hr : rest2 = r := Option.some.inj h
          subst hr
          rw [hdw] at hsplit
          refine ⟨rest.takeWhile (fun c => !(c == ']') && !(c == '\n')),
            congrArg (fun l => '[' :: l) hsplit, ?_, hall⟩
          intro hnil
          rw [hnil] at hlen
          simp at hlen

theorem quoted_inv (cs r : List Char) (h : quoted cs = some r) :
    ∃ f, cs = '"' :: f ++ '"' :: r ∧
      ∀ c ∈ f, (!(c == '"') && !(c == '\n')) = true := by
  cases cs with
  | nil => simp [quoted] at h
  | cons x rest =>
      simp only [quoted] at h
      split_ifs at h with hx
      subst hx
      rw [drop_takeWhile_length] at h
      obtain ⟨hsplit, hall, _⟩ :=
        span_structure (fun c => !(c == '"') && !(c == '\n')) rest
      cases hdw : rest.dropWhile (fun c => !(c == '"') && !(c == '\n')) with
      | nil => rw [hdw] at h; simp at h
      | cons y rest2 =>
          rw [hdw] at h
          simp only at h
          split_ifs at h with hy
          subst hy
          have hr : rest2 = r := Option.some.inj h
          subst hr
          rw [hdw] at hsplit
          exact ⟨rest.takeWhile (fun c => !(c == '"') && !(c == '\n')),
            congrArg (fun l => '"' :: l) hsplit, hall⟩

theorem requestEnd_inv (cs r : List Char) (h : requestEnd cs = some r) :
    cs = '"' :: r ∨
    ∃ v, cs = ' ' :: 'H' :: 'T' :: 'T' :: 'P' :: '/' :: v ++ '"' :: r ∧
      v ≠ [] ∧ ∀ c ∈ v, (!(c == '"') && !(c == '\n')) = true := by
  cases cs with
  | nil => simp [requestEnd] at h
  | cons x rest =>
      have hr4 : ∃ r4, rest.drop 5 = r4 := ⟨rest.drop 5, rfl⟩
      obtain ⟨r4, hr4⟩ := hr4
      simp only [requestEnd, hr4] at h
      split_ifs at h with hx hhttp hlen
      · exact Or.inl (by rw [hx, Option.some.inj h])
      · right
        obtain ⟨htake, hsp⟩ := hhttp
        subst hsp
        have hrest : rest = 'H' :: 'T' :: 'T' :: 'P' :: '/' :: r4 := by
          conv =>
            left
            rw [← List.take_append_drop 5 rest]
          rw [htake, hr4]
          rfl
        rw [drop_takeWhile_length] at h
        obtain ⟨hsplit, hall, _⟩ :=
          span_structure (fun c => !(c == '"') && !(c == '\n')) r4
        cases hdw : r4.dropWhile (fun c => !(c == '"') && !(c == '\n')) with
        | nil => rw [hdw] at h; simp at h
        | cons y rest2 =>
            rw [hdw] at h
            simp only at h
            split_ifs at h with hy
            subst hy
            have hr : rest2 = r := Option.some.inj h
            subst hr
            rw [hdw] at hsplit
            refine ⟨r4.takeWhile (fun c => !(c == '"') && !(c == '\n')),
              ?_, ?_, hall⟩
            · conv =>
                left
                rw [hrest, hsplit]
              simp
            · intro hnil
              rw [hnil] at hlen
              simp at hlen

theorem requestPart_inv (cs r : List Char) (h : requestPart cs = some r) :
    ∃ method path rest1,
      cs = '"' :: method ++ ' ' :: path ++ rest1 ∧
      method ≠ [] ∧ (∀ c ∈ method, (!(wsC c) && !(c == '"')) = true) ∧
      path ≠ [] ∧ (∀ c ∈ path, (!(wsC c) && !(c == '"')) = true) ∧
      (rest1 = '"' :: r ∨
        ∃ v, rest1 = ' ' :: 'H' :: 'T' :: 'T' :: 'P' :: '/' :: v ++ '"' :: r ∧
          v ≠ [] ∧ ∀ c ∈ v, (!(c == '"') && !(c == '\n')) = true) := by
  simp only [requestPart, Option.bind_eq_some] at h
  obtain ⟨r4, ⟨r3, ⟨r2, ⟨r1, hq, hm⟩, hsp⟩, hp⟩, hend⟩ := h
  have h1 := chomp_inv _ _ _ hq
  obtain ⟨method, hm1, hm2, hm3, _⟩ := fieldTok_inv _ _ hm
  have h2 := chomp_inv _ _ _ hsp
  obtain ⟨path, hp1, hp2, hp3, _⟩ := fieldTok_inv _ _ hp
  have hre := requestEnd_inv _ _ hend
  refine ⟨method, path, r4, ?_, hm2, hm3, hp2, hp3, ?_⟩
  · rw [h1, hm1, h2, hp1]
    simp
  · rcases hre with h3 | ⟨v, h3, h4, h5⟩
    · exact Or.inl h3
    · exact Or.inr ⟨v, h3, h4, h5⟩

theorem durationPart_inv (cs r : List Char) (h : durationPart cs = some r) :
    ∃ dur tail, cs = dur ++ tail ∧ (tail = [] ∨ tail = ['\n']) ∧
      ((dur ≠ [] ∧ ∀ c ∈ dur, Char.isDigit c = true) ∨
        (∃ ds fs, dur = ds ++ '.' :: fs ∧ ds ≠ [] ∧ fs ≠ [] ∧
          (∀ c ∈ ds, Char.isDigit c = true) ∧
          (∀ c ∈ fs, Char.isDigit c = true))) := by
  simp only [durationPart] at h
  split_ifs at h with hlen htail
  · obtain ⟨hsplit, hall, _⟩ := span_structure Char.isDigit cs
    rw [drop_takeWhile_length] at htail
    refine ⟨cs.takeWhile Char.isDigit, cs.dropWhile Char.isDigit, hsplit,
      htail, Or.inl ⟨?_, hall⟩⟩
    intro hnil
    rw [hnil] at hlen
    simp at hlen
  · rw [drop_takeWhile_length] at htail h
    obtain ⟨hsplit, hall, _⟩ := span_structure Char.isDigit cs
    cases hdw : cs.dropWhile Char.isDigit with
    | nil => exact absurd (Or.inl hdw) htail
    | cons x rest =>
        rw [hdw] at h
        simp only at h
        split_ifs at h with hx hflen hftail
        subst hx
        obtain ⟨hsplit2, hall2, _⟩ := span_structure Char.isDigit rest
        rw [drop_takeWhile_length] at hftail
        refine ⟨cs.takeWhile Char.isDigit ++ '.' ::
            rest.takeWhile Char.isDigit, rest.dropWhile Char.isDigit,
          ?_, hftail, Or.inr ⟨cs.takeWhile Char.isDigit,
            rest.takeWhile Char.isDigit, rfl, ?_, ?_, hall, hall2⟩⟩
        · rw [hdw] at hsplit
          conv =>
            left
            rw [hsplit, hsplit2]
          simp [List.append_assoc]
        · intro hnil
          rw [hnil] at hlen
          simp at hlen
        · intro hnil
          rw [hnil] at hflen
          simp at hflen

/-! ## Character-class bridges and the duration parser -/

theorem ws_of_eq_nl (c : Char) (h : c = '\n') : wsC c = true := by
  rw [h]
  rfl

theorem fieldChar_not_ws (c : Char) (h : (!(wsC c) && !(c == '"')) = true) :
    wsC c = false := by
  simp only [Bool.and_eq_true, Bool.not_eq_true'] at h
  exact h.1

theorem fieldChar_not_quote (c : Char)
    (h : (!(wsC c) && !(c == '"')) = true) : (c == '"') = false := by
  simp only [Bool.and_eq_true, Bool.not_eq_true'] at h
  exact h.2

theorem fieldChar_anyC (c : Char) (h : (!(wsC c) && !(c == '"')) = true) :
    anyC c = true := by
  have hw := fieldChar_not_ws c h
  by_cases hnl : c = '\n'
  · rw [ws_of_eq_nl c hnl] at hw
    simp at hw
  · simp [anyC, hnl]

theorem quotedChar_not_quote (c : Char)
    (h : (!(c == '"') && !(c == '\n')) = true) : (c == '"') = false := by
  simp only [Bool.and_eq_true, Bool.not_eq_true'] at h
  exact h.1

theorem quotedChar_anyC (c : Char)
    (h : (!(c == '"') && !(c == '\n')) = true) : anyC c = true := by
  simp only [Bool.and_eq_true, Bool.not_eq_true'] at h
  simp [anyC, h.2]

theorem tsChar_anyC (c : Char)
    (h : (!(c == ']') && !(c == '\n')) = true) : anyC c = true := by
  simp only [Bool.and_eq_true, Bool.not_eq_true'] at h
  simp [anyC, h.2]

theorem tsChar_not_rb (c : Char)
    (h : (!(c == ']') && !(c == '\n')) = true) : (c == ']') = false := by
  simp only [Bool.and_eq_true, Bool.not_eq_true'] at h
  simp [h.1]

theorem digit_not_ws (c : Char) (h : Char.isDigit c = true) :
    wsC c = false := by
  by_contra hw
  have hw2 : wsC c = true := by simpa using hw
  simp only [wsC, Bool.or_eq_true, beq_iff_eq] at hw2
  rcases hw2 with ((((h1 | h1) | h1) | h1) | h1) | h1 <;> subst h1 <;>
    exact absurd h (by decide)

theorem digit_not_quote (c : Char) (h : Char.isDigit c = true) :
    (c == '"') = false := by
  by_contra hq
  have hq2 : c = '"' := by simpa using hq
  rw [hq2] at h
  simp at h

theorem digit_anyC (c : Char) (h : Char.isDigit c = true) : anyC c = true := by
  by_contra ha
  have ha2 : c = '\n' := by simpa [anyC] using ha
  rw [ha2] at h
  simp at h

theorem quotes_eq_zero (s : List Char) (h : ∀ c ∈ s, (c == '"') = false) :
    quotes s = 0 := by
  simp only [quotes]
  rw [List.countP_eq_zero]
  intro c hc
  simp [h c hc]

theorem quotes_append (s t : List Char) :
    quotes (s ++ t) = quotes s + quotes t := by
  simp [quotes, List.countP_append]

theorem digitsVal_nonneg (cs : List Char) : (0 : ℚ) ≤ (digitsVal cs : ℚ) := by
  positivity

theorem parseNum_nonneg (cs : List Char) : 0 ≤ parseNum cs := by
  simp only [parseNum]
  cases hdw : cs.dropWhile Char.isDigit with
  | nil => positivity
  | cons x fr =>
      by_cases hx : x = '.'
      · simp only [hx, if_true]
        positivity
      · simp only [hx, if_false]
        positivity

/-! ## Matching a documented-format line: stage lemmas -/

theorem run_wsPlus_fail (k : K) (c : Char) (s : List Char) (i : ℕ)
    (ms : List (ℕ × ℕ)) (h : wsC c = false) :
    runRE wsPlus k (c :: s) i ms = none := by
  show runRE (.seq (.one wsC) (.starG wsC)) k (c :: s) i ms = none
  simp only [runRE]
  rw [h]
  simp

theorem stage_dur (dur tail : List Char) (i : ℕ) (ms : List (ℕ × ℕ))
    (hdur : (dur ≠ [] ∧ ∀ c ∈ dur, Char.isDigit c = true) ∨
      (∃ ds fs, dur = ds ++ '.' :: fs ∧ ds ≠ [] ∧ fs ≠ [] ∧
        (∀ c ∈ ds, Char.isDigit c = true) ∧
        (∀ c ∈ fs, Char.isDigit c = true)))
    (htail : tail = [] ∨ tail = ['\n']) :
    runRE (cat [.mark 2, .one digC, .starG digC,
        .alt (.one (· == '.')) .eps, .starG digC, .mark 3])
      (fun _ _ ms => some ms) (dur ++ tail) i ms
      = some (ms ++ [(2, i), (3, i + dur.length)]) := by
  have htailNotDig : headNot digC tail := by
    rcases htail with h | h <;> rw [h]
    · trivial
    · show digC '\n' = false
      rfl
  have htailNotDot : ∀ (i2 : ℕ) (ms2 : List (ℕ × ℕ)),
      runRE (cat [.alt (.one (· == '.')) .eps, .starG digC, .mark 3])
        (fun _ _ ms => some ms) tail i2 ms2 = some (ms2 ++ [(3, i2)]) := by
    intro i2 ms2
    rcases htail with h | h <;> rw [h] <;> rfl
  rcases hdur with ⟨hne, hdig⟩ | ⟨ds, fs, hshape, hdsne, hfsne, hdsdig, hfsdig⟩
  · -- integer duration
    cases dur with
    | nil => exact absurd rfl hne
    | cons d ds2 =>
        simp only [List.cons_append]
        rw [runRE_cat_cons, run_mark, runRE_cat_cons,
          run_one_step digC _ d _ _ _ (hdig d (List.mem_cons_self d ds2)),
          runRE_cat_cons]
        show loopG digC _ (ds2 ++ tail) (i + 1) _ = _
        have hback := loopG_back digC
          (runRE (cat [.alt (.one (· == '.')) .eps, .starG digC, .mark 3])
            (fun _ _ ms => some ms)) ds2 [] tail (i + 1)
          (ms ++ [(2, i)])
          (fun c hc => hdig c (List.mem_cons_of_mem d hc))
          (by simp) htailNotDig (by simp)
          (by rw [List.nil_append, htailNotDot]; simp)
        simp only [List.append_nil, List.nil_append] at hback
        rw [hback, htailNotDot]
        have harith : i + 1 + ds2.length = i + (d :: ds2).length := by
          simp
          omega
        rw [harith]
        simp
  · -- fractional duration
    subst hshape
    cases ds with
    | nil => exact absurd rfl hdsne
    | cons d ds2 =>
        simp only [List.cons_append, List.append_assoc]
        rw [runRE_cat_cons, run_mark, runRE_cat_cons,
          run_one_step digC _ d _ _ _ (hdsdig d (List.mem_cons_self d ds2)),
          runRE_cat_cons]
        show loopG digC _ (ds2 ++ ('.' :: (fs ++ tail))) (i + 1) _ = _
        have hrest : ∀ (i2 : ℕ),
            runRE (cat [.alt (.one (· == '.')) .eps, .starG digC, .mark 3])
              (fun _ _ ms => some ms) ('.' :: (fs ++ tail)) i2 (ms ++ [(2, i)])
            = some (ms ++ [(2, i)] ++ [(3, i2 + 1 + fs.length)]) := by
          intro i2
          rw [runRE_cat_cons, run_alt,
            run_one_step (· == '.') _ '.' _ _ _ (by rfl)]
          have hstar : runRE (cat [.starG digC, .mark 3])
              (fun _ _ ms => some ms) (fs ++ tail) (i2 + 1) (ms ++ [(2, i)])
              = some (ms ++ [(2, i)] ++ [(3, i2 + 1 + fs.length)]) := by
            rw [runRE_cat_cons]
            show loopG digC _ (fs ++ tail) (i2 + 1) _ = _
            have hmark : ∀ (i3 : ℕ),
                runRE (cat [.mark 3]) (fun _ _ ms => some ms) tail i3
                  (ms ++ [(2, i)])
                = some (ms ++ [(2, i)] ++ [(3, i3)]) := by
              intro i3
              rcases htail with h | h <;> rw [h] <;> rfl
            have hback := loopG_back digC
              (runRE (cat [.mark 3]) (fun _ _ ms => some ms)) fs [] tail
              (i2 + 1) (ms ++ [(2, i)]) hfsdig (by simp) htailNotDig
              (by simp)
              (by rw [List.nil_append, hmark]; simp)
            simp only [List.append_nil, List.nil_append] at hback
            rw [hback, hmark]
          rw [hstar]
          rfl
        have hback := loopG_back digC
          (runRE (cat [.alt (.one (· == '.')) .eps, .starG digC, .mark 3])
            (fun _ _ ms => some ms)) ds2 [] ('.' :: (fs ++ tail)) (i + 1)
          (ms ++ [(2, i)])
          (fun c hc => hdsdig c (List.mem_cons_of_mem d hc))
          (by simp)
          (by
            show digC '.' = false
            rfl)
          (by simp)
          (by rw [List.nil_append, hrest]; simp)
        simp only [List.append_nil, List.nil_append] at hback
        rw [hback, hrest]
        have harith : i + 1 + ds2.length + 1 + fs.length
            = i + ((d :: ds2) ++ '.' :: fs).length := by
          simp
          omega
        rw [harith]
        simp

theorem run_lit_q (k : K) (s : List Char) (i : ℕ) (ms : List (ℕ × ℕ)) :
    runRE (lit "\"") k ('"' :: s) i ms = k s (i + 1) ms := by
  show runRE (cat [RE.one (· == '"')]) k ('"' :: s) i ms = k s (i + 1) ms
  rw [runRE_cat_cons, run_one_step _ _ _ _ _ _ (by rfl)]
  rfl

theorem run_lit_q_fail (k : K) (c : Char) (s : List Char) (i : ℕ)
    (ms : List (ℕ × ℕ)) (h : (c == '"') = false) :
    runRE (lit "\"") k (c :: s) i ms = none := by
  show runRE (cat [RE.one (· == '"')]) k (c :: s) i ms = none
  rw [runRE_cat_cons]
  exact run_one_fail (· == '"') (runRE (cat []) k) c s i ms h

theorem run_lbrack (k : K) (s : List Char) (i : ℕ) (ms : List (ℕ × ℕ)) :
    runRE (lit "[") k ('[' :: s) i ms = k s (i + 1) ms := by
  show runRE (cat [RE.one (· == '[')]) k ('[' :: s) i ms = k s (i + 1) ms
  rw [runRE_cat_cons, run_one_step _ _ _ _ _ _ (by rfl)]
  rfl

theorem run_rbrack (k : K) (s : List Char) (i : ℕ) (ms : List (ℕ × ℕ)) :
    runRE (lit "]") k (']' :: s) i ms = k s (i + 1) ms := by
  show runRE (cat [RE.one (· == ']')]) k (']' :: s) i ms = k s (i + 1) ms
  rw [runRE_cat_cons, run_one_step _ _ _ _ _ _ (by rfl)]
  rfl

theorem run_rbrack_fail (k : K) (c : Char) (s : List Char) (i : ℕ)
    (ms : List (ℕ × ℕ)) (h : (c == ']') = false) :
    runRE (lit "]") k (c :: s) i ms = none := by
  show runRE (cat [RE.one (· == ']')]) k (c :: s) i ms = none
  rw [runRE_cat_cons]
  exact run_one_fail (· == ']') (runRE (cat []) k) c s i ms h

theorem run_httplit (k : K) (s : List Char) (i : ℕ) (ms : List (ℕ × ℕ)) :
    runRE (lit "HTTP/") k ('H' :: 'T' :: 'T' :: 'P' :: '/' :: s) i ms
      = k s (i + 5) ms := by
  show runRE (cat (['H', 'T', 'T', 'P', '/'].map
      (fun c => RE.one (· == c)))) k (['H', 'T', 'T', 'P', '/'] ++ s) i ms
    = k s (i + 5) ms
  rw [run_lits]
  rfl

theorem stage_field (restAtoms : List RE) (f next : List Char) (i : ℕ)
    (ms v : List (ℕ × ℕ)) (hfne : f ≠ [])
    (hf : ∀ c ∈ f, wsC c = false ∧ anyC c = true)
    (hnext : runRE (cat (wsPlus :: restAtoms)) (fun _ _ ms => some ms) next
        (i + 1 + f.length) ms = some v) :
    runRE (cat (wsPlus :: .starL anyC :: wsPlus :: restAtoms))
      (fun _ _ ms => some ms) (' ' :: (f ++ next)) i ms = some v := by
  rw [runRE_cat_cons]
  have hhead : headNot wsC (f ++ next) := by
    cases f with
    | nil => exact absurd rfl hfne
    | cons c f2 => exact (hf c (List.mem_cons_self c f2)).1
  rw [run_wsPlus _ _ _ _ hhead, runRE_cat_cons]
  show loopL anyC (runRE (cat (wsPlus :: restAtoms)) (fun _ _ ms => some ms))
      (f ++ next) (i + 1) ms = some v
  rw [loopL_skip anyC _ f next (i + 1) ms
      (fun c hc => (hf c hc).2)
      (fun f1 f2 hsplit hne => by
        cases f2 with
        | nil => exact absurd rfl hne
        | cons c f3 =>
            have hcmem : c ∈ f := by
              rw [hsplit]
              exact List.mem_append_right f1 (List.mem_cons_self c f3)
            rw [runRE_cat_cons]
            exact run_wsPlus_fail _ c _ _ _ (hf c hcmem).1)
      (by rw [hnext]; simp)]
  exact hnext

theorem stage_quoted (restAtoms : List RE) (content next : List Char) (i : ℕ)
    (ms v : List (ℕ × ℕ))
    (hcontent : ∀ c ∈ content, (c == '"') = false ∧ anyC c = true)
    (hnext : runRE (cat restAtoms) (fun _ _ ms => some ms) next
        (i + content.length + 3) ms = some v) :
    runRE (cat (wsPlus :: lit "\"" :: .starL anyC :: lit "\"" :: restAtoms))
      (fun _ _ ms => some ms)
      (' ' :: ('"' :: (content ++ ('"' :: next)))) i ms = some v := by
  rw [runRE_cat_cons, run_wsPlus _ _ _ _ (by exact rfl), runRE_cat_cons,
    run_lit_q, runRE_cat_cons]
  show loopL anyC
      (runRE (cat (lit "\"" :: restAtoms)) (fun _ _ ms => some ms))
      (content ++ ('"' :: next)) (i + 2) ms = some v
  have hstop : runRE (cat (lit "\"" :: restAtoms)) (fun _ _ ms => some ms)
      ('"' :: next) (i + 2 + content.length) ms = some v := by
    rw [runRE_cat_cons, run_lit_q]
    have harith : i + 2 + content.length + 1 = i + content.length + 3 := by
      omega
    rw [harith]
    exact hnext
  rw [loopL_skip anyC _ content ('"' :: next) (i + 2) ms
      (fun c hc => (hcontent c hc).2)
      (fun f1 f2 hsplit hne => by
        cases f2 with
        | nil => exact absurd rfl hne
        | cons c f3 =>
            have hcmem : c ∈ content := by
              rw [hsplit]
              exact List.mem_append_right f1 (List.mem_cons_self c f3)
            rw [runRE_cat_cons]
            exact run_lit_q_fail _ c _ _ _ (hcontent c hcmem).1)
      (by rw [hstop]; simp)]
  exact hstop

theorem stage_method (restAtoms : List RE) (method next : List Char) (i : ℕ)
    (ms v : List (ℕ × ℕ)) (_hmne : method ≠ [])
    (hm : ∀ c ∈ method, wsC c = false ∧ anyC c = true)
    (hnext : runRE (cat (wsPlus :: restAtoms)) (fun _ _ ms => some ms) next
        (i + 2 + method.length) ms = some v) :
    runRE (cat (wsPlus :: lit "\"" :: .starL anyC :: wsPlus :: restAtoms))
      (fun _ _ ms => some ms) (' ' :: ('"' :: (method ++ next))) i ms
      = some v := by
  rw [runRE_cat_cons, run_wsPlus _ _ _ _ (by exact rfl), runRE_cat_cons,
    run_lit_q, runRE_cat_cons]
  show loopL anyC
      (runRE (cat (wsPlus :: restAtoms)) (fun _ _ ms => some ms))
      (method ++ next) (i + 2) ms = some v
  have harith : i + 2 + method.length = i + 2 + method.length := rfl
  rw [loopL_skip anyC _ method next (i + 2) ms
      (fun c hc => (hm c hc).2)
      (fun f1 f2 hsplit hne => by
        cases f2 with
        | nil => exact absurd rfl hne
        | cons c f3 =>
            have hcmem : c ∈ method := by
              rw [hsplit]
              exact List.mem_append_right f1 (List.mem_cons_self c f3)
            rw [runRE_cat_cons]
            exact run_wsPlus_fail _ c _ _ _ (hm c hcmem).1)
      (by
        have h2 : i + 2 + method.length = i + 2 + method.length := rfl
        rw [hnext]
        simp)]
  exact hnext

theorem stage_time (restAtoms : List RE) (ts next : List Char) (i : ℕ)
    (ms v : List (ℕ × ℕ))
    (hts : ∀ c ∈ ts, (c == ']') = false ∧ anyC c = true)
    (hnext : runRE (cat restAtoms) (fun _ _ ms => some ms) next
        (i + ts.length + 3) ms = some v) :
    runRE (cat (wsPlus :: lit "[" :: .starL anyC :: lit "]" :: restAtoms))
      (fun _ _ ms => some ms) (' ' :: ('[' :: (ts ++ (']' :: next)))) i ms
      = some v := by
  rw [runRE_cat_cons, run_wsPlus _ _ _ _ (by exact rfl), runRE_cat_cons,
    run_lbrack, runRE_cat_cons]
  show loopL anyC
      (runRE (cat (lit "]" :: restAtoms)) (fun _ _ ms => some ms))
      (ts ++ (']' :: next)) (i + 2) ms = some v
  have hstop : runRE (cat (lit "]" :: restAtoms)) (fun _ _ ms => some ms)
      (']' :: next) (i + 2 + ts.length) ms = some v := by
    rw [runRE_cat_cons, run_rbrack]
    have harith : i + 2 + ts.length + 1 = i + ts.length + 3 := by omega
    rw [harith]
    exact hnext
  rw [loopL_skip anyC _ ts (']' :: next) (i + 2) ms
      (fun c hc => (hts c hc).2)
      (fun f1 f2 hsplit hne => by
        cases f2 with
        | nil => exact absurd rfl hne
        | cons c f3 =>
            have hcmem : c ∈ ts := by
              rw [hsplit]
              exact List.mem_append_right f1 (List.mem_cons_self c f3)
            rw [runRE_cat_cons]
            exact run_rbrack_fail _ c _ _ _ (hts c hcmem).1)
      (by rw [hstop]; simp)]
  exact hstop

theorem stage_rb (restAtoms : List RE) (rbu mid tailNL : List Char) (i : ℕ)
    (ms v : List (ℕ × ℕ))
    (hrbu : ∀ c ∈ rbu, (c == '"') = false ∧ anyC c = true)
    (hmid : ∀ c ∈ mid, (c == '"') = false ∧ anyC c = true)
    (htail : tailNL = [] ∨ tailNL = ['\n'])
    (hkf : KFails 1 (runRE (cat (lit "\"" :: restAtoms)) (fun _ _ ms => some ms)))
    (hnext : runRE (cat restAtoms) (fun _ _ ms => some ms) (mid ++ tailNL)
        (i + rbu.length + 3) ms = some v) :
    runRE (cat (wsPlus :: lit "\"" :: .starG anyC :: lit "\"" :: restAtoms))
      (fun _ _ ms => some ms)
      (' ' :: ('"' :: (rbu ++ ('"' :: (mid ++ tailNL))))) i ms = some v := by
  rw [runRE_cat_cons, run_wsPlus _ _ _ _ (by exact rfl), runRE_cat_cons,
    run_lit_q, runRE_cat_cons]
  show loopG anyC
      (runRE (cat (lit "\"" :: restAtoms)) (fun _ _ ms => some ms))
      (rbu ++ ('"' :: (mid ++ tailNL))) (i + 2) ms = some v
  have htailNL : headNot anyC tailNL := by
    rcases htail with h | h <;> rw [h]
    · trivial
    · show anyC '\n' = false
      rfl
  have hquotes_mid : quotes mid = 0 :=
    quotes_eq_zero mid (fun c hc => (hmid c hc).1)
  have hquotes_tail : quotes tailNL = 0 := by
    rcases htail with h | h <;> rw [h] <;> rfl
  have hstop : runRE (cat (lit "\"" :: restAtoms)) (fun _ _ ms => some ms)
      (('"' :: mid) ++ tailNL) (i + 2 + rbu.length) ms = some v := by
    rw [List.cons_append, runRE_cat_cons, run_lit_q]
    have harith : i + 2 + rbu.length + 1 = i + rbu.length + 3 := by omega
    rw [harith]
    exact hnext
  have hback := loopG_back anyC
    (runRE (cat (lit "\"" :: restAtoms)) (fun _ _ ms => some ms)) rbu
    ('"' :: mid) tailNL (i + 2) ms
    (fun c hc => (hrbu c hc).2)
    (fun c hc => by
      rcases List.mem_cons.mp hc with h1 | h2
      · rw [h1]; rfl
      · exact (hmid c h2).2)
    htailNL
    (fun f1 f2 hsplit hne => by
      refine hkf (f2 ++ tailNL) _ ms ?_
      cases f1 with
      | nil => exact absurd rfl hne
      | cons c f1t =>
          have hmid_split : mid = f1t ++ f2 := by
            have := hsplit
            rw [List.cons_append] at this
            exact List.cons.inj this |>.2
          rw [quotes_append]
          have h2 : quotes f2 ≤ quotes mid := by
            rw [hmid_split, quotes_append]
            omega
          omega)
    (by rw [hstop]; simp)
  rw [show rbu ++ ('"' :: (mid ++ tailNL)) = rbu ++ ('"' :: mid) ++ tailNL by
    simp]
  rw [hback, hstop]

theorem stage_ver (restAtoms : List RE) (ver M tailNL : List Char) (i : ℕ)
    (ms v : List (ℕ × ℕ))
    (hver : ver = [] ∨ ∃ vt, ver = ' ' :: 'H' :: 'T' :: 'T' :: 'P' :: '/' :: vt ∧
      ∀ c ∈ vt, anyC c = true)
    (hM : quotes M ≤ 10) (hMany : ∀ c ∈ M, anyC c = true)
    (htail : tailNL = [] ∨ tailNL = ['\n'])
    (hkf : KFails 11 (runRE (cat (lit "\"" :: restAtoms)) (fun _ _ ms => some ms)))
    (hnext : runRE (cat (lit "\"" :: restAtoms)) (fun _ _ ms => some ms)
        ('"' :: (M ++ tailNL)) (i + ver.length) ms = some v) :
    runRE (cat (.alt (cat [wsPlus, lit "HTTP/", .starG anyC]) .eps
        :: lit "\"" :: restAtoms)) (fun _ _ ms => some ms)
      (ver ++ ('"' :: (M ++ tailNL))) i ms = some v := by
  have htailNL : headNot anyC tailNL := by
    rcases htail with h | h <;> rw [h]
    · trivial
    · show anyC '\n' = false
      rfl
  have hquotes_tail : quotes tailNL = 0 := by
    rcases htail with h | h <;> rw [h] <;> rfl
  rcases hver with hv0 | ⟨vt, hv1, hvtany⟩
  · subst hv0
    simp only [List.nil_append, List.length_nil, Nat.add_zero] at hnext ⊢
    rw [runRE_cat_cons, run_alt]
    have hb1 : runRE (cat [wsPlus, lit "HTTP/", .starG anyC])
        (runRE (cat (lit "\"" :: restAtoms)) (fun _ _ ms => some ms))
        ('"' :: (M ++ tailNL)) i ms = none := by
      rw [runRE_cat_cons]
      exact run_wsPlus_fail _ '"' _ _ _ (by rfl)
    rw [hb1]
    show (none <|> runRE RE.eps _ _ _ _) = some v
    simp only [Option.none_orElse]
    exact hnext
  · subst hv1
    rw [runRE_cat_cons, run_alt]
    have hb1 : runRE (cat [wsPlus, lit "HTTP/", .starG anyC])
        (runRE (cat (lit "\"" :: restAtoms)) (fun _ _ ms => some ms))
        ((' ' :: 'H' :: 'T' :: 'T' :: 'P' :: '/' :: vt)
          ++ ('"' :: (M ++ tailNL))) i ms = some v := by
      simp only [List.cons_append]
      rw [runRE_cat_cons, run_wsPlus _ _ _ _ (by exact rfl), runRE_cat_cons,
        run_httplit, runRE_cat_cons]
      show loopG anyC
          (runRE (cat (lit "\"" :: restAtoms)) (fun _ _ ms => some ms))
          (vt ++ ('"' :: (M ++ tailNL))) (i + 1 + 5) ms = some v
      have hstop : runRE (cat (lit "\"" :: restAtoms)) (fun _ _ ms => some ms)
          (('"' :: M) ++ tailNL) (i + 1 + 5 + vt.length) ms = some v := by
        have harith : i + 1 + 5 + vt.length
            = i + (' ' :: 'H' :: 'T' :: 'T' :: 'P' :: '/' :: vt).length := by
          simp
          omega
        rw [harith, List.cons_append]
        exact hnext
      have hback := loopG_back anyC
        (runRE (cat (lit "\"" :: restAtoms)) (fun _ _ ms => some ms)) vt
        ('"' :: M) tailNL (i + 1 + 5) ms hvtany
        (fun c hc => by
          rcases List.mem_cons.mp hc with h1 | h2
          · rw [h1]; rfl
          · exact hMany c h2)
        htailNL
        (fun f1 f2 hsplit hne => by
          refine hkf (f2 ++ tailNL) _ ms ?_
          cases f1 with
          | nil => exact absurd rfl hne
          | cons c f1t =>
              have hM_split : M = f1t ++ f2 := by
                have := hsplit
                rw [List.cons_append] at this
                exact List.cons.inj this |>.2
              rw [quotes_append]
              have h2 : quotes f2 ≤ quotes M := by
                rw [hM_split, quotes_append]
                omega
              omega)
        (by rw [hstop]; simp)
      rw [show vt ++ ('"' :: (M ++ tailNL)) = vt ++ ('"' :: M) ++ tailNL by
        simp]
      rw [hback, hstop]
    rw [hb1]
    rfl

theorem stage_path (restAtoms : List RE) (path after : List Char) (i : ℕ)
    (ms v : List (ℕ × ℕ))
    (hpath : ∀ c ∈ path, wsC c = false ∧ (c == '"') = false ∧ anyC c = true)
    (hpathne : path ≠ [])
    (hnext : runRE (cat (.mark 1
        :: .alt (cat [wsPlus, lit "HTTP/", .starG anyC]) .eps
        :: lit "\"" :: restAtoms)) (fun _ _ ms => some ms) after
        (i + 1 + path.length) (ms ++ [(0, i + 1)]) = some v) :
    runRE (cat (wsPlus :: .mark 0 :: .starL anyC :: .mark 1
        :: .alt (cat [wsPlus, lit "HTTP/", .starG anyC]) .eps
        :: lit "\"" :: restAtoms)) (fun _ _ ms => some ms)
      (' ' :: (path ++ after)) i ms = some v := by
  rw [runRE_cat_cons]
  have hhead : headNot wsC (path ++ after) := by
    cases path with
    | nil => exact absurd rfl hpathne
    | cons c p2 => exact (hpath c (List.mem_cons_self c p2)).1
  rw [run_wsPlus _ _ _ _ hhead, runRE_cat_cons, run_mark, runRE_cat_cons]
  show loopL anyC (runRE (cat (.mark 1
      :: .alt (cat [wsPlus, lit "HTTP/", .starG anyC]) .eps
      :: lit "\"" :: restAtoms)) (fun _ _ ms => some ms))
    (path ++ after) (i + 1) (ms ++ [(0, i + 1)]) = some v
  rw [loopL_skip anyC _ path after (i + 1) (ms ++ [(0, i + 1)])
      (fun c hc => (hpath c hc).2.2)
      (fun f1 f2 hsplit hne => by
        cases f2 with
        | nil => exact absurd rfl hne
        | cons c f3 =>
            have hcmem : c ∈ path := by
              rw [hsplit]
              exact List.mem_append_right f1 (List.mem_cons_self c f3)
            rw [runRE_cat_cons, run_mark, runRE_cat_cons, run_alt]
            have hb1 : ∀ (p2 : ℕ) (ms2 : List (ℕ × ℕ)),
                runRE (cat [wsPlus, lit "HTTP/", .starG anyC])
                  (runRE (cat (lit "\"" :: restAtoms)) (fun _ _ ms => some ms))
                  ((c :: f3) ++ after) p2 ms2 = none := by
              intro p2 ms2
              rw [List.cons_append, runRE_cat_cons]
              exact run_wsPlus_fail _ c _ _ _ (hpath c hcmem).1
            have hb2 : ∀ (p2 : ℕ) (ms2 : List (ℕ × ℕ)),
                runRE (cat (lit "\"" :: restAtoms)) (fun _ _ ms => some ms)
                  ((c :: f3) ++ after) p2 ms2 = none := by
              intro p2 ms2
              rw [List.cons_append, runRE_cat_cons]
              exact run_lit_q_fail _ c _ _ _ (hpath c hcmem).2.1
            rw [hb1]
            show (none <|> runRE RE.eps _ _ _ _) = none
            simp only [Option.none_orElse]
            exact hb2 _ _)
      (by rw [hnext]; simp)]
  exact hnext

theorem orElse_of_ne_none {α : Type} (a : Option α) (b : Option α)
    (h : a ≠ none) : (a <|> b) = a := by
  cases a with
  | none => exact absurd rfl h
  | some v => rfl

theorem run_dot (k : K) (s : List Char) (i : ℕ) (ms : List (ℕ × ℕ)) :
    runRE (lit ".") k ('.' :: s) i ms = k s (i + 1) ms := by
  show runRE (cat [RE.one (· == '.')]) k ('.' :: s) i ms = k s (i + 1) ms
  rw [runRE_cat_cons, run_one_step _ _ _ _ _ _ (by rfl)]
  rfl

theorem run_one_headNot (p : Char → Bool) (k : K) (s : List Char) (i : ℕ)
    (ms : List (ℕ × ℕ)) (h : headNot p s) :
    runRE (.one p) k s i ms = none := by
  cases s with
  | nil => rfl
  | cons c s2 => exact run_one_fail p k c s2 i ms h

theorem run_dig13 (k : K) (oct rest : List Char) (i : ℕ) (ms : List (ℕ × ℕ))
    (hdig : ∀ c ∈ oct, digC c = true)
    (hlen : 1 ≤ oct.length ∧ oct.length ≤ 3)
    (hrest : headNot digC rest)
    (hk : k rest (i + oct.length) ms ≠ none) :
    runRE dig13 k (oct ++ rest) i ms = k rest (i + oct.length) ms := by
  obtain ⟨h1, h3⟩ := hlen
  show runRE (.seq (.one digC) (.alt (.seq (.one digC)
      (.alt (.one digC) .eps)) .eps)) k (oct ++ rest) i ms = _
  match oct with
  | [a] =>
      rw [List.cons_append, List.nil_append]
      rw [show runRE (.seq (.one digC) (.alt (.seq (.one digC)
          (.alt (.one digC) .eps)) .eps)) k
        = runRE (.one digC) (runRE (.alt (.seq (.one digC)
            (.alt (.one digC) .eps)) .eps) k) from rfl]
      rw [run_one_step _ _ _ _ _ _ (hdig a (by simp)), run_alt]
      rw [show runRE (.seq (.one digC) (.alt (.one digC) .eps)) k
        = runRE (.one digC) (runRE (.alt (.one digC) .eps) k) from rfl]
      rw [run_one_headNot _ _ _ _ _ hrest]
      simp only [Option.none_orElse]
      exact rfl
  | [a, b] =>
      simp only [List.cons_append, List.nil_append]
      rw [show runRE (.seq (.one digC) (.alt (.seq (.one digC)
          (.alt (.one digC) .eps)) .eps)) k
        = runRE (.one digC) (runRE (.alt (.seq (.one digC)
            (.alt (.one digC) .eps)) .eps) k) from rfl]
      rw [run_one_step _ _ _ _ _ _ (hdig a (by simp)), run_alt]
      rw [show runRE (.seq (.one digC) (.alt (.one digC) .eps)) k
        = runRE (.one digC) (runRE (.alt (.one digC) .eps) k) from rfl]
      rw [run_one_step _ _ _ _ _ _ (hdig b (by simp)), run_alt]
      rw [run_one_headNot _ _ _ _ _ hrest]
      simp only [Option.none_orElse]
      rw [show runRE RE.eps k rest (i + 1 + 1) ms = k rest (i + 1 + 1) ms
        from rfl]
      rw [show i + 1 + 1 = i + [a, b].length from by simp]
      rw [orElse_of_ne_none _ _ hk]
  | [a, b, c] =>
      simp only [List.cons_append, List.nil_append]
      rw [show runRE (.seq (.one digC) (.alt (.seq (.one digC)
          (.alt (.one digC) .eps)) .eps)) k
        = runRE (.one digC) (runRE (.alt (.seq (.one digC)
            (.alt (.one digC) .eps)) .eps) k) from rfl]
      rw [run_one_step _ _ _ _ _ _ (hdig a (by simp)), run_alt]
      rw [show runRE (.seq (.one digC) (.alt (.one digC) .eps)) k
        = runRE (.one digC) (runRE (.alt (.one digC) .eps) k) from rfl]
      rw [run_one_step _ _ _ _ _ _ (hdig b (by simp)), run_alt]
      rw [run_one_step _ _ _ _ _ _ (hdig c (by simp))]
      rw [show i + 1 + 1 + 1 = i + [a, b, c].length from by simp]
      rw [orElse_of_ne_none _ _ hk]
      rw [orElse_of_ne_none _ _ hk]

theorem kfails_durA :
    KFails 0 (runRE (cat [.mark 2, .one digC, .starG digC,
      .alt (.one (· == '.')) .eps, .starG digC, .mark 3])
      (fun _ _ ms => some ms)) := by
  have h0 : KFails 0 (runRE (cat ([] : List RE)) (fun _ _ ms => some ms)) :=
    kfails_zero_k0
  have h1 : KFails 0 (runRE (cat [RE.mark 3]) (fun _ _ ms => some ms)) :=
    kfails_mark 3 _ 0 h0
  have h2 : KFails 0 (runRE (cat [RE.starG digC, .mark 3])
      (fun _ _ ms => some ms)) := kfails_starG digC _ 0 h1
  have h3 : KFails 0 (runRE (cat [RE.alt (.one (· == '.')) .eps,
      .starG digC, .mark 3]) (fun _ _ ms => some ms)) :=
    kfails_alt _ _ _ 0 (kfails_one _ _ 0 h2) (kfails_eps _ 0 h2)
  have h4 : KFails 0 (runRE (cat [RE.starG digC,
      .alt (.one (· == '.')) .eps, .starG digC, .mark 3])
      (fun _ _ ms => some ms)) := kfails_starG digC _ 0 h3
  have h5 : KFails 0 (runRE (cat [RE.one digC, .starG digC,
      .alt (.one (· == '.')) .eps, .starG digC, .mark 3])
      (fun _ _ ms => some ms)) := kfails_one digC _ 0 h4
  exact kfails_mark 2 _ 0 h5

theorem kfails_qlit (k : K) (m : ℕ) (h : KFails m k) :
    KFails (m + 1) (runRE (lit "\"") k) := by
  have h2 := kfails_lit "\"" k m h
  have h3 : quotes "\"".toList = 1 := rfl
  rw [h3] at h2
  exact h2

theorem kfails_rbA :
    KFails 1 (runRE (cat (lit "\"" :: wsPlus :: [RE.mark 2, .one digC,
      .starG digC, .alt (.one (· == '.')) .eps, .starG digC, .mark 3]))
      (fun _ _ ms => some ms)) := by
  have h6 : KFails 0 (runRE (cat (wsPlus :: [RE.mark 2, .one digC,
      .starG digC, .alt (.one (· == '.')) .eps, .starG digC, .mark 3]))
      (fun _ _ ms => some ms)) := kfails_wsPlus _ 0 kfails_durA
  exact kfails_qlit _ 0 h6

theorem kfails_closeA :
    KFails 11 (runRE (cat (lit "\"" :: wsPlus :: .starL anyC :: wsPlus
        :: .starL anyC :: wsPlus :: lit "\"" :: .starL anyC :: lit "\""
        :: wsPlus :: lit "\"" :: .starL anyC :: lit "\"" :: wsPlus
        :: lit "\"" :: .starL anyC :: lit "\"" :: wsPlus :: lit "\""
        :: .starL anyC :: lit "\"" :: wsPlus :: lit "\"" :: .starG anyC
        :: lit "\"" :: wsPlus :: [RE.mark 2, .one digC, .starG digC,
          .alt (.one (· == '.')) .eps, .starG digC, .mark 3]))
      (fun _ _ ms => some ms)) := by
  have d0 : KFails 0 (runRE (cat (wsPlus :: [RE.mark 2, .one digC,
      .starG digC, .alt (.one (· == '.')) .eps, .starG digC, .mark 3]))
      (fun _ _ ms => some ms)) := kfails_wsPlus _ 0 kfails_durA
  have d1 := kfails_qlit _ 0 d0
  have d2 := kfails_starG anyC _ 1 d1
  have d3 := kfails_qlit _ 1 d2
  have d4 := kfails_wsPlus _ 2 d3
  have d5 := kfails_qlit _ 2 d4
  have d6 := kfails_starL anyC _ 3 d5
  have d7 := kfails_qlit _ 3 d6
  have d8 := kfails_wsPlus _ 4 d7
  have d9 := kfails_qlit _ 4 d8
  have d10 := kfails_starL anyC _ 5 d9
  have d11 := kfails_qlit _ 5 d10
  have d12 := kfails_wsPlus _ 6 d11
  have d13 := kfails_qlit _ 6 d12
  have d14 := kfails_starL anyC _ 7 d13
  have d15 := kfails_qlit _ 7 d14
  have d16 := kfails_wsPlus _ 8 d15
  have d17 := kfails_qlit _ 8 d16
  have d18 := kfails_starL anyC _ 9 d17
  have d19 := kfails_qlit _ 9 d18
  have d20 := kfails_wsPlus _ 10 d19
  have d21 := kfails_starL anyC _ 10 d20
  have d22 := kfails_wsPlus _ 10 d21
  have d23 := kfails_starL anyC _ 10 d22
  have d24 := kfails_wsPlus _ 10 d23
  exact kfails_qlit _ 10 d24

theorem nginxRE_atoms :
    nginxRE = cat (dig13 :: lit "." :: dig13 :: lit "." :: dig13 :: lit "."
      :: dig13 :: ruAtoms) := rfl

theorem markPos_c0 (a b c d : ℕ) :
    markPos [(0, a), (1, b), (2, c), (3, d)] 0 = a := rfl

theorem markPos_c1 (a b c d : ℕ) :
    markPos [(0, a), (1, b), (2, c), (3, d)] 1 = b := rfl

theorem markPos_c2 (a b c d : ℕ) :
    markPos [(0, a), (1, b), (2, c), (3, d)] 2 = c := rfl

theorem markPos_c3 (a b c d : ℕ) :
    markPos [(0, a), (1, b), (2, c), (3, d)] 3 = d := rfl

theorem sliceChars_pre_mid (pre mid post : List Char) (a b : ℕ)
    (ha : a = pre.length) (hb : b = pre.length + mid.length) :
    sliceChars (pre ++ (mid ++ post)) a b = mid := by
  subst ha
  subst hb
  simp only [sliceChars]
  rw [List.drop_left, Nat.add_sub_cancel_left, List.take_left]

theorem process_line_of_run (line : String) (L : List (ℕ × ℕ))
    (h : runRE nginxRE (fun _ _ ms => some ms) line.toList 0 [] = some L) :
    process_line line
      = some (⟨sliceChars line.toList (markPos L 0) (markPos L 1)⟩,
          parseNum (sliceChars line.toList (markPos L 2) (markPos L 3))) := by
  simp only [process_line, h]

theorem ipPart_inv (cs r : List Char) (h : ipPart cs = some r) :
    ∃ o1 o2 o3 o4,
      cs = o1 ++ ('.' :: (o2 ++ ('.' :: (o3 ++ ('.' :: (o4 ++ r)))))) ∧
      ((∀ c ∈ o1, Char.isDigit c = true) ∧ 1 ≤ o1.length ∧ o1.length ≤ 3) ∧
      ((∀ c ∈ o2, Char.isDigit c = true) ∧ 1 ≤ o2.length ∧ o2.length ≤ 3) ∧
      ((∀ c ∈ o3, Char.isDigit c = true) ∧ 1 ≤ o3.length ∧ o3.length ≤ 3) ∧
      ((∀ c ∈ o4, Char.isDigit c = true) ∧ 1 ≤ o4.length ∧ o4.length ≤ 3) := by
  simp only [ipPart] at h
  rw [Option.bind_eq_some] at h
  obtain ⟨s7, h, h8⟩ := h
  rw [Option.bind_eq_some] at h
  obtain ⟨s6, h, h7⟩ := h
  rw [Option.bind_eq_some] at h
  obtain ⟨s5, h, h6⟩ := h
  rw [Option.bind_eq_some] at h
  obtain ⟨s4, h, h5⟩ := h
  rw [Option.bind_eq_some] at h
  obtain ⟨s3, h, h4⟩ := h
  rw [Option.bind_eq_some] at h
  obtain ⟨s2, h1, h2⟩ := h
  obtain ⟨o1, ho1eq, ho1d, ho1a, ho1b, _⟩ := octet_inv _ _ h1
  have hd1 := chomp_inv _ _ _ h2
  obtain ⟨o2, ho2eq, ho2d, ho2a, ho2b, _⟩ := octet_inv _ _ h4
  have hd2 := chomp_inv _ _ _ h5
  obtain ⟨o3, ho3eq, ho3d, ho3a, ho3b, _⟩ := octet_inv _ _ h6
  have hd3 := chomp_inv _ _ _ h7
  obtain ⟨o4, ho4eq, ho4d, ho4a, ho4b, _⟩ := octet_inv _ _ h8
  refine ⟨o1, o2, o3, o4, ?_, ⟨ho1d, ho1a, ho1b⟩, ⟨ho2d, ho2a, ho2b⟩,
    ⟨ho3d, ho3a, ho3b⟩, ⟨ho4d, ho4a, ho4b⟩⟩
  rw [ho1eq, hd1, ho2eq, hd2, ho3eq, hd3, ho4eq]

theorem validLineSpec_decomp (line : String) (hval : validLineSpec line = true) :
    ∃ o1 o2 o3 o4 ru xip ts method path ver status bytes ref ua xff rid rbu
      dur tailNL,
      line.toList = inLine o1 o2 o3 o4 ru xip ts method path ver status bytes
        ref ua xff rid rbu dur tailNL ∧
      ((∀ c ∈ o1, Char.isDigit c = true) ∧ 1 ≤ o1.length ∧ o1.length ≤ 3) ∧
      ((∀ c ∈ o2, Char.isDigit c = true) ∧ 1 ≤ o2.length ∧ o2.length ≤ 3) ∧
      ((∀ c ∈ o3, Char.isDigit c = true) ∧ 1 ≤ o3.length ∧ o3.length ≤ 3) ∧
      ((∀ c ∈ o4, Char.isDigit c = true) ∧ 1 ≤ o4.length ∧ o4.length ≤ 3) ∧
      (ru ≠ [] ∧ ∀ c ∈ ru, (!(wsC c) && !(c == '"')) = true) ∧
      (xip ≠ [] ∧ ∀ c ∈ xip, (!(wsC c) && !(c == '"')) = true) ∧
      (∀ c ∈ ts, (!(c == ']') && !(c == '\n')) = true) ∧
      (method ≠ [] ∧ ∀ c ∈ method, (!(wsC c) && !(c == '"')) = true) ∧
      (path ≠ [] ∧ ∀ c ∈ path, (!(wsC c) && !(c == '"')) = true) ∧
      (ver = [] ∨ ∃ vt, ver = ' ' :: 'H' :: 'T' :: 'T' :: 'P' :: '/' :: vt ∧
        ∀ c ∈ vt, (!(c == '"') && !(c == '\n')) = true) ∧
      (status ≠ [] ∧ ∀ c ∈ status, (!(wsC c) && !(c == '"')) = true) ∧
      (bytes ≠ [] ∧ ∀ c ∈ bytes, (!(wsC c) && !(c == '"')) = true) ∧
      (∀ c ∈ ref, (!(c == '"') && !(c == '\n')) = true) ∧
      (∀ c ∈ ua, (!(c == '"') && !(c == '\n')) = true) ∧
      (∀ c ∈ xff, (!(c == '"') && !(c == '\n')) = true) ∧
      (∀ c ∈ rid, (!(c == '"') && !(c == '\n')) = true) ∧
      (∀ c ∈ rbu, (!(c == '"') && !(c == '\n')) = true) ∧
      ((dur ≠ [] ∧ ∀ c ∈ dur, Char.isDigit c = true) ∨
        (∃ ds fs, dur = ds ++ '.' :: fs ∧ ds ≠ [] ∧ fs ≠ [] ∧
          (∀ c ∈ ds, Char.isDigit c = true) ∧
          (∀ c ∈ fs, Char.isDigit c = true))) ∧
      (tailNL = [] ∨ tailNL = ['\n']) := by
  simp only [validLineSpec] at hval
  rw [Option.isSome_iff_exists] at hval
  obtain ⟨r, h⟩ := hval
  rw [Option.bind_eq_some] at h
  obtain ⟨t24, h, hdur⟩ := h
  rw [Option.bind_eq_some] at h
  obtain ⟨t23, h, hc23⟩ := h
  rw [Option.bind_eq_some] at h
  obtain ⟨t22, h, hrbu⟩ := h
  rw [Option.bind_eq_some] at h
  obtain ⟨t21, h, hc21⟩ := h
  rw [Option.bind_eq_some] at h
  obtain ⟨t20, h, hrid⟩ := h
  rw [Option.bind_eq_some] at h
  obtain ⟨t19, h, hc19⟩ := h
  rw [Option.bind_eq_some] at h
  obtain ⟨t18, h, hxff⟩ := h
  rw [Option.bind_eq_some] at h
  obtain ⟨t17, h, hc17⟩ := h
  rw [Option.bind_eq_some] at h
  obtain ⟨t16, h, hua⟩ := h
  rw [Option.bind_eq_some] at h
  obtain ⟨t15, h, hc15⟩ := h
  rw [Option.bind_eq_some] at h
  obtain ⟨t14, h, href⟩ := h
  rw [Option.bind_eq_some] at h
  obtain ⟨t13, h, hc13⟩ := h
  rw [Option.bind_eq_some] at h
  obtain ⟨t12, h, hbytes⟩ := h
  rw [Option.bind_eq_some] at h
  obtain ⟨t11, h, hc11⟩ := h
  rw [Option.bind_eq_some] at h
  obtain ⟨t10, h, hstatus⟩ := h
  rw [Option.bind_eq_some] at h
  obtain ⟨t9, h, hc9⟩ := h
  rw [Option.bind_eq_some] at h
  obtain ⟨t8, h, hreq⟩ := h
  rw [Option.bind_eq_some] at h
  obtain ⟨t7, h, hc7⟩ := h
  rw [Option.bind_eq_some] at h
  obtain ⟨t6, h, htime⟩ := h
  rw [Option.bind_eq_some] at h
  obtain ⟨t5, h, hc5⟩ := h
  rw [Option.bind_eq_some] at h
  obtain ⟨t4, h, hxip⟩ := h
  rw [Option.bind_eq_some] at h
  obtain ⟨t3, h, hc3⟩ := h
  rw [Option.bind_eq_some] at h
  obtain ⟨t2, h, hru⟩ := h
  rw [Option.bind_eq_some] at h
  obtain ⟨t1, hip, hc1⟩ := h
  obtain ⟨o1, o2, o3, o4, hipeq, hq1, hq2, hq3, hq4⟩ := ipPart_inv _ _ hip
  have he1 := chomp_inv _ _ _ hc1
  obtain ⟨ru, hrueq, hrune, hruchars, _⟩ := fieldTok_inv _ _ hru
  have he3 := chomp_inv _ _ _ hc3
  obtain ⟨xip, hxipeq, hxipne, hxipchars, _⟩ := fieldTok_inv _ _ hxip
  have he5 := chomp_inv _ _ _ hc5
  obtain ⟨ts, htseq, htsne, htschars⟩ := timePart_inv _ _ htime
  have he7 := chomp_inv _ _ _ hc7
  obtain ⟨method, path, rest1, hreqeq, hmne, hmchars, hpne, hpchars,
    hrest1⟩ := requestPart_inv _ _ hreq
  have he9 := chomp_inv _ _ _ hc9
  obtain ⟨status, hsteq, hstne, hstchars, _⟩ := fieldTok_inv _ _ hstatus
  have he11 := chomp_inv _ _ _ hc11
  obtain ⟨bytes, hbyeq, hbyne, hbychars, _⟩ := fieldTok_inv _ _ hbytes
  have he13 := chomp_inv _ _ _ hc13
  obtain ⟨ref, hrefeq, hrefchars⟩ := quoted_inv _ _ href
  have he15 := chomp_inv _ _ _ hc15
  obtain ⟨ua, huaeq, huachars⟩ := quoted_inv _ _ hua
  have he17 := chomp_inv _ _ _ hc17
  obtain ⟨xff, hxffeq, hxffchars⟩ := quoted_inv _ _ hxff
  have he19 := chomp_inv _ _ _ hc19
  obtain ⟨rid, hrideq, hridchars⟩ := quoted_inv _ _ hrid
  have he21 := chomp_inv _ _ _ hc21
  obtain ⟨rbu, hrbueq, hrbuchars⟩ := quoted_inv _ _ hrbu
  have he23 := chomp_inv _ _ _ hc23
  obtain ⟨dur, tailNL, hdureq, htail, hdurshape⟩ := durationPart_inv _ _ hdur
  obtain ⟨ver, hverdis, hrest1eq⟩ : ∃ ver,
      (ver = [] ∨ ∃ vt, ver = ' ' :: 'H' :: 'T' :: 'T' :: 'P' :: '/' :: vt ∧
        ∀ c ∈ vt, (!(c == '"') && !(c == '\n')) = true) ∧
      rest1 = ver ++ '"' :: t9 := by
    rcases hrest1 with h1 | ⟨v, h1, _hvne, hvch⟩
    · exact ⟨[], Or.inl rfl, h1⟩
    · exact ⟨' ' :: 'H' :: 'T' :: 'T' :: 'P' :: '/' :: v,
        Or.inr ⟨v, rfl, hvch⟩, h1⟩
  refine ⟨o1, o2, o3, o4, ru, xip, ts, method, path, ver, status, bytes, ref,
    ua, xff, rid, rbu, dur, tailNL, ?_, hq1, hq2, hq3, hq4, ⟨hrune, hruchars⟩,
    ⟨hxipne, hxipchars⟩, htschars, ⟨hmne, hmchars⟩, ⟨hpne, hpchars⟩, hverdis,
    ⟨hstne, hstchars⟩, ⟨hbyne, hbychars⟩, hrefchars, huachars, hxffchars,
    hridchars, hrbuchars, hdurshape, htail⟩
  rw [hipeq, he1, hrueq, he3, hxipeq, he5, htseq, he7, hreqeq, hrest1eq, he9,
    hsteq, he11, hbyeq, he13, hrefeq, he15, huaeq, he17, hxffeq, he19, hrideq,
    he21, hrbueq, he23, hdureq]
  simp [inLine, inRu, inXip, inTime, inMethod, inPath, inStatus, inBytes,
    inRef, inUa, inXff, inRid, inRb, inDur, List.append_assoc]

theorem anyC_cons (c : Char) (s : List Char) (hc : anyC c = true)
    (hs : ∀ x ∈ s, anyC x = true) : ∀ x ∈ c :: s, anyC x = true := by
  intro x hx
  rcases List.mem_cons.mp hx with rfl | h
  · exact hc
  · exact hs x h

theorem anyC_append (s t : List Char) (hs : ∀ x ∈ s, anyC x = true)
    (ht : ∀ x ∈ t, anyC x = true) : ∀ x ∈ s ++ t, anyC x = true := by
  intro x hx
  rcases List.mem_append.mp hx with h | h
  · exact hs x h
  · exact ht x h

theorem nginx_match_shape
    (o1 o2 o3 o4 ru xip ts method path ver status bytes ref ua xff rid rbu
      dur tailNL : List Char)
    (hq1 : (∀ c ∈ o1, Char.isDigit c = true) ∧ 1 ≤ o1.length ∧ o1.length ≤ 3)
    (hq2 : (∀ c ∈ o2, Char.isDigit c = true) ∧ 1 ≤ o2.length ∧ o2.length ≤ 3)
    (hq3 : (∀ c ∈ o3, Char.isDigit c = true) ∧ 1 ≤ o3.length ∧ o3.length ≤ 3)
    (hq4 : (∀ c ∈ o4, Char.isDigit c = true) ∧ 1 ≤ o4.length ∧ o4.length ≤ 3)
    (hru : ru ≠ [] ∧ ∀ c ∈ ru, (!(wsC c) && !(c == '"')) = true)
    (hxip : xip ≠ [] ∧ ∀ c ∈ xip, (!(wsC c) && !(c == '"')) = true)
    (hts : ∀ c ∈ ts, (!(c == ']') && !(c == '\n')) = true)
    (hmet : method ≠ [] ∧ ∀ c ∈ method, (!(wsC c) && !(c == '"')) = true)
    (hpa : path ≠ [] ∧ ∀ c ∈ path, (!(wsC c) && !(c == '"')) = true)
    (hver : ver = [] ∨ ∃ vt, ver = ' ' :: 'H' :: 'T' :: 'T' :: 'P' :: '/' :: vt ∧
      ∀ c ∈ vt, (!(c == '"') && !(c == '\n')) = true)
    (hst : status ≠ [] ∧ ∀ c ∈ status, (!(wsC c) && !(c == '"')) = true)
    (hby : bytes ≠ [] ∧ ∀ c ∈ bytes, (!(wsC c) && !(c == '"')) = true)
    (href : ∀ c ∈ ref, (!(c == '"') && !(c == '\n')) = true)
    (hua : ∀ c ∈ ua, (!(c == '"') && !(c == '\n')) = true)
    (hxff : ∀ c ∈ xff, (!(c == '"') && !(c == '\n')) = true)
    (hrid : ∀ c ∈ rid, (!(c == '"') && !(c == '\n')) = true)
    (hrbu : ∀ c ∈ rbu, (!(c == '"') && !(c == '\n')) = true)
    (hdur : (dur ≠ [] ∧ ∀ c ∈ dur, Char.isDigit c = true) ∨
      (∃ ds fs, dur = ds ++ '.' :: fs ∧ ds ≠ [] ∧ fs ≠ [] ∧
        (∀ c ∈ ds, Char.isDigit c = true) ∧ (∀ c ∈ fs, Char.isDigit c = true)))
    (htail : tailNL = [] ∨ tailNL = ['\n']) :
    process_line ⟨inLine o1 o2 o3 o4 ru xip ts method path ver status bytes
      ref ua xff rid rbu dur tailNL⟩ = some (⟨path⟩, parseNum dur) := by
  have hruF : ∀ c ∈ ru, wsC c = false ∧ anyC c = true := fun c hc =>
    ⟨fieldChar_not_ws c (hru.2 c hc), fieldChar_anyC c (hru.2 c hc)⟩
  have hxipF : ∀ c ∈ xip, wsC c = false ∧ anyC c = true := fun c hc =>
    ⟨fieldChar_not_ws c (hxip.2 c hc), fieldChar_anyC c (hxip.2 c hc)⟩
  have hmetF : ∀ c ∈ method, wsC c = false ∧ anyC c = true := fun c hc =>
    ⟨fieldChar_not_ws c (hmet.2 c hc), fieldChar_anyC c (hmet.2 c hc)⟩
  have hstF : ∀ c ∈ status, wsC c = false ∧ anyC c = true := fun c hc =>
    ⟨fieldChar_not_ws c (hst.2 c hc), fieldChar_anyC c (hst.2 c hc)⟩
  have hbyF : ∀ c ∈ bytes, wsC c = false ∧ anyC c = true := fun c hc =>
    ⟨fieldChar_not_ws c (hby.2 c hc), fieldChar_anyC c (hby.2 c hc)⟩
  have hpaF : ∀ c ∈ path, wsC c = false ∧ (c == '"') = false ∧ anyC c = true :=
    fun c hc => ⟨fieldChar_not_ws c (hpa.2 c hc),
      fieldChar_not_quote c (hpa.2 c hc), fieldChar_anyC c (hpa.2 c hc)⟩
  have htsF : ∀ c ∈ ts, (c == ']') = false ∧ anyC c = true := fun c hc =>
    ⟨tsChar_not_rb c (hts c hc), tsChar_anyC c (hts c hc)⟩
  have hrefQ : ∀ c ∈ ref, (c == '"') = false ∧ anyC c = true := fun c hc =>
    ⟨quotedChar_not_quote c (href c hc), quotedChar_anyC c (href c hc)⟩
  have huaQ : ∀ c ∈ ua, (c == '"') = false ∧ anyC c = true := fun c hc =>
    ⟨quotedChar_not_quote c (hua c hc), quotedChar_anyC c (hua c hc)⟩
  have hxffQ : ∀ c ∈ xff, (c == '"') = false ∧ anyC c = true := fun c hc =>
    ⟨quotedChar_not_quote c (hxff c hc), quotedChar_anyC c (hxff c hc)⟩
  have hridQ : ∀ c ∈ rid, (c == '"') = false ∧ anyC c = true := fun c hc =>
    ⟨quotedChar_not_quote c (hrid c hc), quotedChar_anyC c (hrid c hc)⟩
  have hrbuQ : ∀ c ∈ rbu, (c == '"') = false ∧ anyC c = true := fun c hc =>
    ⟨quotedChar_not_quote c (hrbu c hc), quotedChar_anyC c (hrbu c hc)⟩
  have hverA : ver = [] ∨ ∃ vt,
      ver = ' ' :: 'H' :: 'T' :: 'T' :: 'P' :: '/' :: vt ∧
      ∀ c ∈ vt, anyC c = true := by
    rcases hver with h | ⟨vt, hvt, hvc⟩
    · exact Or.inl h
    · exact Or.inr ⟨vt, hvt, fun c hc => quotedChar_anyC c (hvc c hc)⟩
  have hdurQ : ∀ c ∈ dur, (c == '"') = false ∧ anyC c = true := by
    rcases hdur with ⟨_, hdd⟩ | ⟨ds, fs, hshape, _, _, hdsd, hfsd⟩
    · exact fun c hc => ⟨digit_not_quote c (hdd c hc), digit_anyC c (hdd c hc)⟩
    · intro c hc
      rw [hshape] at hc
      rcases List.mem_append.mp hc with h | h
      · exact ⟨digit_not_quote c (hdsd c h), digit_anyC c (hdsd c h)⟩
      · rcases List.mem_cons.mp h with rfl | h2
        · exact ⟨rfl, rfl⟩
        · exact ⟨digit_not_quote c (hfsd c h2), digit_anyC c (hfsd c h2)⟩
  have hheadDur : headNot wsC (dur ++ tailNL) := by
    rcases hdur with ⟨hdne, hdd⟩ | ⟨ds, fs, hshape, hdsne, _, hdsd, _⟩
    · cases dur with
      | nil => exact absurd rfl hdne
      | cons d d2 => exact digit_not_ws d (hdd d (List.mem_cons_self d d2))
    · rw [hshape]
      cases ds with
      | nil => exact absurd rfl hdsne
      | cons d d2 => exact digit_not_ws d (hdsd d (List.mem_cons_self d d2))
  have hmidQ : ∀ c ∈ ' ' :: dur, (c == '"') = false ∧ anyC c = true := by
    intro c hc
    rcases List.mem_cons.mp hc with rfl | h
    · exact ⟨rfl, rfl⟩
    · exact hdurQ c h
  have hqst : quotes status = 0 :=
    quotes_eq_zero _ (fun c hc => fieldChar_not_quote c (hst.2 c hc))
  have hqby : quotes bytes = 0 :=
    quotes_eq_zero _ (fun c hc => fieldChar_not_quote c (hby.2 c hc))
  have hqref : quotes ref = 0 := quotes_eq_zero _ (fun c hc => (hrefQ c hc).1)
  have hqua : quotes ua = 0 := quotes_eq_zero _ (fun c hc => (huaQ c hc).1)
  have hqxff : quotes xff = 0 := quotes_eq_zero _ (fun c hc => (hxffQ c hc).1)
  have hqrid : quotes rid = 0 := quotes_eq_zero _ (fun c hc => (hridQ c hc).1)
  have hqrbu : quotes rbu = 0 := quotes_eq_zero _ (fun c hc => (hrbuQ c hc).1)
  have hqdur : quotes dur = 0 := quotes_eq_zero _ (fun c hc => (hdurQ c hc).1)
  obtain ⟨M, hMeq, hqM, hMany⟩ : ∃ M,
      inStatus status bytes ref ua xff rid rbu dur tailNL = M ++ tailNL ∧
      quotes M ≤ 10 ∧ ∀ c ∈ M, anyC c = true := by
    refine ⟨' ' :: (status ++ (' ' :: (bytes ++ (' ' :: ('"' :: (ref ++
      ('"' :: (' ' :: ('"' :: (ua ++ ('"' :: (' ' :: ('"' :: (xff ++
      ('"' :: (' ' :: ('"' :: (rid ++ ('"' :: (' ' :: ('"' :: (rbu ++
      ('"' :: (' ' :: dur)))))))))))))))))))))))), ?_, ?_, ?_⟩
    · simp [inStatus, inBytes, inRef, inUa, inXff, inRid, inRb, inDur,
        List.append_assoc]
    · simp only [quotes_append, quotes_cons, hqst, hqby, hqref, hqua, hqxff,
        hqrid, hqrbu, hqdur]
      decide
    · exact anyC_cons ' ' _ rfl (anyC_append status _
        (fun c hc => fieldChar_anyC c (hst.2 c hc))
        (anyC_cons ' ' _ rfl (anyC_append bytes _
        (fun c hc => fieldChar_anyC c (hby.2 c hc))
        (anyC_cons ' ' _ rfl (anyC_cons '"' _ rfl (anyC_append ref _
        (fun c hc => (hrefQ c hc).2)
        (anyC_cons '"' _ rfl (anyC_cons ' ' _ rfl (anyC_cons '"' _ rfl
        (anyC_append ua _ (fun c hc => (huaQ c hc).2)
        (anyC_cons '"' _ rfl (anyC_cons ' ' _ rfl (anyC_cons '"' _ rfl
        (anyC_append xff _ (fun c hc => (hxffQ c hc).2)
        (anyC_cons '"' _ rfl (anyC_cons ' ' _ rfl (anyC_cons '"' _ rfl
        (anyC_append rid _ (fun c hc => (hridQ c hc).2)
        (anyC_cons '"' _ rfl (anyC_cons ' ' _ rfl (anyC_cons '"' _ rfl
        (anyC_append rbu _ (fun c hc => (hrbuQ c hc).2)
        (anyC_cons '"' _ rfl (anyC_cons ' ' _ rfl
        (fun c hc => (hdurQ c hc).2)))))))))))))))))))))))))
  have hWsDur : ∀ (j : ℕ) (ms : List (ℕ × ℕ)),
      runRE (cat (wsPlus :: durAtoms)) (fun _ _ ms => some ms)
        (inDur dur tailNL) j ms
      = some (ms ++ [(2, j + 1), (3, j + 1 + dur.length)]) := by
    intro j ms
    show runRE (cat (wsPlus :: durAtoms)) (fun _ _ ms => some ms)
      (' ' :: (dur ++ tailNL)) j ms = _
    rw [runRE_cat_cons, run_wsPlus _ _ _ _ hheadDur]
    exact stage_dur dur tailNL (j + 1) ms hdur htail
  have hRb : ∀ (j : ℕ) (ms : List (ℕ × ℕ)),
      runRE (cat rbAtoms) (fun _ _ ms => some ms) (inRb rbu dur tailNL) j ms
      = some (ms ++ [(2, j + rbu.length + 3 + 1),
          (3, j + rbu.length + 3 + 1 + dur.length)]) := by
    intro j ms
    exact stage_rb (wsPlus :: durAtoms) rbu (' ' :: dur) tailNL j ms _
      hrbuQ hmidQ htail kfails_rbA (hWsDur (j + rbu.length + 3) ms)
  have hRid : ∀ (j : ℕ) (ms : List (ℕ × ℕ)),
      runRE (cat ridAtoms) (fun _ _ ms => some ms)
        (inRid rid rbu dur tailNL) j ms
      = some (ms ++ [(2, j + rid.length + 3 + rbu.length + 3 + 1),
          (3, j + rid.length + 3 + rbu.length + 3 + 1 + dur.length)]) := by
    intro j ms
    exact stage_quoted rbAtoms rid (inRb rbu dur tailNL) j ms _ hridQ
      (hRb (j + rid.length + 3) ms)
  have hXff : ∀ (j : ℕ) (ms : List (ℕ × ℕ)),
      runRE (cat xffAtoms) (fun _ _ ms => some ms)
        (inXff xff rid rbu dur tailNL) j ms
      = some (ms ++
          [(2, j + xff.length + 3 + rid.length + 3 + rbu.length + 3 + 1),
           (3, j + xff.length + 3 + rid.length + 3 + rbu.length + 3 + 1
              + dur.length)]) := by
    intro j ms
    exact stage_quoted ridAtoms xff (inRid rid rbu dur tailNL) j ms _ hxffQ
      (hRid (j + xff.length + 3) ms)
  have hUa : ∀ (j : ℕ) (ms : List (ℕ × ℕ)),
      runRE (cat uaAtoms) (fun _ _ ms => some ms)
        (inUa ua xff rid rbu dur tailNL) j ms
      = some (ms ++
          [(2, j + ua.length + 3 + xff.length + 3 + rid.length + 3
              + rbu.length + 3 + 1),
           (3, j + ua.length + 3 + xff.length + 3 + rid.length + 3
              + rbu.length + 3 + 1 + dur.length)]) := by
    intro j ms
    exact stage_quoted xffAtoms ua (inXff xff rid rbu dur tailNL) j ms _ huaQ
      (hXff (j + ua.length + 3) ms)
  have hRef : ∀ (j : ℕ) (ms : List (ℕ × ℕ)),
      runRE (cat refAtoms) (fun _ _ ms => some ms)
        (inRef ref ua xff rid rbu dur tailNL) j ms
      = some (ms ++
          [(2, j + ref.length + 3 + ua.length + 3 + xff.length + 3
              + rid.length + 3 + rbu.length + 3 + 1),
           (3, j + ref.length + 3 + ua.length + 3 + xff.length + 3
              + rid.length + 3 + rbu.length + 3 + 1 + dur.length)]) := by
    intro j ms
    exact stage_quoted uaAtoms ref (inUa ua xff rid rbu dur tailNL) j ms _
      hrefQ (hUa (j + ref.length + 3) ms)
  have hBytes : ∀ (j : ℕ) (ms : List (ℕ × ℕ)),
      runRE (cat bytesAtoms) (fun _ _ ms => some ms)
        (inBytes bytes ref ua xff rid rbu dur tailNL) j ms
      = some (ms ++
          [(2, j + 1 + bytes.length + ref.length + 3 + ua.length + 3
              + xff.length + 3 + rid.length + 3 + rbu.length + 3 + 1),
           (3, j + 1 + bytes.length + ref.length + 3 + ua.length + 3
              + xff.length + 3 + rid.length + 3 + rbu.length + 3 + 1
              + dur.length)]) := by
    intro j ms
    exact stage_field (lit "\"" :: .starL anyC :: lit "\"" :: uaAtoms) bytes
      (inRef ref ua xff rid rbu dur tailNL) j ms _ hby.1 hbyF
      (hRef (j + 1 + bytes.length) ms)
  have hStatus : ∀ (j : ℕ) (ms : List (ℕ × ℕ)),
      runRE (cat statusAtoms) (fun _ _ ms => some ms)
        (inStatus status bytes ref ua xff rid rbu dur tailNL) j ms
      = some (ms ++
          [(2, j + 1 + status.length + 1 + bytes.length + ref.length + 3
              + ua.length + 3 + xff.length + 3 + rid.length + 3
              + rbu.length + 3 + 1),
           (3, j + 1 + status.length + 1 + bytes.length + ref.length + 3
              + ua.length + 3 + xff.length + 3 + rid.length + 3
              + rbu.length + 3 + 1 + dur.length)]) := by
    intro j ms
    exact stage_field (.starL anyC :: refAtoms) status
      (inBytes bytes ref ua xff rid rbu dur tailNL) j ms _ hst.1 hstF
      (hBytes (j + 1 + status.length) ms)
  have hClose : ∀ (j : ℕ) (ms : List (ℕ × ℕ)),
      runRE (cat (lit "\"" :: statusAtoms)) (fun _ _ ms => some ms)
        ('"' :: inStatus status bytes ref ua xff rid rbu dur tailNL) j ms
      = some (ms ++
          [(2, j + 1 + 1 + status.length + 1 + bytes.length + ref.length + 3
              + ua.length + 3 + xff.length + 3 + rid.length + 3
              + rbu.length + 3 + 1),
           (3, j + 1 + 1 + status.length + 1 + bytes.length + ref.length + 3
              + ua.length + 3 + xff.length + 3 + rid.length + 3
              + rbu.length + 3 + 1 + dur.length)]) := by
    intro j ms
    rw [runRE_cat_cons, run_lit_q]
    exact hStatus (j + 1) ms
  have hVer : ∀ (j : ℕ) (ms : List (ℕ × ℕ)),
      runRE (cat verAtoms) (fun _ _ ms => some ms)
        (ver ++ ('"' :: inStatus status bytes ref ua xff rid rbu dur tailNL))
        j ms
      = some (ms ++
          [(2, j + ver.length + 1 + 1 + status.length + 1 + bytes.length
              + ref.length + 3 + ua.length + 3 + xff.length + 3
              + rid.length + 3 + rbu.length + 3 + 1),
           (3, j + ver.length + 1 + 1 + status.length + 1 + bytes.length
              + ref.length + 3 + ua.length + 3 + xff.length + 3
              + rid.length + 3 + rbu.length + 3 + 1 + dur.length)]) := by
    intro j ms
    have hnext : runRE (cat (lit "\"" :: statusAtoms)) (fun _ _ ms => some ms)
        ('"' :: (M ++ tailNL)) (j + ver.length) ms
        = some (ms ++
          [(2, j + ver.length + 1 + 1 + status.length + 1 + bytes.length
              + ref.length + 3 + ua.length + 3 + xff.length + 3
              + rid.length + 3 + rbu.length + 3 + 1),
           (3, j + ver.length + 1 + 1 + status.length + 1 + bytes.length
              + ref.length + 3 + ua.length + 3 + xff.length + 3
              + rid.length + 3 + rbu.length + 3 + 1 + dur.length)]) := by
      rw [← hMeq]
      exact hClose (j + ver.length) ms
    have h2 := stage_ver statusAtoms ver M tailNL j ms _ hverA hqM hMany
      htail kfails_closeA hnext
    rw [← hMeq] at h2
    exact h2
  have hMark1 : ∀ (j : ℕ) (ms : List (ℕ × ℕ)),
      runRE (cat (.mark 1 :: verAtoms)) (fun _ _ ms => some ms)
        (ver ++ ('"' :: inStatus status bytes ref ua xff rid rbu dur tailNL))
        j ms
      = some ((ms ++ [(1, j)]) ++
          [(2, j + ver.length + 1 + 1 + status.length + 1 + bytes.length
              + ref.length + 3 + ua.length + 3 + xff.length + 3
              + rid.length + 3 + rbu.length + 3 + 1),
           (3, j + ver.length + 1 + 1 + status.length + 1 + bytes.length
              + ref.length + 3 + ua.length + 3 + xff.length + 3
              + rid.length + 3 + rbu.length + 3 + 1 + dur.length)]) := by
    intro j ms
    rw [runRE_cat_cons, run_mark]
    exact hVer j (ms ++ [(1, j)])
  have hPath : ∀ (j : ℕ) (ms : List (ℕ × ℕ)),
      runRE (cat pathAtoms) (fun _ _ ms => some ms)
        (inPath path ver status bytes ref ua xff rid rbu dur tailNL) j ms
      = some (((ms ++ [(0, j + 1)]) ++ [(1, j + 1 + path.length)]) ++
          [(2, j + 1 + path.length + ver.length + 1 + 1 + status.length + 1
              + bytes.length + ref.length + 3 + ua.length + 3 + xff.length
              + 3 + rid.length + 3 + rbu.length + 3 + 1),
           (3, j + 1 + path.length + ver.length + 1 + 1 + status.length + 1
              + bytes.length + ref.length + 3 + ua.length + 3 + xff.length
              + 3 + rid.length + 3 + rbu.length + 3 + 1 + dur.length)]) := by
    intro j ms
    exact stage_path statusAtoms path
      (ver ++ ('"' :: inStatus status bytes ref ua xff rid rbu dur tailNL))
      j ms _ hpaF hpa.1 (hMark1 (j + 1 + path.length) (ms ++ [(0, j + 1)]))
  have hMethod : ∀ (j : ℕ) (ms : List (ℕ × ℕ)),
      runRE (cat methodAtoms) (fun _ _ ms => some ms)
        (inMethod method path ver status bytes ref ua xff rid rbu dur tailNL)
        j ms
      = some (((ms ++ [(0, j + 2 + method.length + 1)]) ++
          [(1, j + 2 + method.length + 1 + path.length)]) ++
          [(2, j + 2 + method.length + 1 + path.length + ver.length + 1 + 1
              + status.length + 1 + bytes.length + ref.length + 3
              + ua.length + 3 + xff.length + 3 + rid.length + 3
              + rbu.length + 3 + 1),
           (3, j + 2 + method.length + 1 + path.length + ver.length + 1 + 1
              + status.length + 1 + bytes.length + ref.length + 3
              + ua.length + 3 + xff.length + 3 + rid.length + 3
              + rbu.length + 3 + 1 + dur.length)]) := by
    intro j ms
    exact stage_method (.mark 0 :: .starL anyC :: .mark 1 :: verAtoms) method
      (inPath path ver status bytes ref ua xff rid rbu dur tailNL) j ms _
      hmet.1 hmetF (hPath (j + 2 + method.length) ms)
  have hTime : ∀ (j : ℕ) (ms : List (ℕ × ℕ)),
      runRE (cat timeAtoms) (fun _ _ ms => some ms)
        (inTime ts method path ver status bytes ref ua xff rid rbu dur tailNL)
        j ms
      = some (((ms ++ [(0, j + ts.length + 3 + 2 + method.length + 1)]) ++
          [(1, j + ts.length + 3 + 2 + method.length + 1 + path.length)]) ++
          [(2, j + ts.length + 3 + 2 + method.length + 1 + path.length
              + ver.length + 1 + 1 + status.length + 1 + bytes.length
              + ref.length + 3 + ua.length + 3 + xff.length + 3
              + rid.length + 3 + rbu.length + 3 + 1),
           (3, j + ts.length + 3 + 2 + method.length + 1 + path.length
              + ver.length + 1 + 1 + status.length + 1 + bytes.length
              + ref.length + 3 + ua.length + 3 + xff.length + 3
              + rid.length + 3 + rbu.length + 3 + 1 + dur.length)]) := by
    intro j ms
    exact stage_time methodAtoms ts
      (inMethod method path ver status bytes ref ua xff rid rbu dur tailNL)
      j ms _ htsF (hMethod (j + ts.length + 3) ms)
  have hXip : ∀ (j : ℕ) (ms : List (ℕ × ℕ)),
      runRE (cat xipAtoms) (fun _ _ ms => some ms)
        (inXip xip ts method path ver status bytes ref ua xff rid rbu dur
          tailNL) j ms
      = some (((ms ++
          [(0, j + 1 + xip.length + ts.length + 3 + 2 + method.length + 1)])
          ++ [(1, j + 1 + xip.length + ts.length + 3 + 2 + method.length + 1
              + path.length)]) ++
          [(2, j + 1 + xip.length + ts.length + 3 + 2 + method.length + 1
              + path.length + ver.length + 1 + 1 + status.length + 1
              + bytes.length + ref.length + 3 + ua.length + 3 + xff.length
              + 3 + rid.length + 3 + rbu.length + 3 + 1),
           (3, j + 1 + xip.length + ts.length + 3 + 2 + method.length + 1
              + path.length + ver.length + 1 + 1 + status.length + 1
              + bytes.length + ref.length + 3 + ua.length + 3 + xff.length
              + 3 + rid.length + 3 + rbu.length + 3 + 1 + dur.length)]) := by
    intro j ms
    exact stage_field (lit "[" :: .starL anyC :: lit "]" :: methodAtoms) xip
      (inTime ts method path ver status bytes ref ua xff rid rbu dur tailNL)
      j ms _ hxip.1 hxipF (hTime (j + 1 + xip.length) ms)
  have hRu : ∀ (j : ℕ) (ms : List (ℕ × ℕ)),
      runRE (cat ruAtoms) (fun _ _ ms => some ms)
        (inRu ru xip ts method path ver status bytes ref ua xff rid rbu dur
          tailNL) j ms
      = some (((ms ++
          [(0, j + 1 + ru.length + 1 + xip.length + ts.length + 3 + 2
              + method.length + 1)]) ++
          [(1, j + 1 + ru.length + 1 + xip.length + ts.length + 3 + 2
              + method.length + 1 + path.length)]) ++
          [(2, j + 1 + ru.length + 1 + xip.length + ts.length + 3 + 2
              + method.length + 1 + path.length + ver.length + 1 + 1
              + status.length + 1 + bytes.length + ref.length + 3
              + ua.length + 3 + xff.length + 3 + rid.length + 3
              + rbu.length + 3 + 1),
           (3, j + 1 + ru.length + 1 + xip.length + ts.length + 3 + 2
              + method.length + 1 + path.length + ver.length + 1 + 1
              + status.length + 1 + bytes.length + ref.length + 3
              + ua.length + 3 + xff.length + 3 + rid.length + 3
              + rbu.length + 3 + 1 + dur.length)]) := by
    intro j ms
    exact stage_field (.starL anyC :: timeAtoms) ru
      (inXip xip ts method path ver status bytes ref ua xff rid rbu dur
        tailNL) j ms _ hru.1 hruF (hXip (j + 1 + ru.length) ms)
  have hO4 : ∀ (j : ℕ) (ms : List (ℕ × ℕ)),
      runRE (cat (dig13 :: ruAtoms)) (fun _ _ ms => some ms)
        (o4 ++ inRu ru xip ts method path ver status bytes ref ua xff rid rbu
          dur tailNL) j ms
      = some (((ms ++
          [(0, j + o4.length + 1 + ru.length + 1 + xip.length + ts.length
              + 3 + 2 + method.length + 1)]) ++
          [(1, j + o4.length + 1 + ru.length + 1 + xip.length + ts.length
              + 3 + 2 + method.length + 1 + path.length)]) ++
          [(2, j + o4.length + 1 + ru.length + 1 + xip.length + ts.length
              + 3 + 2 + method.length + 1 + path.length + ver.length + 1 + 1
              + status.length + 1 + bytes.length + ref.length + 3
              + ua.length + 3 + xff.length + 3 + rid.length + 3
              + rbu.length + 3 + 1),
           (3, j + o4.length + 1 + ru.length + 1 + xip.length + ts.length
              + 3 + 2 + method.length + 1 + path.length + ver.length + 1 + 1
              + status.length + 1 + bytes.length + ref.length + 3
              + ua.length + 3 + xff.length + 3 + rid.length + 3
              + rbu.length + 3 + 1 + dur.length)]) := by
    intro j ms
    rw [runRE_cat_cons,
      run_dig13 (runRE (cat ruAtoms) (fun _ _ ms => some ms)) o4
        (inRu ru xip ts method path ver status bytes ref ua xff rid rbu dur
          tailNL) j ms hq4.1 hq4.2 (by exact rfl) (by rw [hRu]; simp)]
    exact hRu (j + o4.length) ms
  have hD4 : ∀ (j : ℕ) (ms : List (ℕ × ℕ)),
      runRE (cat (lit "." :: dig13 :: ruAtoms)) (fun _ _ ms => some ms)
        ('.' :: (o4 ++ inRu ru xip ts method path ver status bytes ref ua xff
          rid rbu dur tailNL)) j ms
      = some (((ms ++
          [(0, j + 1 + o4.length + 1 + ru.length + 1 + xip.length
              + ts.length + 3 + 2 + method.length + 1)]) ++
          [(1, j + 1 + o4.length + 1 + ru.length + 1 + xip.length
              + ts.length + 3 + 2 + method.length + 1 + path.length)]) ++
          [(2, j + 1 + o4.length + 1 + ru.length + 1 + xip.length
              + ts.length + 3 + 2 + method.length + 1 + path.length
              + ver.length + 1 + 1 + status.length + 1 + bytes.length
              + ref.length + 3 + ua.length + 3 + xff.length + 3
              + rid.length + 3 + rbu.length + 3 + 1),
           (3, j + 1 + o4.length + 1 + ru.length + 1 + xip.length
              + ts.length + 3 + 2 + method.length + 1 + path.length
              + ver.length + 1 + 1 + status.length + 1 + bytes.length
              + ref.length + 3 + ua.length + 3 + xff.length + 3
              + rid.length + 3 + rbu.length + 3 + 1 + dur.length)]) := by
    intro j ms
    rw [runRE_cat_cons, run_dot]
    exact hO4 (j + 1) ms
  have hO3 : ∀ (j : ℕ) (ms : List (ℕ × ℕ)),
      runRE (cat (dig13 :: lit "." :: dig13 :: ruAtoms))
        (fun _ _ ms => some ms)
        (o3 ++ ('.' :: (o4 ++ inRu ru xip ts method path ver status bytes ref
          ua xff rid rbu dur tailNL))) j ms
      = some (((ms ++
          [(0, j + o3.length + 1 + o4.length + 1 + ru.length + 1
              + xip.length + ts.length + 3 + 2 + method.length + 1)]) ++
          [(1, j + o3.length + 1 + o4.length + 1 + ru.length + 1
              + xip.length + ts.length + 3 + 2 + method.length + 1
              + path.length)]) ++
          [(2, j + o3.length + 1 + o4.length + 1 + ru.length + 1
              + xip.length + ts.length + 3 + 2 + method.length + 1
              + path.length + ver.length + 1 + 1 + status.length + 1
              + bytes.length + ref.length + 3 + ua.length + 3 + xff.length
              + 3 + rid.length + 3 + rbu.length + 3 + 1),
           (3, j + o3.length + 1 + o4.length + 1 + ru.length + 1
              + xip.length + ts.length + 3 + 2 + method.length + 1
              + path.length + ver.length + 1 + 1 + status.length + 1
              + bytes.length + ref.length + 3 + ua.length + 3 + xff.length
              + 3 + rid.length + 3 + rbu.length + 3 + 1 + dur.length)]) := by
    intro j ms
    rw [runRE_cat_cons,
      run_dig13 (runRE (cat (lit "." :: dig13 :: ruAtoms))
          (fun _ _ ms => some ms)) o3
        ('.' :: (o4 ++ inRu ru xip ts method path ver status bytes ref ua xff
          rid rbu dur tailNL)) j ms hq3.1 hq3.2 (by exact rfl)
        (by rw [hD4]; simp)]
    exact hD4 (j + o3.length) ms
  have hD3 : ∀ (j : ℕ) (ms : List (ℕ × ℕ)),
      runRE (cat (lit "." :: dig13 :: lit "." :: dig13 :: ruAtoms))
        (fun _ _ ms => some ms)
        ('.' :: (o3 ++ ('.' :: (o4 ++ inRu ru xip ts method path ver status
          bytes ref ua xff rid rbu dur tailNL)))) j ms
      = some (((ms ++
          [(0, j + 1 + o3.length + 1 + o4.length + 1 + ru.length + 1
              + xip.length + ts.length + 3 + 2 + method.length + 1)]) ++
          [(1, j + 1 + o3.length + 1 + o4.length + 1 + ru.length + 1
              + xip.length + ts.length + 3 + 2 + method.length + 1
              + path.length)]) ++
          [(2, j + 1 + o3.length + 1 + o4.length + 1 + ru.length + 1
              + xip.length + ts.length + 3 + 2 + method.length + 1
              + path.length + ver.length + 1 + 1 + status.length + 1
              + bytes.length + ref.length + 3 + ua.length + 3 + xff.length
              + 3 + rid.length + 3 + rbu.length + 3 + 1),
           (3, j + 1 + o3.length + 1 + o4.length + 1 + ru.length + 1
              + xip.length + ts.length + 3 + 2 + method.length + 1
              + path.length + ver.length + 1 + 1 + status.length + 1
              + bytes.length + ref.length + 3 + ua.length + 3 + xff.length
              + 3 + rid.length + 3 + rbu.length + 3 + 1 + dur.length)]) := by
    intro j ms
    rw [runRE_cat_cons, run_dot]
    exact hO3 (j + 1) ms
  have hO2 : ∀ (j : ℕ) (ms : List (ℕ × ℕ)),
      runRE (cat (dig13 :: lit "." :: dig13 :: lit "." :: dig13 :: ruAtoms))
        (fun _ _ ms => some ms)
        (o2 ++ ('.' :: (o3 ++ ('.' :: (o4 ++ inRu ru xip ts method path ver
          status bytes ref ua xff rid rbu dur tailNL))))) j ms
      = some (((ms ++
          [(0, j + o2.length + 1 + o3.length + 1 + o4.length + 1 + ru.length
              + 1 + xip.length + ts.length + 3 + 2 + method.length + 1)]) ++
          [(1, j + o2.length + 1 + o3.length + 1 + o4.length + 1 + ru.length
              + 1 + xip.length + ts.length + 3 + 2 + method.length + 1
              + path.length)]) ++
          [(2, j + o2.length + 1 + o3.length + 1 + o4.length + 1 + ru.length
              + 1 + xip.length + ts.length + 3 + 2 + method.length + 1
              + path.length + ver.length + 1 + 1 + status.length + 1
              + bytes.length + ref.length + 3 + ua.length + 3 + xff.length
              + 3 + rid.length + 3 + rbu.length + 3 + 1),
           (3, j + o2.length + 1 + o3.length + 1 + o4.length + 1 + ru.length
              + 1 + xip.length + ts.length + 3 + 2 + method.length + 1
              + path.length + ver.length + 1 + 1 + status.length + 1
              + bytes.length + ref.length + 3 + ua.length + 3 + xff.length
              + 3 + rid.length + 3 + rbu.length + 3 + 1 + dur.length)]) := by
    intro j ms
    rw [runRE_cat_cons,
      run_dig13 (runRE (cat (lit "." :: dig13 :: lit "." :: dig13 :: ruAtoms))
          (fun _ _ ms => some ms)) o2
        ('.' :: (o3 ++ ('.' :: (o4 ++ inRu ru xip ts method path ver status
          bytes ref ua xff rid rbu dur tailNL)))) j ms hq2.1 hq2.2
        (by exact rfl) (by rw [hD3]; simp)]
    exact hD3 (j + o2.length) ms
  have hD2 : ∀ (j : ℕ) (ms : List (ℕ × ℕ)),
      runRE (cat (lit "." :: dig13 :: lit "." :: dig13 :: lit "." :: dig13
        :: ruAtoms)) (fun _ _ ms => some ms)
        ('.' :: (o2 ++ ('.' :: (o3 ++ ('.' :: (o4 ++ inRu ru xip ts method
          path ver status bytes ref ua xff rid rbu dur tailNL)))))) j ms
      = some (((ms ++
          [(0, j + 1 + o2.length + 1 + o3.length + 1 + o4.length + 1
              + ru.length + 1 + xip.length + ts.length + 3 + 2
              + method.length + 1)]) ++
          [(1, j + 1 + o2.length + 1 + o3.length + 1 + o4.length + 1
              + ru.length + 1 + xip.length + ts.length + 3 + 2
              + method.length + 1 + path.length)]) ++
          [(2, j + 1 + o2.length + 1 + o3.length + 1 + o4.length + 1
              + ru.length + 1 + xip.length + ts.length + 3 + 2
              + method.length + 1 + path.length + ver.length + 1 + 1
              + status.length + 1 + bytes.length + ref.length + 3
              + ua.length + 3 + xff.length + 3 + rid.length + 3
              + rbu.length + 3 + 1),
           (3, j + 1 + o2.length + 1 + o3.length + 1 + o4.length + 1
              + ru.length + 1 + xip.length + ts.length + 3 + 2
              + method.length + 1 + path.length + ver.length + 1 + 1
              + status.length + 1 + bytes.length + ref.length + 3
              + ua.length + 3 + xff.length + 3 + rid.length + 3
              + rbu.length + 3 + 1 + dur.length)]) := by
    intro j ms
    rw [runRE_cat_cons, run_dot]
    exact hO2 (j + 1) ms
  have hO1 : ∀ (j : ℕ) (ms : List (ℕ × ℕ)),
      runRE (cat (dig13 :: lit "." :: dig13 :: lit "." :: dig13 :: lit "."
        :: dig13 :: ruAtoms)) (fun _ _ ms => some ms)
        (o1 ++ ('.' :: (o2 ++ ('.' :: (o3 ++ ('.' :: (o4 ++ inRu ru xip ts
          method path ver status bytes ref ua xff rid rbu dur tailNL)))))))
        j ms
      = some (((ms ++
          [(0, j + o1.length + 1 + o2.length + 1 + o3.length + 1 + o4.length
              + 1 + ru.length + 1 + xip.length + ts.length + 3 + 2
              + method.length + 1)]) ++
          [(1, j + o1.length + 1 + o2.length + 1 + o3.length + 1 + o4.length
              + 1 + ru.length + 1 + xip.length + ts.length + 3 + 2
              + method.length + 1 + path.length)]) ++
          [(2, j + o1.length + 1 + o2.length + 1 + o3.length + 1 + o4.length
              + 1 + ru.length + 1 + xip.length + ts.length + 3 + 2
              + method.length + 1 + path.length + ver.length + 1 + 1
              + status.length + 1 + bytes.length + ref.length + 3
              + ua.length + 3 + xff.length + 3 + rid.length + 3
              + rbu.length + 3 + 1),
           (3, j + o1.length + 1 + o2.length + 1 + o3.length + 1 + o4.length
              + 1 + ru.length + 1 + xip.length + ts.length + 3 + 2
              + method.length + 1 + path.length + ver.length + 1 + 1
              + status.length + 1 + bytes.length + ref.length + 3
              + ua.length + 3 + xff.length + 3 + rid.length + 3
              + rbu.length + 3 + 1 + dur.length)]) := by
    intro j ms
    rw [runRE_cat_cons,
      run_dig13 (runRE (cat (lit "." :: dig13 :: lit "." :: dig13 :: lit "."
          :: dig13 :: ruAtoms)) (fun _ _ ms => some ms)) o1
        ('.' :: (o2 ++ ('.' :: (o3 ++ ('.' :: (o4 ++ inRu ru xip ts method
          path ver status bytes ref ua xff rid rbu dur tailNL)))))) j ms
        hq1.1 hq1.2 (by exact rfl) (by rw [hD2]; simp)]
    exact hD2 (j + o1.length) ms
  have hrun : runRE nginxRE (fun _ _ ms => some ms)
      (String.toList ⟨inLine o1 o2 o3 o4 ru xip ts method path ver status
        bytes ref ua xff rid rbu dur tailNL⟩) 0 []
      = some ((([] ++
          [(0, 0 + o1.length + 1 + o2.length + 1 + o3.length + 1 + o4.length
              + 1 + ru.length + 1 + xip.length + ts.length + 3 + 2
              + method.length + 1)]) ++
          [(1, 0 + o1.length + 1 + o2.length + 1 + o3.length + 1 + o4.length
              + 1 + ru.length + 1 + xip.length + ts.length + 3 + 2
              + method.length + 1 + path.length)]) ++
          [(2, 0 + o1.length + 1 + o2.length + 1 + o3.length + 1 + o4.length
              + 1 + ru.length + 1 + xip.length + ts.length + 3 + 2
              + method.length + 1 + path.length + ver.length + 1 + 1
              + status.length + 1 + bytes.length + ref.length + 3
              + ua.length + 3 + xff.length + 3 + rid.length + 3
              + rbu.length + 3 + 1),
           (3, 0 + o1.length + 1 + o2.length + 1 + o3.length + 1 + o4.length
              + 1 + ru.length + 1 + xip.length + ts.length + 3 + 2
              + method.length + 1 + path.length + ver.length + 1 + 1
              + status.length + 1 + bytes.length + ref.length + 3
              + ua.length + 3 + xff.length + 3 + rid.length + 3
              + rbu.length + 3 + 1 + dur.length)]) := by
    rw [nginxRE_atoms]
    exact hO1 0 []
  rw [show (([] ++
        [(0, 0 + o1.length + 1 + o2.length + 1 + o3.length + 1 + o4.length
            + 1 + ru.length + 1 + xip.length + ts.length + 3 + 2
            + method.length + 1)]) ++
        [(1, 0 + o1.length + 1 + o2.length + 1 + o3.length + 1 + o4.length
            + 1 + ru.length + 1 + xip.length + ts.length + 3 + 2
            + method.length + 1 + path.length)]) ++
        [(2, 0 + o1.length + 1 + o2.length + 1 + o3.length + 1 + o4.length
            + 1 + ru.length + 1 + xip.length + ts.length + 3 + 2
            + method.length + 1 + path.length + ver.length + 1 + 1
            + status.length + 1 + bytes.length + ref.length + 3
            + ua.length + 3 + xff.length + 3 + rid.length + 3
            + rbu.length + 3 + 1),
         (3, 0 + o1.length + 1 + o2.length + 1 + o3.length + 1 + o4.length
            + 1 + ru.length + 1 + xip.length + ts.length + 3 + 2
            + method.length + 1 + path.length + ver.length + 1 + 1
            + status.length + 1 + bytes.length + ref.length + 3
            + ua.length + 3 + xff.length + 3 + rid.length + 3
            + rbu.length + 3 + 1 + dur.length)]
      = [(0, 0 + o1.length + 1 + o2.length + 1 + o3.length + 1 + o4.length
            + 1 + ru.length + 1 + xip.length + ts.length + 3 + 2
            + method.length + 1),
         (1, 0 + o1.length + 1 + o2.length + 1 + o3.length + 1 + o4.length
            + 1 + ru.length + 1 + xip.length + ts.length + 3 + 2
            + method.length + 1 + path.length),
         (2, 0 + o1.length + 1 + o2.length + 1 + o3.length + 1 + o4.length
            + 1 + ru.length + 1 + xip.length + ts.length + 3 + 2
            + method.length + 1 + path.length + ver.length + 1 + 1
            + status.length + 1 + bytes.length + ref.length + 3
            + ua.length + 3 + xff.length + 3 + rid.length + 3
            + rbu.length + 3 + 1),
         (3, 0 + o1.length + 1 + o2.length + 1 + o3.length + 1 + o4.length
            + 1 + ru.length + 1 + xip.length + ts.length + 3 + 2
            + method.length + 1 + path.length + ver.length + 1 + 1
            + status.length + 1 + bytes.length + ref.length + 3
            + ua.length + 3 + xff.length + 3 + rid.length + 3
            + rbu.length + 3 + 1 + dur.length)] from by simp] at hrun
  have hres := process_line_of_run
    ⟨inLine o1 o2 o3 o4 ru xip ts method path ver status bytes ref ua xff rid
      rbu dur tailNL⟩ _ hrun
  rw [markPos_c0, markPos_c1, markPos_c2, markPos_c3] at hres
  have hslice1 : sliceChars (String.toList ⟨inLine o1 o2 o3 o4 ru xip ts
      method path ver status bytes ref ua xff rid rbu dur tailNL⟩)
      (0 + o1.length + 1 + o2.length + 1 + o3.length + 1 + o4.length + 1
        + ru.length + 1 + xip.length + ts.length + 3 + 2 + method.length + 1)
      (0 + o1.length + 1 + o2.length + 1 + o3.length + 1 + o4.length + 1
        + ru.length + 1 + xip.length + ts.length + 3 + 2 + method.length + 1
        + path.length)
      = path := by
    have hsp : (String.toList ⟨inLine o1 o2 o3 o4 ru xip ts method path ver
        status bytes ref ua xff rid rbu dur tailNL⟩ : List Char)
        = (o1 ++ ('.' :: (o2 ++ ('.' :: (o3 ++ ('.' :: (o4 ++ (' ' :: (ru ++
          (' ' :: (xip ++ (' ' :: ('[' :: (ts ++ (']' :: (' ' :: ('"' ::
          (method ++ [' '])))))))))))))))))) ++ (path ++ (ver ++
          ('"' :: inStatus status bytes ref ua xff rid rbu dur tailNL))) := by
      show inLine o1 o2 o3 o4 ru xip ts method path ver status bytes ref ua
        xff rid rbu dur tailNL = _
      simp [inLine, inRu, inXip, inTime, inMethod, inPath, List.append_assoc]
    rw [hsp]
    exact sliceChars_pre_mid _ path _ _ _
      (by simp only [List.length_append, List.length_cons, List.length_nil]
          omega)
      (by simp only [List.length_append, List.length_cons, List.length_nil]
          omega)
  have hslice2 : sliceChars (String.toList ⟨inLine o1 o2 o3 o4 ru xip ts
      method path ver status bytes ref ua xff rid rbu dur tailNL⟩)
      (0 + o1.length + 1 + o2.length + 1 + o3.length + 1 + o4.length + 1
        + ru.length + 1 + xip.length + ts.length + 3 + 2 + method.length + 1
        + path.length + ver.length + 1 + 1 + status.length + 1 + bytes.length
        + ref.length + 3 + ua.length + 3 + xff.length + 3 + rid.length + 3
        + rbu.length + 3 + 1)
      (0 + o1.length + 1 + o2.length + 1 + o3.length + 1 + o4.length + 1
        + ru.length + 1 + xip.length + ts.length + 3 + 2 + method.length + 1
        + path.length + ver.length + 1 + 1 + status.length + 1 + bytes.length
        + ref.length + 3 + ua.length + 3 + xff.length + 3 + rid.length + 3
        + rbu.length + 3 + 1 + dur.length)
      = dur := by
    have hsd : (String.toList ⟨inLine o1 o2 o3 o4 ru xip ts method path ver
        status bytes ref ua xff rid rbu dur tailNL⟩ : List Char)
        = (o1 ++ ('.' :: (o2 ++ ('.' :: (o3 ++ ('.' :: (o4 ++ (' ' :: (ru ++
          (' ' :: (xip ++ (' ' :: ('[' :: (ts ++ (']' :: (' ' :: ('"' ::
          (method ++ (' ' :: (path ++ (ver ++ ('"' :: (' ' :: (status ++
          (' ' :: (bytes ++ (' ' :: ('"' :: (ref ++ ('"' :: (' ' :: ('"' ::
          (ua ++ ('"' :: (' ' :: ('"' :: (xff ++ ('"' :: (' ' :: ('"' ::
          (rid ++ ('"' :: (' ' :: ('"' :: (rbu ++ ('"' :: [' ']))))))))))))))))))))))))))))))))))))))))))))))
          ++ (dur ++ tailNL) := by
      show inLine o1 o2 o3 o4 ru xip ts method path ver status bytes ref ua
        xff rid rbu dur tailNL = _
      simp [inLine, inRu, inXip, inTime, inMethod, inPath, inStatus, inBytes,
        inRef, inUa, inXff, inRid, inRb, inDur, List.append_assoc]
    rw [hsd]
    exact sliceChars_pre_mid _ dur _ _ _
      (by simp only [List.length_append, List.length_cons, List.length_nil]
          omega)
      (by simp only [List.length_append, List.length_cons, List.length_nil]
          omega)
  rw [hslice1, hslice2] at hres
  exact hres

theorem process_line_nonneg (line p : String) (t : ℚ)
    (h : process_line line = some (p, t)) : 0 ≤ t := by
  cases hrun : runRE nginxRE (fun _ _ ms => some ms) line.toList 0 [] with
  | none =>
      have hnone : process_line line = none := by
        simp only [process_line, hrun]
      rw [hnone] at h
      exact absurd h (by simp)
  | some ms =>
      have h2 := process_line_of_run line ms hrun
      rw [h2] at h
      have h3 := Option.some.inj h
      have ht : parseNum (sliceChars line.toList (markPos ms 2)
          (markPos ms 3)) = t := congrArg Prod.snd h3
      rw [← ht]
      exact parseNum_nonneg _

theorem valid_line_matches (line : String) (hval : validLineSpec line = true) :
    ∃ p t, process_line line = some (p, t) ∧ 0 ≤ t ∧ p ≠ "" := by
  obtain ⟨o1, o2, o3, o4, ru, xip, ts, method, path, ver, status, bytes, ref,
    ua, xff, rid, rbu, dur, tailNL, hdec, hq1, hq2, hq3, hq4, hru, hxip, hts,
    hmet, hpa, hver, hst, hby, href, hua, hxff, hrid, hrbu, hdur, htail⟩ :=
    validLineSpec_decomp line hval
  have hmatch := nginx_match_shape o1 o2 o3 o4 ru xip ts method path ver
    status bytes ref ua xff rid rbu dur tailNL hq1 hq2 hq3 hq4 hru hxip hts
    hmet hpa hver hst hby href hua hxff hrid hrbu hdur htail
  have hline : line = ⟨inLine o1 o2 o3 o4 ru xip ts method path ver status
      bytes ref ua xff rid rbu dur tailNL⟩ := congrArg String.mk hdec
  rw [← hline] at hmatch
  refine ⟨⟨path⟩, parseNum dur, hmatch, parseNum_nonneg dur, ?_⟩
  intro hemp
  have hnil : path = [] := congrArg String.toList hemp
  exact absurd hnil hpa.1

/-- **C5** (amended): for every raw text line, `process_line` returns a
(path, duration) pair with duration ≥ 0 whenever it returns at all, and on
every valid line of the documented combined-log format it returns such a
pair with a non-empty path; it never raises (it is a total function) and
never emits a partial record. The original claim's converse — no-match for
every line violating the format — is false (see the counterexample): the
regex is not anchored at the end of the line. -/
theorem process_line_contract :
    (∀ (line p : String) (t : ℚ), process_line line = some (p, t) → 0 ≤ t) ∧
    (∀ line : String, validLineSpec line = true →
      ∃ p t, process_line line = some (p, t) ∧ 0 ≤ t ∧ p ≠ "") :=
  ⟨fun line p t h => process_line_nonneg line p t h,
   fun line hval => valid_line_matches line hval⟩

/-- Witness for **C5**: a concrete valid line on which the contract is
discharged. -/
theorem process_line_contract_witness :
    validLineSpec
      "1.2.3.4 - - [x] \"GET /u HTTP/1.1\" 200 5 \"-\" \"-\" \"-\" \"-\" \"-\" 0.5"
      = true ∧
    ∃ p t, process_line
      "1.2.3.4 - - [x] \"GET /u HTTP/1.1\" 200 5 \"-\" \"-\" \"-\" \"-\" \"-\" 0.5"
      = some (p, t) ∧ 0 ≤ t ∧ p ≠ "" :=
  ⟨by rfl, process_line_contract.2 _ (by rfl)⟩

/-- **C5** as stated is false: `NGINX_LOG_FORMAT_REGEXP` is applied with
`re.match`, which does not anchor the end of the line, so a line whose
trailing duration field is followed by garbage (here `0.5x`) violates the
documented format yet still produces a match. -/
theorem process_line_format_counterexample :
    ¬ (∀ line : String,
        (validLineSpec line = true →
          ∃ p t, process_line line = some (p, t) ∧ 0 ≤ t ∧ p ≠ "") ∧
        (validLineSpec line = false → process_line line = none)) := by
  intro h
  have hbad := (h "1.1.1.1 - - [t] \"G /p\" 1 1 \"-\" \"-\" \"-\" \"-\" \"-\" 0.5x").2
    (by rfl)
  have hsome : (process_line
      "1.1.1.1 - - [t] \"G /p\" 1 1 \"-\" \"-\" \"-\" \"-\" \"-\" 0.5x").isSome
      = true := by rfl
  rw [hbad] at hsome
  exact absurd hsome (by simp)

end LogAnalyzer
